import Mathlib

/-!
# A verification development for the generic directed graph container `Graph<N, E>`

The container stores its nodes in a `std::list<std::shared_ptr<Node>>` and its edges in a
`std::list<Edge>`, where an `Edge` holds two `std::weak_ptr<Node>` and a weight.

Embedding.
* A shared allocation is identified by a natural number, its address (`Node.addr`).  The node
  collection is the only lasting owner of a node, so a `weak_ptr` with address `p` locks
  successfully exactly when a node with address `p` is still in the node collection.
  Addresses are handed out by a counter (`Graph.next_addr`) and never reused, as an expired
  `weak_ptr` never becomes valid again.
* List iterators into the node collection are positions; `end()` is the length of the list.
* The degree counters have type `unsigned`; they are natural numbers and every increment and
  decrement is reduced modulo `UINT_MOD = 2 ^ 32`.
* A thrown `std::runtime_error` and the dereference of an expired `weak_ptr`
  (`src_ptr.lock()->get_data()` on a null pointer) are results of type `Err`.  A function
  that can fail returns its outcome together with the state it leaves behind.
-/

/-- Number of values of the type `unsigned` of the degree counters. -/
def UINT_MOD : Nat := 4294967296

/-- The operator `++` on an `unsigned` counter. -/
def inc_counter (c : Nat) : Nat := (c + 1) % UINT_MOD

/-- The operator `--` on an `unsigned` counter. -/
def dec_counter (c : Nat) : Nat := (c + (UINT_MOD - 1)) % UINT_MOD

/-- Failures: the `std::runtime_error`s thrown by the container (one constructor per kind of
message) and the dereference of an expired `weak_ptr`, of a singular or of a past-the-end
cursor. -/
inductive Err where
  | src_not_in_graph
  | dst_not_in_graph
  | old_not_in_graph
  | new_not_in_graph
  | node_not_in_graph
  | expired_deref
  | bad_cursor
deriving DecidableEq

/-- The failures that are a thrown "missing node" `std::runtime_error`. -/
def Err.isMissingNode : Err → Bool
  | .expired_deref => false
  | .bad_cursor => false
  | _ => true

deriving instance DecidableEq for Except

/-! ## Iterator style helpers on lists -/

/-- Position returned by `std::find_if`: the position of the first element satisfying `p`,
or the length of the list (`end()`) when there is none. -/
def find_if {α : Type} (p : α → Bool) : List α → Nat
  | [] => 0
  | a :: l => if p a then 0 else find_if p l + 1

/-- Effect of `(*it)->f()` for the iterator at position `i`. -/
def modify_at {α : Type} (f : α → α) : Nat → List α → List α
  | _, [] => []
  | 0, a :: l => f a :: l
  | i + 1, a :: l => a :: modify_at f i l

/-- Effect of `list.erase(it)` for the iterator at position `i`. -/
def erase_at {α : Type} : Nat → List α → List α
  | _, [] => []
  | 0, _ :: l => l
  | i + 1, a :: l => a :: erase_at i l

/-- Search of `std::find_if` with a predicate that may fail: the predicate is run on the
elements in order up to the first match; the result is the position of the match or the
length of the list. -/
def find_if_exc {α : Type} (p : α → Except Err Bool) : List α → Except Err Nat
  | [] => .ok 0
  | a :: l =>
    match p a with
    | .error e => .error e
    | .ok true => .ok 0
    | .ok false =>
      match find_if_exc p l with
      | .error e => .error e
      | .ok i => .ok (i + 1)

/-- Pass of `std::list::remove_if` with a predicate that may fail: the predicate is run on
every element in order. -/
def remove_if_exc {α : Type} (p : α → Except Err Bool) : List α → Except Err (List α)
  | [] => .ok []
  | a :: l =>
    match p a with
    | .error e => .error e
    | .ok b =>
      match remove_if_exc p l with
      | .error e => .error e
      | .ok r => .ok (if b then r else a :: r)

/-- Result of `std::list::unique` after the first element `prev` of the current group: an
element equal to the retained one is dropped. -/
def unique_from {α : Type} (eq : α → α → Bool) (prev : α) : List α → List α
  | [] => []
  | b :: l => if eq prev b then unique_from eq prev l else b :: unique_from eq b l

/-- Result of `std::list::unique`: of every group of consecutive equal elements only the
first is left. -/
def unique {α : Type} (eq : α → α → Bool) : List α → List α
  | [] => []
  | a :: l => a :: unique_from eq a l

/-- Result of `std::list::sort` with the comparison `lt`: the stable sort, here by insertion
(an element is placed before the first element that is not smaller than it). -/
def sort {α : Type} (lt : α → α → Bool) (l : List α) : List α :=
  List.insertionSort (fun a b => lt b a = false) l

/-! ## Node -/

/-- A `Node` in its shared allocation: the address of the allocation, the value and the two
degree counters. -/
structure Graph.Node (N : Type) where
  addr : Nat
  data : N
  in_degree : Nat
  out_degree : Nat
deriving DecidableEq

namespace Graph.Node

variable {N : Type}

/-- Modelled from the spec: the declaration of `Node` is not part of the sources; a node
created from a value starts with both degree counters at 0 (a fresh node has no edges). -/
def mk_node (addr : Nat) (val : N) : Node N := ⟨addr, val, 0, 0⟩

def get_data (n : Node N) : N := n.data

def set_data (new_data : N) (n : Node N) : Node N := { n with data := new_data }

def get_in_degree (n : Node N) : Nat := n.in_degree

def get_out_degree (n : Node N) : Nat := n.out_degree

def inc_in_degree (n : Node N) : Node N := { n with in_degree := inc_counter n.in_degree }

def inc_out_degree (n : Node N) : Node N := { n with out_degree := inc_counter n.out_degree }

def dec_in_degree (n : Node N) : Node N := { n with in_degree := dec_counter n.in_degree }

def dec_out_degree (n : Node N) : Node N := { n with out_degree := dec_counter n.out_degree }

/-- Modelled from the spec: `Node::operator<` is declared outside the sources; nodes are
ordered by the natural ordering of their values. -/
def lt [LinearOrder N] (a b : Node N) : Bool := decide (a.data < b.data)

end Graph.Node

/-! ## Edge -/

/-- An `Edge`: the addresses held by the two `weak_ptr`s and the weight. -/
structure Graph.Edge (E : Type) where
  src_ptr : Nat
  dst_ptr : Nat
  weight : E
deriving DecidableEq

/-- Position in the node collection of the allocation with address `p`, or the length of the
collection when the allocation has been released. -/
def Graph.locate {N : Type} (nodes : List (Graph.Node N)) (p : Nat) : Nat :=
  find_if (fun n => decide (n.addr = p)) nodes

/-- Result of `weak_ptr::lock()`: the node, when it is still owned by the node collection. -/
def Graph.lock {N : Type} (nodes : List (Graph.Node N)) (p : Nat) : Option (Graph.Node N) :=
  nodes[Graph.locate nodes p]?

namespace Graph.Edge

variable {N E : Type}

def get_src_data (nodes : List (Node N)) (e : Edge E) : Except Err N :=
  match lock nodes e.src_ptr with
  | some n => .ok n.get_data
  | none => .error .expired_deref

def get_dst_data (nodes : List (Node N)) (e : Edge E) : Except Err N :=
  match lock nodes e.dst_ptr with
  | some n => .ok n.get_data
  | none => .error .expired_deref

def get_weight (e : Edge E) : E := e.weight

def set_src_node (src : Node N) (e : Edge E) : Edge E := { e with src_ptr := src.addr }

def set_dst_node (dst : Node N) (e : Edge E) : Edge E := { e with dst_ptr := dst.addr }

/-- The triple (source value, destination value, weight) read through the accessors. -/
def triple (nodes : List (Node N)) (e : Edge E) : Except Err (N × N × E) :=
  match e.get_src_data nodes with
  | .error err => .error err
  | .ok s =>
    match e.get_dst_data nodes with
    | .error err => .error err
    | .ok d => .ok (s, d, e.get_weight)

/-- The predicate `get_src_data() == src && get_dst_data() == dst && get_weight() == w` of
`addEdge` and `deleteEdge`; `&&` evaluates its right operand only when the left one holds. -/
def matches_triple [DecidableEq N] [DecidableEq E] (nodes : List (Node N)) (src dst : N)
    (w : E) (e : Edge E) : Except Err Bool :=
  match e.get_src_data nodes with
  | .error err => .error err
  | .ok s =>
    if s = src then
      match e.get_dst_data nodes with
      | .error err => .error err
      | .ok d => .ok (decide (d = dst) && decide (e.get_weight = w))
    else .ok false

/-- The predicate of `isConnected`: both accessors are evaluated, then `b1 && b2`. -/
def connects [DecidableEq N] (nodes : List (Node N)) (src dst : N) (e : Edge E) :
    Except Err Bool :=
  match e.get_src_data nodes with
  | .error err => .error err
  | .ok s =>
    match e.get_dst_data nodes with
    | .error err => .error err
    | .ok d => .ok (decide (s = src) && decide (d = dst))

end Graph.Edge

/-- Modelled from the spec: `Edge::operator<` is declared outside the sources; edges are
ordered by the triple (source value, destination value, weight), lexicographically. -/
def Graph.triple_lt {N E : Type} [LinearOrder N] [LinearOrder E] (a b : N × N × E) : Bool :=
  decide (a.1 < b.1) ||
    (decide (a.1 = b.1) &&
      (decide (a.2.1 < b.2.1) || (decide (a.2.1 = b.2.1) && decide (a.2.2 < b.2.2))))

/-- Modelled from the spec: `Edge::operator==` is declared outside the sources; edges are
equal when their triples (source value, destination value, weight) are equal. -/
def Graph.triple_eq {N E : Type} [DecidableEq N] [DecidableEq E] (a b : N × N × E) : Bool :=
  decide (a.1 = b.1) && decide (a.2.1 = b.2.1) && decide (a.2.2 = b.2.2)

/-! ## Graph -/

/-- The cursor `const_iter`: a list iterator stays attached to its element (also through
`std::list::sort`), so it is the address of the element it points to, or past the end, or
the singular value of a default constructed iterator. -/
inductive Graph.Cursor where
  | singular
  | at_node (addr : Nat)
  | past_end
deriving DecidableEq

/-- The state of a `Graph<N, E>`. -/
structure Graph (N E : Type) where
  nodes_sp : List (Graph.Node N)
  edges : List (Graph.Edge E)
  next_addr : Nat
  const_iter : Graph.Cursor
deriving DecidableEq

namespace Graph

variable {N E : Type}

/-- The default constructed graph. -/
def empty : Graph N E := ⟨[], [], 0, .singular⟩

def isNode [DecidableEq N] (g : Graph N E) (val : N) : Bool :=
  decide (find_if (fun n => decide (n.get_data = val)) g.nodes_sp ≠ g.nodes_sp.length)

def addNode [DecidableEq N] (g : Graph N E) (val : N) : Bool × Graph N E :=
  if g.isNode val then (false, g)
  else
    (true, { g with nodes_sp := g.nodes_sp ++ [Node.mk_node g.next_addr val],
                    next_addr := g.next_addr + 1 })

def addEdge [DecidableEq N] [DecidableEq E] (g : Graph N E) (src dst : N) (w : E) :
    Except Err Bool × Graph N E :=
  match find_if_exc (Edge.matches_triple g.nodes_sp src dst w) g.edges with
  | .error err => (.error err, g)
  | .ok edge_it =>
    if edge_it ≠ g.edges.length then (.ok false, g)
    else
      let src_it := find_if (fun n => decide (n.get_data = src)) g.nodes_sp
      let dst_it := find_if (fun n => decide (n.get_data = dst)) g.nodes_sp
      match g.nodes_sp[src_it]?, g.nodes_sp[dst_it]? with
      | none, _ => (.error .src_not_in_graph, g)
      | some _, none => (.error .dst_not_in_graph, g)
      | some s, some d =>
        let nodes1 := modify_at Node.inc_out_degree src_it g.nodes_sp
        let nodes2 := modify_at Node.inc_in_degree dst_it nodes1
        (.ok true, { g with nodes_sp := nodes2,
                            edges := g.edges ++ [⟨s.addr, d.addr, w⟩] })

def replace [DecidableEq N] (g : Graph N E) (old_data new_data : N) :
    Except Err Bool × Graph N E :=
  let old_it := find_if (fun n => decide (n.get_data = old_data)) g.nodes_sp
  if old_it = g.nodes_sp.length then (.error .old_not_in_graph, g)
  else
    let new_it := find_if (fun n => decide (n.get_data = new_data)) g.nodes_sp
    if new_it ≠ g.nodes_sp.length then (.ok false, g)
    else (.ok true, { g with nodes_sp := modify_at (Node.set_data new_data) old_it g.nodes_sp })

/-- The body of the `for_each` of `mergeReplace` on one edge: the state is the node
collection and the edges already visited. -/
def merge_edge [DecidableEq N] (old_data : N) (new_it : Nat) (new_node : Node N)
    (nodes : List (Node N)) (e : Edge E) : Except Err (List (Node N) × Edge E) :=
  match e.get_src_data nodes with
  | .error err => .error err
  | .ok s =>
    let r1 : List (Node N) × Edge E :=
      if s = old_data then (modify_at Node.inc_out_degree new_it nodes, e.set_src_node new_node)
      else (nodes, e)
    match r1.2.get_dst_data r1.1 with
    | .error err => .error err
    | .ok d =>
      if d = old_data then
        .ok (modify_at Node.inc_in_degree new_it r1.1, r1.2.set_dst_node new_node)
      else .ok r1

/-- The `for_each` of `mergeReplace` over the edge collection. -/
def merge_edges [DecidableEq N] (old_data : N) (new_it : Nat) (new_node : Node N) :
    List (Node N) → List (Edge E) → Except Err (List (Node N) × List (Edge E))
  | nodes, [] => .ok (nodes, [])
  | nodes, e :: es =>
    match merge_edge old_data new_it new_node nodes e with
    | .error err => .error err
    | .ok (nodes1, e1) =>
      match merge_edges old_data new_it new_node nodes1 es with
      | .error err => .error err
      | .ok (nodes2, es1) => .ok (nodes2, e1 :: es1)

def mergeReplace [DecidableEq N] (g : Graph N E) (old_data new_data : N) :
    Except Err Unit × Graph N E :=
  let old_it := find_if (fun n => decide (n.get_data = old_data)) g.nodes_sp
  let new_it := find_if (fun n => decide (n.get_data = new_data)) g.nodes_sp
  if old_it = g.nodes_sp.length then (.error .old_not_in_graph, g)
  else
    match g.nodes_sp[new_it]? with
    | none => (.error .new_not_in_graph, g)
    | some new_node =>
      match merge_edges old_data new_it new_node g.nodes_sp g.edges with
      | .error err => (.error err, g)
      | .ok (nodes1, edges1) =>
        (.ok (), { g with nodes_sp := erase_at old_it nodes1, edges := edges1 })

def deleteNode [DecidableEq N] (g : Graph N E) (val : N) : Graph N E :=
  { g with nodes_sp := g.nodes_sp.filter (fun n => !decide (n.get_data = val)) }

def deleteEdge [DecidableEq N] [DecidableEq E] (g : Graph N E) (src dst : N) (w : E) :
    Except Err Unit × Graph N E :=
  match remove_if_exc (Edge.matches_triple g.nodes_sp src dst w) g.edges with
  | .error err => (.error err, g)
  | .ok edges1 => (.ok (), { g with edges := edges1 })

def clear (g : Graph N E) : Graph N E := { g with nodes_sp := [], edges := [] }

def isConnected [DecidableEq N] (g : Graph N E) (src dst : N) : Except Err Bool × Graph N E :=
  if !g.isNode src then (.error .src_not_in_graph, g)
  else if !g.isNode dst then (.error .dst_not_in_graph, g)
  else
    match find_if_exc (Edge.connects g.nodes_sp src dst) g.edges with
    | .error err => (.error err, g)
    | .ok it => (.ok (decide (it ≠ g.edges.length)), g)

/-- The body of the predicate of the `remove_if` of `update` for an edge with an expired
endpoint: the endpoint that still locks has its counter decremented. -/
def release_edge (nodes : List (Node N)) (e : Edge E) : List (Node N) :=
  let nodes1 :=
    match lock nodes e.src_ptr with
    | some _ => modify_at Node.dec_out_degree (locate nodes e.src_ptr) nodes
    | none => nodes
  match lock nodes1 e.dst_ptr with
  | some _ => modify_at Node.dec_in_degree (locate nodes1 e.dst_ptr) nodes1
  | none => nodes1

/-- The `remove_if` pass of `update`: an edge with an expired endpoint decrements the
counter of the endpoint that is still alive and is removed. -/
def prune : List (Node N) → List (Edge E) → List (Node N) × List (Edge E)
  | nodes, [] => (nodes, [])
  | nodes, e :: es =>
    match lock nodes e.src_ptr, lock nodes e.dst_ptr with
    | some _, some _ =>
      let r := prune nodes es
      (r.1, e :: r.2)
    | _, _ => prune (release_edge nodes e) es

/-- The edges paired with the triples that `Edge::operator<` and `Edge::operator==` read;
reading fails on an edge with an expired endpoint. -/
def keyed (nodes : List (Node N)) : List (Edge E) → Except Err (List ((N × N × E) × Edge E))
  | [] => .ok []
  | e :: es =>
    match e.triple nodes with
    | .error err => .error err
    | .ok k =>
      match keyed nodes es with
      | .error err => .error err
      | .ok ks => .ok ((k, e) :: ks)

/-- The maintenance pass.  `edges.sort()` and `edges.unique()` compare edges through their
triples, which are read once for every edge left by the pruning pass. -/
def update [LinearOrder N] [LinearOrder E] (g : Graph N E) : Except Err Unit × Graph N E :=
  let r := prune g.nodes_sp g.edges
  match keyed r.1 r.2 with
  | .error err => (.error err, { g with nodes_sp := r.1, edges := r.2 })
  | .ok ks =>
    let sorted := sort (fun a b => triple_lt a.1 b.1) ks
    let uniq := unique (fun a b => triple_eq a.1 b.1) sorted
    (.ok (), { g with nodes_sp := sort Node.lt r.1, edges := uniq.map Prod.snd })

/-- A line written to the output stream by `printEdges`: the heading with the value, a
destination with a weight, or the marker `(null)`. -/
inductive OutLine (N E : Type) where
  | header (val : N)
  | pair (dst : N) (w : E)
  | null
deriving DecidableEq

/-- The `for_each` of `printEdges`: the (destination, weight) pairs written for the edges
whose source is `val`, in the order of the edge collection. -/
def print_pairs [DecidableEq N] (nodes : List (Node N)) (val : N) :
    List (Edge E) → Except Err (List (OutLine N E))
  | [] => .ok []
  | e :: es =>
    match e.get_src_data nodes with
    | .error err => .error err
    | .ok s =>
      if s = val then
        match e.get_dst_data nodes with
        | .error err => .error err
        | .ok d =>
          match print_pairs nodes val es with
          | .error err => .error err
          | .ok ls => .ok (OutLine.pair d e.get_weight :: ls)
      else print_pairs nodes val es

/-- The values written by `printNodes`, one per line, after the maintenance pass. -/
def printNodes [LinearOrder N] [LinearOrder E] (g : Graph N E) :
    Except Err (List N) × Graph N E :=
  match g.update with
  | (.error err, g1) => (.error err, g1)
  | (.ok (), g1) => (.ok (g1.nodes_sp.map Node.get_data), g1)

/-- The lines written by `printEdges`. -/
def printEdges [LinearOrder N] [LinearOrder E] (g : Graph N E) (val : N) :
    Except Err (List (OutLine N E)) × Graph N E :=
  if !g.isNode val then (.error .node_not_in_graph, g)
  else
    match g.update with
    | (.error err, g1) => (.error err, g1)
    | (.ok (), g1) =>
      match print_pairs g1.nodes_sp val g1.edges with
      | .error err => (.error err, g1)
      | .ok ls =>
        (.ok (OutLine.header val :: (if ls.isEmpty then [OutLine.null] else ls)), g1)

/-- The cursor operation `begin`. -/
def begin (g : Graph N E) : Graph N E :=
  { g with const_iter :=
      match g.nodes_sp with
      | [] => .past_end
      | n :: _ => .at_node n.addr }

/-- The cursor operation `end`. -/
def is_end (g : Graph N E) : Except Err Bool :=
  match g.const_iter with
  | .singular => .error .bad_cursor
  | .past_end => .ok true
  | .at_node _ => .ok false

/-- The cursor operation `next`. -/
def next (g : Graph N E) : Except Err Unit × Graph N E :=
  match g.const_iter with
  | .at_node p =>
    match g.nodes_sp[locate g.nodes_sp p]? with
    | none => (.error .bad_cursor, g)
    | some _ =>
      (.ok (), { g with const_iter :=
        match g.nodes_sp[locate g.nodes_sp p + 1]? with
        | none => .past_end
        | some n => .at_node n.addr })
  | _ => (.error .bad_cursor, g)

/-- The cursor operation `value`. -/
def value (g : Graph N E) : Except Err N :=
  match g.const_iter with
  | .at_node p =>
    match g.nodes_sp[locate g.nodes_sp p]? with
    | none => .error .bad_cursor
    | some n => .ok n.get_data
  | _ => .error .bad_cursor

end Graph

/-! ## Predicates used in the statements -/

namespace Graph

variable {N E : Type}

/-- The value `v` is carried by a node of the node collection. -/
def IsNodeValue (g : Graph N E) (v : N) : Prop := ∃ n ∈ g.nodes_sp, n.data = v

/-- The first node of the node collection that carries `v`, the node every operation taking
the value `v` works on. -/
def node_of [DecidableEq N] (g : Graph N E) (v : N) : Option (Node N) :=
  g.nodes_sp[find_if (fun n => decide (n.get_data = v)) g.nodes_sp]?

/-- The position of `node_of g v` in the node collection. -/
def position_of [DecidableEq N] (g : Graph N E) (v : N) : Nat :=
  find_if (fun n => decide (n.get_data = v)) g.nodes_sp

/-- Distinct shared allocations have distinct addresses (a property of the heap, true in
every state of a running program). -/
def DistinctAddrs (g : Graph N E) : Prop := (g.nodes_sp.map Node.addr).Nodup

/-- No edge dangles: both `weak_ptr`s of every edge lock successfully. -/
def NoDangling (g : Graph N E) : Prop :=
  ∀ e ∈ g.edges, (lock g.nodes_sp e.src_ptr).isSome = true ∧
    (lock g.nodes_sp e.dst_ptr).isSome = true

/-- Some edge of the edge collection reports the triple `(s, d, w)`. -/
def HasTriple (g : Graph N E) (s d : N) (w : E) : Prop :=
  ∃ e ∈ g.edges, e.triple g.nodes_sp = .ok (s, d, w)

/-- The loop `while (!g.end()) { read g.value(); g.next(); }` of the cursor protocol,
run for at most `fuel` tests of `end()`: the values read, or `none` when the fuel does not
suffice. -/
def traverse : Nat → Graph N E → Option (Except Err (List N))
  | 0, _ => none
  | fuel + 1, g =>
    match g.is_end with
    | .error err => some (.error err)
    | .ok true => some (.ok [])
    | .ok false =>
      match g.value with
      | .error err => some (.error err)
      | .ok v =>
        match g.next with
        | (.error err, _) => some (.error err)
        | (.ok (), g1) =>
          match traverse fuel g1 with
          | none => none
          | some (.error err) => some (.error err)
          | some (.ok vs) => some (.ok (v :: vs))

/-- The first loop of the copy constructor and of `operator=`: `addNode` of the value of
every node of the other graph, in order. -/
def copy_nodes [DecidableEq N] (g : Graph N E) : List (Node N) → Graph N E
  | [] => g
  | n :: ns => copy_nodes (g.addNode n.get_data).2 ns

/-- The second loop of the copy constructor and of `operator=`: `addEdge` of the triple
read from every edge of the other graph, in order. -/
def copy_edges [DecidableEq N] [DecidableEq E] (other_nodes : List (Node N)) :
    Graph N E → List (Edge E) → Except Err Unit × Graph N E
  | g, [] => (.ok (), g)
  | g, e :: es =>
    match e.get_src_data other_nodes with
    | .error err => (.error err, g)
    | .ok s =>
      match e.get_dst_data other_nodes with
      | .error err => (.error err, g)
      | .ok d =>
        match g.addEdge s d e.get_weight with
        | (.error err, g1) => (.error err, g1)
        | (.ok _, g1) => copy_edges other_nodes g1 es

/-- The copy constructor `Graph(const Graph &other)`: the new graph starts empty. -/
def copy_construct [DecidableEq N] [DecidableEq E] (other : Graph N E) :
    Except Err Unit × Graph N E :=
  copy_edges other.nodes_sp (copy_nodes empty other.nodes_sp) other.edges

/-- The assignment `operator=` to a target `g` that is another object than `other`: the
target is cleared first. -/
def assign [DecidableEq N] [DecidableEq E] (g other : Graph N E) :
    Except Err Unit × Graph N E :=
  copy_edges other.nodes_sp (copy_nodes g.clear other.nodes_sp) other.edges

/-- The triples read from the edges, in the order of the edge collection. -/
def triples (g : Graph N E) : List (Except Err (N × N × E)) :=
  g.edges.map (fun e => e.triple g.nodes_sp)

/-- The addresses in use lie below the next address to be handed out. -/
def FreshAddrs (g : Graph N E) : Prop := ∀ n ∈ g.nodes_sp, n.addr < g.next_addr

/-- Both `weak_ptr`s of the edge lock successfully. -/
def Edge.live (nodes : List (Node N)) (e : Edge E) : Bool :=
  (lock nodes e.src_ptr).isSome && (lock nodes e.dst_ptr).isSome

/-- The edge `e` after the `for_each` of `mergeReplace`: an endpoint that reads `old_data`
in `nodes` is rebound to the address `new_addr`. -/
def Edge.redirect [DecidableEq N] (nodes : List (Node N)) (old_data : N) (new_addr : Nat)
    (e : Edge E) : Edge E :=
  ⟨if e.get_src_data nodes = .ok old_data then new_addr else e.src_ptr,
    if e.get_dst_data nodes = .ok old_data then new_addr else e.dst_ptr, e.weight⟩

/-- An `unsigned` counter after `k` decrements. -/
def dec_times (k c : Nat) : Nat := Nat.iterate dec_counter k c

/-- An `unsigned` counter after `k` increments. -/
def inc_times (k c : Nat) : Nat := Nat.iterate inc_counter k c

/-- The node after `kout` calls of `dec_out_degree` and `kin` calls of `dec_in_degree`. -/
def Node.released (kout kin : Nat) (n : Node N) : Node N :=
  { n with out_degree := dec_times kout n.out_degree, in_degree := dec_times kin n.in_degree }

/-- The node after `kout` calls of `inc_out_degree` and `kin` calls of `inc_in_degree`. -/
def Node.merged (kout kin : Nat) (n : Node N) : Node N :=
  { n with out_degree := inc_times kout n.out_degree, in_degree := inc_times kin n.in_degree }

/-- Number of edges of `es` whose source reads `old_data`. -/
def src_count [DecidableEq N] (nodes : List (Node N)) (old_data : N) (es : List (Edge E)) :
    Nat :=
  es.countP (fun e => decide (e.get_src_data nodes = .ok old_data))

/-- Number of edges of `es` whose destination reads `old_data`. -/
def dst_count [DecidableEq N] (nodes : List (Node N)) (old_data : N) (es : List (Edge E)) :
    Nat :=
  es.countP (fun e => decide (e.get_dst_data nodes = .ok old_data))

/-- Number of edges of `es` with an expired endpoint whose source locks at position `i`. -/
def dead_out_count (nodes : List (Node N)) (es : List (Edge E)) (i : Nat) : Nat :=
  es.countP (fun e => !e.live nodes && decide (locate nodes e.src_ptr = i))

/-- Number of edges of `es` with an expired endpoint whose destination locks at position
`i`. -/
def dead_in_count (nodes : List (Node N)) (es : List (Edge E)) (i : Nat) : Nat :=
  es.countP (fun e => !e.live nodes && decide (locate nodes e.dst_ptr = i))

/-- Number of edges from the node `n` to a node carrying `v`. -/
def edges_to_value [DecidableEq N] (g : Graph N E) (n : Node N) (v : N) : Nat :=
  g.edges.countP (fun e => decide (e.src_ptr = n.addr) &&
    decide (e.get_dst_data g.nodes_sp = .ok v))

/-- Number of edges from a node carrying `v` to the node `n`. -/
def edges_from_value [DecidableEq N] (g : Graph N E) (v : N) (n : Node N) : Nat :=
  g.edges.countP (fun e => decide (e.dst_ptr = n.addr) &&
    decide (e.get_src_data g.nodes_sp = .ok v))

/-- Number of edges of the edge collection whose source reference is the node `n`. -/
def out_edges (g : Graph N E) (n : Node N) : Nat :=
  g.edges.countP (fun e => decide (e.src_ptr = n.addr))

/-- Number of edges of the edge collection whose destination reference is the node `n`. -/
def in_edges (g : Graph N E) (n : Node N) : Nat :=
  g.edges.countP (fun e => decide (e.dst_ptr = n.addr))

/-- A triple as an element of the lexicographic order on (source value, destination value,
weight). -/
def lex_key [LinearOrder N] [LinearOrder E] (t : N × N × E) : N ×ₗ (N ×ₗ E) :=
  toLex (t.1, toLex (t.2.1, t.2.2))

/-- A sequence of `addNode` calls: the results of the calls in order and the final state. -/
def addNodes [DecidableEq N] (g : Graph N E) : List N → List Bool × Graph N E
  | [] => ([], g)
  | v :: vs =>
    let r := g.addNode v
    let rs := addNodes r.2 vs
    (r.1 :: rs.1, rs.2)

/-- The values of the node collection, in the order of the collection. -/
def values (g : Graph N E) : List N := g.nodes_sp.map Node.data

/-- The states reachable from the empty graph by public operations that complete: the
mutators, the maintenance pass `update` (run by `printNodes` and `printEdges`) and the
cursor operations.  An operation that throws leaves the state as it was, and nothing is
reachable through an operation that dereferences an expired `weak_ptr`. -/
inductive Reachable [LinearOrder N] [LinearOrder E] : Graph N E → Prop
  | empty : Reachable empty
  | addNode (g : Graph N E) (v : N) : Reachable g → Reachable (g.addNode v).2
  | addEdge (g : Graph N E) (src dst : N) (w : E) (r : Bool) (g' : Graph N E) :
      Reachable g → g.addEdge src dst w = (.ok r, g') → Reachable g'
  | replace (g : Graph N E) (old_data new_data : N) (r : Bool) (g' : Graph N E) :
      Reachable g → g.replace old_data new_data = (.ok r, g') → Reachable g'
  | mergeReplace (g : Graph N E) (old_data new_data : N) (g' : Graph N E) :
      Reachable g → g.mergeReplace old_data new_data = (.ok (), g') → Reachable g'
  | deleteNode (g : Graph N E) (v : N) : Reachable g → Reachable (g.deleteNode v)
  | deleteEdge (g : Graph N E) (src dst : N) (w : E) (g' : Graph N E) :
      Reachable g → g.deleteEdge src dst w = (.ok (), g') → Reachable g'
  | clear (g : Graph N E) : Reachable g → Reachable g.clear
  | update (g g' : Graph N E) : Reachable g → g.update = (.ok (), g') → Reachable g'
  | begin (g : Graph N E) : Reachable g → Reachable g.begin
  | next (g g' : Graph N E) : Reachable g → g.next = (.ok (), g') → Reachable g'

/-- The invariant behind the degree counters: allocations are distinct and below the next
address, every `weak_ptr` was handed out before, the counters are values of `unsigned`,
and every counter is at least the number of edges that reference the node. -/
structure CountersCover (g : Graph N E) : Prop where
  distinct : g.DistinctAddrs
  fresh : g.FreshAddrs
  refs : ∀ e ∈ g.edges, e.src_ptr < g.next_addr ∧ e.dst_ptr < g.next_addr
  bounded : ∀ n ∈ g.nodes_sp, n.out_degree < UINT_MOD ∧ n.in_degree < UINT_MOD
  degrees : ∀ n ∈ g.nodes_sp, g.out_edges n ≤ n.out_degree ∧ g.in_edges n ≤ n.in_degree

/-- No increment of an `addEdge(src, dst, _)` that adds the edge wraps: the counters it
increments are below the largest `unsigned`. -/
def AddEdgeNoWrap [DecidableEq N] (g : Graph N E) (src dst : N) : Prop :=
  (∀ n, g.node_of src = some n → n.out_degree + 1 < UINT_MOD) ∧
    (∀ n, g.node_of dst = some n → n.in_degree + 1 < UINT_MOD)

/-- No increment of `mergeReplace(old_data, new_data)` wraps: the counters of the node
carrying the new value stay below `2 ^ 32` through all its increments. -/
def MergeNoWrap [DecidableEq N] (g : Graph N E) (old_data new_data : N) : Prop :=
  ∀ n, g.node_of new_data = some n →
    n.out_degree + src_count g.nodes_sp old_data g.edges < UINT_MOD ∧
      n.in_degree + dst_count g.nodes_sp old_data g.edges < UINT_MOD

/-- The states reachable from the empty graph by public operations that complete and in
which no increment of a degree counter wraps: an `addEdge` that adds its edge and a
`mergeReplace` are steps only where their increments stay below `2 ^ 32`. -/
inductive ReachableNoWrap [LinearOrder N] [LinearOrder E] : Graph N E → Prop
  | empty : ReachableNoWrap empty
  | addNode (g : Graph N E) (v : N) : ReachableNoWrap g → ReachableNoWrap (g.addNode v).2
  | addEdge (g : Graph N E) (src dst : N) (w : E) (r : Bool) (g' : Graph N E) :
      ReachableNoWrap g → g.addEdge src dst w = (.ok r, g') →
      (r = true → g.AddEdgeNoWrap src dst) →
      ReachableNoWrap g'
  | replace (g : Graph N E) (old_data new_data : N) (r : Bool) (g' : Graph N E) :
      ReachableNoWrap g → g.replace old_data new_data = (.ok r, g') → ReachableNoWrap g'
  | mergeReplace (g : Graph N E) (old_data new_data : N) (g' : Graph N E) :
      ReachableNoWrap g → g.mergeReplace old_data new_data = (.ok (), g') →
      g.MergeNoWrap old_data new_data → ReachableNoWrap g'
  | deleteNode (g : Graph N E) (v : N) : ReachableNoWrap g → ReachableNoWrap (g.deleteNode v)
  | deleteEdge (g : Graph N E) (src dst : N) (w : E) (g' : Graph N E) :
      ReachableNoWrap g → g.deleteEdge src dst w = (.ok (), g') → ReachableNoWrap g'
  | clear (g : Graph N E) : ReachableNoWrap g → ReachableNoWrap g.clear
  | update (g g' : Graph N E) : ReachableNoWrap g → g.update = (.ok (), g') →
      ReachableNoWrap g'
  | begin (g : Graph N E) : ReachableNoWrap g → ReachableNoWrap g.begin
  | next (g g' : Graph N E) : ReachableNoWrap g → g.next = (.ok (), g') → ReachableNoWrap g'

/-! ## Example states -/

/-- Two nodes carrying 1 and 2 and no edge, after `k` rounds of `addEdge(1, 2, 5)` and
`deleteEdge(1, 2, 5)`: the out-degree of the first node and the in-degree of the second
have been incremented `k` times. -/
def ex_cycle (k : Nat) : Graph Nat Nat :=
  ⟨[⟨0, 1, 0, k % UINT_MOD⟩, ⟨1, 2, k % UINT_MOD, 0⟩], [], 2, .singular⟩

/-- The state `ex_cycle k` after one more `addEdge(1, 2, 5)`. -/
def ex_cycle_edge (k : Nat) : Graph Nat Nat :=
  ⟨[⟨0, 1, 0, (k % UINT_MOD + 1) % UINT_MOD⟩, ⟨1, 2, (k % UINT_MOD + 1) % UINT_MOD, 0⟩],
    [⟨0, 1, 5⟩], 2, .singular⟩

/-- Two nodes carrying 1 and 2 and no edge, the out-degree of the first and the in-degree
of the second at the largest `unsigned`: the state `ex_cycle 4294967295`. -/
def ex_full_counter : Graph Nat Nat :=
  ⟨[⟨0, 1, 0, 4294967295⟩, ⟨1, 2, 4294967295, 0⟩], [], 2, .singular⟩

/-- The state `ex_full_counter` after `addEdge(1, 2, 5)`: the edge is present and both
counters have wrapped to 0. -/
def ex_wrapped : Graph Nat Nat :=
  ⟨[⟨0, 1, 0, 0⟩, ⟨1, 2, 0, 0⟩], [⟨0, 1, 5⟩], 2, .singular⟩

/-- Two nodes carrying 1 and 2 and the edge `(1, 2, 5)`. -/
def ex_one_edge : Graph Nat Nat :=
  ⟨[⟨0, 1, 0, 1⟩, ⟨1, 2, 1, 0⟩], [⟨0, 1, 5⟩], 2, .singular⟩

/-- One node carrying 1 with the self-loop `(1, 1, 5)`: the state after `addNode(1)` and
`addEdge(1, 1, 5)`. -/
def ex_self_loop : Graph Nat Nat := ⟨[⟨0, 1, 1, 1⟩], [⟨0, 0, 5⟩], 1, .singular⟩

/-- Three nodes carrying 1, 2, 3 and the edges `(1, 3, 5)`, `(2, 3, 5)`, `(3, 1, 7)`. -/
def ex_three_nodes : Graph Nat Nat :=
  ⟨[⟨0, 1, 1, 1⟩, ⟨1, 2, 0, 1⟩, ⟨2, 3, 2, 1⟩], [⟨0, 2, 5⟩, ⟨1, 2, 5⟩, ⟨2, 0, 7⟩], 3, .singular⟩

/-- Two nodes carrying 3 and 1; the edge `(3, 1, 5)` twice, an edge whose source has been
released, and the edge `(1, 3, 2)`. -/
def ex_messy : Graph Nat Nat :=
  ⟨[⟨0, 3, 1, 2⟩, ⟨1, 1, 3, 1⟩], [⟨0, 1, 5⟩, ⟨0, 1, 5⟩, ⟨7, 1, 1⟩, ⟨1, 0, 2⟩], 8, .singular⟩

/-- Three nodes carrying 1, 2, 3 and the edges `(1, 3, 5)`, `(2, 3, 5)`: the state after
`addNode(1)`, `addNode(2)`, `addNode(3)`, `addEdge(1, 3, 5)`, `addEdge(2, 3, 5)`. -/
def ex_two_sources : Graph Nat Nat :=
  ⟨[⟨0, 1, 0, 1⟩, ⟨1, 2, 0, 1⟩, ⟨2, 3, 2, 0⟩], [⟨0, 2, 5⟩, ⟨1, 2, 5⟩], 3, .singular⟩

/-- The state `ex_one_edge` after `deleteNode(1)`: the edge is left with an expired
source. -/
def ex_dangling : Graph Nat Nat := ⟨[⟨1, 2, 1, 0⟩], [⟨0, 1, 5⟩], 2, .singular⟩

/-- The scenario over string values and integer weights: after `addNode("A")`. -/
def scenario1 : Graph String Int := ((empty : Graph String Int).addNode "A").2

/-- The scenario after `addNode("B")`. -/
def scenario2 : Graph String Int := (scenario1.addNode "B").2

/-- The scenario after the first `addEdge("A", "B", 5)`. -/
def scenario3 : Graph String Int := (scenario2.addEdge "A" "B" 5).2

/-- The scenario after the second `addEdge("A", "B", 5)`. -/
def scenario4 : Graph String Int := (scenario3.addEdge "A" "B" 5).2

/-- The scenario after `deleteNode("B")`. -/
def scenario5 : Graph String Int := scenario4.deleteNode "B"

/-- The state `ex_full_counter` after `addNode(3)` and `addEdge(3, 2, 0)`: the out-degree of
the node carrying 1 is at the largest `unsigned` and one edge has the source 3. -/
def ex_merge_wrap : Graph Nat Nat :=
  ⟨[⟨0, 1, 0, 4294967295⟩, ⟨1, 2, 0, 0⟩, ⟨2, 3, 0, 1⟩], [⟨2, 1, 0⟩], 3, .singular⟩

/-- The state `ex_two_sources` after `mergeReplace(1, 2)`: two edges report `(2, 3, 5)`. -/
def ex_dup_edges : Graph Nat Nat :=
  ⟨[⟨1, 2, 0, 2⟩, ⟨2, 3, 2, 0⟩], [⟨1, 2, 5⟩, ⟨1, 2, 5⟩], 3, .singular⟩

end Graph
/-! ## Lemmas on the list helpers -/

section ListHelpers

variable {α : Type}

theorem find_if_le_length (p : α → Bool) (l : List α) : find_if p l ≤ l.length := by
  induction l with
  | nil => simp [find_if]
  | cons a l ih =>
    simp only [find_if]
    split <;> simp [ih]

theorem find_if_eq_length_iff (p : α → Bool) (l : List α) :
    find_if p l = l.length ↔ ∀ a ∈ l, p a = false := by
  induction l with
  | nil => simp [find_if]
  | cons a l ih =>
    simp only [find_if]
    by_cases h : p a = true
    · simp [h]
    · simp [h, ih]

theorem getElem?_find_if_eq_none_iff (p : α → Bool) (l : List α) :
    l[find_if p l]? = none ↔ ∀ a ∈ l, p a = false := by
  rw [List.getElem?_eq_none_iff, ← find_if_eq_length_iff]
  have := find_if_le_length p l
  omega

theorem getElem?_find_if_eq_some (p : α → Bool) (l : List α) (a : α)
    (h : l[find_if p l]? = some a) : a ∈ l ∧ p a = true := by
  induction l with
  | nil => simp at h
  | cons b l ih =>
    simp only [find_if] at h
    by_cases hb : p b = true
    · simp [hb] at h
      subst h
      simp [hb]
    · simp [hb] at h
      have := ih h
      simp [this]

theorem find_if_exc_ok (p : α → Except Err Bool) (q : α → Bool) (l : List α)
    (h : ∀ a ∈ l, p a = .ok (q a)) : find_if_exc p l = .ok (find_if q l) := by
  induction l with
  | nil => rfl
  | cons a l ih =>
    have ha := h a (by simp)
    have hl := ih (fun b hb => h b (by simp [hb]))
    simp only [find_if_exc, find_if, ha, hl]
    cases q a <;> simp

end ListHelpers

/-! ## Reading edges in a graph without dangling edges -/

namespace Graph

variable {N E : Type}

theorem isNode_iff [DecidableEq N] (g : Graph N E) (v : N) :
    g.isNode v = true ↔ g.IsNodeValue v := by
  unfold isNode IsNodeValue
  rw [decide_eq_true_iff, Ne, find_if_eq_length_iff]
  simp [Node.get_data]

theorem getElem?_find_data_eq_none_iff [DecidableEq N] (g : Graph N E) (v : N) :
    g.nodes_sp[find_if (fun n => decide (n.get_data = v)) g.nodes_sp]? = none ↔
      ¬ g.IsNodeValue v := by
  rw [getElem?_find_if_eq_none_iff]
  simp [IsNodeValue, Node.get_data]

theorem lock_eq_some_mem {nodes : List (Node N)} {p : Nat} {n : Node N}
    (h : lock nodes p = some n) : n ∈ nodes ∧ n.addr = p := by
  have := getElem?_find_if_eq_some _ _ _ h
  simpa using this

theorem NoDangling.triple_ok {g : Graph N E} (hg : g.NoDangling) {e : Edge E}
    (he : e ∈ g.edges) :
    ∃ s d, e.get_src_data g.nodes_sp = .ok s ∧ e.get_dst_data g.nodes_sp = .ok d ∧
      e.triple g.nodes_sp = .ok (s, d, e.weight) ∧ g.IsNodeValue s ∧ g.IsNodeValue d := by
  obtain ⟨h1, h2⟩ := hg e he
  obtain ⟨a, ha⟩ := Option.isSome_iff_exists.mp h1
  obtain ⟨b, hb⟩ := Option.isSome_iff_exists.mp h2
  refine ⟨a.data, b.data, ?_, ?_, ?_, ⟨a, (lock_eq_some_mem ha).1, rfl⟩,
    ⟨b, (lock_eq_some_mem hb).1, rfl⟩⟩ <;>
    simp [Edge.triple, Edge.get_src_data, Edge.get_dst_data, ha, hb, Node.get_data,
      Edge.get_weight]

theorem NoDangling.matches_triple_ok [DecidableEq N] [DecidableEq E] {g : Graph N E}
    (hg : g.NoDangling) (src dst : N) (w : E) {e : Edge E} (he : e ∈ g.edges) :
    e.matches_triple g.nodes_sp src dst w =
      .ok (decide (e.triple g.nodes_sp = .ok (src, dst, w))) := by
  obtain ⟨s, d, hs, hd, ht, -, -⟩ := hg.triple_ok he
  simp only [Edge.matches_triple, hs, hd, ht, Edge.get_weight]
  by_cases h1 : s = src
  · by_cases h2 : d = dst
    · by_cases h3 : e.weight = w <;> simp [h1, h2, h3]
    · simp [h1, h2]
  · simp [h1]

theorem NoDangling.find_matches [DecidableEq N] [DecidableEq E] {g : Graph N E}
    (hg : g.NoDangling) (src dst : N) (w : E) :
    find_if_exc (Edge.matches_triple g.nodes_sp src dst w) g.edges =
      .ok (find_if (fun e => decide (e.triple g.nodes_sp = .ok (src, dst, w))) g.edges) :=
  find_if_exc_ok _ _ _ (fun _ he => hg.matches_triple_ok src dst w he)

theorem find_triple_eq_length_iff [DecidableEq N] [DecidableEq E] (g : Graph N E)
    (src dst : N) (w : E) :
    find_if (fun e => decide (e.triple g.nodes_sp = .ok (src, dst, w))) g.edges =
      g.edges.length ↔ ¬ g.HasTriple src dst w := by
  rw [find_if_eq_length_iff]
  simp [HasTriple]

theorem NoDangling.isNodeValue_of_hasTriple {g : Graph N E} (hg : g.NoDangling) {s d : N}
    {w : E} (h : g.HasTriple s d w) : g.IsNodeValue s ∧ g.IsNodeValue d := by
  obtain ⟨e, he, ht⟩ := h
  obtain ⟨s', d', -, -, ht', hs, hd⟩ := hg.triple_ok he
  rw [ht'] at ht
  injection ht with ht
  simp only [Prod.mk.injEq] at ht
  obtain ⟨rfl, rfl, -⟩ := ht
  exact ⟨hs, hd⟩

/-- C1: in a graph without dangling edges, `addEdge(src, dst, w)` fails with a missing-node
error exactly when `src` or `dst` is not the value of a current node; when both are node
values and an edge with the triple `(src, dst, w)` exists it returns false and leaves the
whole graph (node collection, degree counters, edge collection) unchanged; in the
remaining case it returns true. -/
theorem addEdge_outcome [DecidableEq N] [DecidableEq E] (g : Graph N E) (src dst : N) (w : E)
    (hg : g.NoDangling) :
    ((∃ err, (g.addEdge src dst w).1 = .error err ∧ err.isMissingNode = true) ↔
        (¬ g.IsNodeValue src ∨ ¬ g.IsNodeValue dst)) ∧
      (g.IsNodeValue src → g.IsNodeValue dst → g.HasTriple src dst w →
        g.addEdge src dst w = (.ok false, g)) ∧
      (g.IsNodeValue src → g.IsNodeValue dst → ¬ g.HasTriple src dst w →
        (g.addEdge src dst w).1 = .ok true) := by
  have hfind := hg.find_matches src dst w
  have hlen := find_triple_eq_length_iff g src dst w
  have hs := getElem?_find_data_eq_none_iff g src
  have hd := getElem?_find_data_eq_none_iff g dst
  by_cases hT : g.HasTriple src dst w
  · obtain ⟨hvs, hvd⟩ := hg.isNodeValue_of_hasTriple hT
    have hne : find_if (fun e => decide (e.triple g.nodes_sp = .ok (src, dst, w))) g.edges ≠
        g.edges.length := fun h => (hlen.mp h) hT
    have hres : g.addEdge src dst w = (.ok false, g) := by
      simp only [addEdge, hfind]
      rw [if_pos hne]
    refine ⟨?_, fun _ _ _ => hres, fun _ _ h => absurd hT h⟩
    rw [hres]
    simp [hvs, hvd]
  · have heq := hlen.mpr hT
    cases hsi : g.nodes_sp[find_if (fun n => decide (n.get_data = src)) g.nodes_sp]? with
    | none =>
      have hns := hs.mp hsi
      have hres : (g.addEdge src dst w).1 = .error .src_not_in_graph := by
        simp only [addEdge, hfind, heq, hsi]
        simp
      refine ⟨?_, fun h => absurd h hns, fun h => absurd h hns⟩
      rw [hres]
      simp [hns, Err.isMissingNode]
    | some a =>
      have hvs : g.IsNodeValue src := by
        by_contra hc
        rw [hs.mpr hc] at hsi
        cases hsi
      cases hdi : g.nodes_sp[find_if (fun n => decide (n.get_data = dst)) g.nodes_sp]? with
      | none =>
        have hnd := hd.mp hdi
        have hres : (g.addEdge src dst w).1 = .error .dst_not_in_graph := by
          simp only [addEdge, hfind, heq, hsi, hdi]
          simp
        refine ⟨?_, fun _ h => absurd h hnd, fun _ h => absurd h hnd⟩
        rw [hres]
        simp [hnd, Err.isMissingNode]
      | some b =>
        have hvd : g.IsNodeValue dst := by
          by_contra hc
          rw [hd.mpr hc] at hdi
          cases hdi
        have hres : (g.addEdge src dst w).1 = .ok true := by
          simp only [addEdge, hfind, heq, hsi, hdi]
          simp
        refine ⟨?_, fun _ _ h => absurd h hT, fun _ _ _ => hres⟩
        rw [hres]
        simp [hvs, hvd]

end Graph

/-! ## Nodes that keep their addresses and values -/

section ModifyAt

variable {α : Type}

theorem length_modify_at (f : α → α) (i : Nat) (l : List α) :
    (modify_at f i l).length = l.length := by
  induction l generalizing i with
  | nil => cases i <;> rfl
  | cons a l ih => cases i <;> simp [modify_at, ih]

theorem getElem?_modify_at (f : α → α) (i k : Nat) (l : List α) :
    (modify_at f i l)[k]? = (l[k]?).map (fun a => if k = i then f a else a) := by
  induction l generalizing i k with
  | nil => cases i <;> simp [modify_at]
  | cons a l ih =>
    cases i with
    | zero =>
      cases k with
      | zero => simp [modify_at]
      | succ k =>
        simp only [modify_at, List.getElem?_cons_succ]
        cases l[k]? <;> simp
    | succ i =>
      cases k with
      | zero => simp [modify_at]
      | succ k => simp [modify_at, ih]

theorem map_modify_at_of_preserved {β : Type} (f : α → α) (q : α → β)
    (hf : ∀ a, q (f a) = q a) (i : Nat) (l : List α) :
    (modify_at f i l).map q = l.map q := by
  induction l generalizing i with
  | nil => cases i <;> rfl
  | cons a l ih => cases i <;> simp [modify_at, ih, hf]

theorem find_if_map {β : Type} (q : α → β) (p : β → Bool) (l : List α) :
    find_if p (l.map q) = find_if (fun a => p (q a)) l := by
  induction l with
  | nil => rfl
  | cons a l ih => simp [find_if, ih]

end ModifyAt

namespace Graph

variable {N E : Type}

theorem locate_eq_of_map_addr {l l' : List (Node N)}
    (h : l'.map Node.addr = l.map Node.addr) (p : Nat) : locate l' p = locate l p := by
  have h1 := find_if_map Node.addr (fun a => decide (a = p)) l
  have h2 := find_if_map Node.addr (fun a => decide (a = p)) l'
  unfold locate
  rw [← h1, ← h2, h]

theorem lock_map_eq_of_map {β : Type} (q : Node N → β) {l l' : List (Node N)}
    (h : l'.map Node.addr = l.map Node.addr) (hq : l'.map q = l.map q) (p : Nat) :
    (lock l' p).map q = (lock l p).map q := by
  unfold lock
  rw [locate_eq_of_map_addr h, ← List.getElem?_map, ← List.getElem?_map, hq]

theorem lock_isSome_eq_of_map {l l' : List (Node N)}
    (h : l'.map Node.addr = l.map Node.addr) (p : Nat) :
    (lock l' p).isSome = (lock l p).isSome := by
  have := lock_map_eq_of_map Node.addr h h p
  cases h1 : lock l' p <;> cases h2 : lock l p <;> simp [h1, h2] at this ⊢

theorem get_src_data_eq_map (nodes : List (Node N)) (e : Edge E) :
    e.get_src_data nodes =
      match (lock nodes e.src_ptr).map Node.data with
      | some v => .ok v
      | none => .error .expired_deref := by
  unfold Edge.get_src_data
  cases lock nodes e.src_ptr <;> rfl

theorem get_dst_data_eq_map (nodes : List (Node N)) (e : Edge E) :
    e.get_dst_data nodes =
      match (lock nodes e.dst_ptr).map Node.data with
      | some v => .ok v
      | none => .error .expired_deref := by
  unfold Edge.get_dst_data
  cases lock nodes e.dst_ptr <;> rfl

theorem get_src_data_eq_of_map {l l' : List (Node N)}
    (h : l'.map Node.addr = l.map Node.addr) (hd : l'.map Node.data = l.map Node.data)
    (e : Edge E) : e.get_src_data l' = e.get_src_data l := by
  rw [get_src_data_eq_map, get_src_data_eq_map, lock_map_eq_of_map Node.data h hd]

theorem get_dst_data_eq_of_map {l l' : List (Node N)}
    (h : l'.map Node.addr = l.map Node.addr) (hd : l'.map Node.data = l.map Node.data)
    (e : Edge E) : e.get_dst_data l' = e.get_dst_data l := by
  rw [get_dst_data_eq_map, get_dst_data_eq_map, lock_map_eq_of_map Node.data h hd]

theorem triple_eq_of_map {l l' : List (Node N)}
    (h : l'.map Node.addr = l.map Node.addr) (hd : l'.map Node.data = l.map Node.data)
    (e : Edge E) : e.triple l' = e.triple l := by
  unfold Edge.triple
  rw [get_src_data_eq_of_map h hd, get_dst_data_eq_of_map h hd]

theorem connects_eq_of_map [DecidableEq N] {l l' : List (Node N)}
    (h : l'.map Node.addr = l.map Node.addr) (hd : l'.map Node.data = l.map Node.data)
    (src dst : N) (e : Edge E) : e.connects l' src dst = e.connects l src dst := by
  unfold Edge.connects
  rw [get_src_data_eq_of_map h hd, get_dst_data_eq_of_map h hd]

theorem isNodeValue_iff_mem_map (g : Graph N E) (v : N) :
    g.IsNodeValue v ↔ v ∈ g.nodes_sp.map Node.data := by
  simp [IsNodeValue]

end Graph

namespace Graph

variable {N E : Type}

theorem find_if_exc_total {α : Type} (p : α → Except Err Bool) (l : List α)
    (h : ∀ a ∈ l, ∃ b, p a = .ok b) :
    find_if_exc p l = .ok (find_if (fun a => decide (p a = .ok true)) l) := by
  apply find_if_exc_ok
  intro a ha
  obtain ⟨b, hb⟩ := h a ha
  rw [hb]
  cases b <;> simp

theorem find_if_append_ne_length {α : Type} (p : α → Bool) (l : List α) (a : α)
    (h : p a = true) : find_if p (l ++ [a]) ≠ (l ++ [a]).length := by
  intro hc
  rw [find_if_eq_length_iff] at hc
  have := hc a (by simp)
  rw [h] at this
  cases this

theorem lock_of_mem {nodes : List (Node N)} (hn : (nodes.map Node.addr).Nodup) {n : Node N}
    (h : n ∈ nodes) : lock nodes n.addr = some n := by
  cases hl : lock nodes n.addr with
  | none =>
    have := (getElem?_find_if_eq_none_iff _ _).mp hl n h
    simp at this
  | some m =>
    obtain ⟨hm, hma⟩ := lock_eq_some_mem hl
    rw [List.inj_on_of_nodup_map hn hm h hma]

theorem isNode_eq_of_map [DecidableEq N] {g g' : Graph N E}
    (h : g'.nodes_sp.map Node.data = g.nodes_sp.map Node.data) (v : N) :
    g'.isNode v = g.isNode v := by
  rw [Bool.eq_iff_iff, isNode_iff, isNode_iff, isNodeValue_iff_mem_map,
    isNodeValue_iff_mem_map, h]

/-- C2 (amended): in a graph without dangling edges, when `a` and `b` are node values and no
edge has the triple `(a, b, w)`, `addEdge(a, b, w)` returns true; the node collection keeps
its length, and every node keeps its position, address and value; the out-degree of the
node carrying `a` and the in-degree of the node carrying `b` become one more than before
modulo `2 ^ 32` (`inc_counter`) and every other counter is unchanged; the edge collection is the previous
one with an edge reporting `(a, b, w)` appended, the previous edges report what they
reported, and `isConnected(a, b)` returns true. -/
theorem addEdge_success [DecidableEq N] [DecidableEq E] (g : Graph N E) (a b : N) (w : E)
    (hh : g.DistinctAddrs) (hg : g.NoDangling) (ha : g.IsNodeValue a) (hb : g.IsNodeValue b)
    (hT : ¬ g.HasTriple a b w) :
    ∃ g' e, g.addEdge a b w = (.ok true, g') ∧
      g'.nodes_sp.length = g.nodes_sp.length ∧
      (∀ (k : Nat) (n : Node N), g.nodes_sp[k]? = some n →
        g'.nodes_sp[k]? = some
          { n with
            out_degree :=
              if k = g.position_of a then inc_counter n.out_degree else n.out_degree,
            in_degree :=
              if k = g.position_of b then inc_counter n.in_degree else n.in_degree }) ∧
      g'.edges = g.edges ++ [e] ∧
      e.triple g'.nodes_sp = .ok (a, b, w) ∧
      (∀ e' ∈ g.edges, e'.triple g'.nodes_sp = e'.triple g.nodes_sp) ∧
      (g'.isConnected a b).1 = .ok true := by
  have hfind := hg.find_matches a b w
  have heq := (find_triple_eq_length_iff g a b w).mpr hT
  obtain ⟨s, hsi⟩ : ∃ s, g.nodes_sp[find_if (fun n => decide (n.get_data = a)) g.nodes_sp]? =
      some s :=
    Option.ne_none_iff_exists'.mp (fun hc => (getElem?_find_data_eq_none_iff g a).mp hc ha)
  obtain ⟨d, hdi⟩ : ∃ d, g.nodes_sp[find_if (fun n => decide (n.get_data = b)) g.nodes_sp]? =
      some d :=
    Option.ne_none_iff_exists'.mp (fun hc => (getElem?_find_data_eq_none_iff g b).mp hc hb)
  obtain ⟨hsm, hsd⟩ := getElem?_find_if_eq_some _ _ _ hsi
  obtain ⟨hdm, hdd⟩ := getElem?_find_if_eq_some _ _ _ hdi
  simp only [Node.get_data, decide_eq_true_eq] at hsd hdd
  have hres : g.addEdge a b w = (.ok true,
      { g with
        nodes_sp := modify_at Node.inc_in_degree (g.position_of b)
          (modify_at Node.inc_out_degree (g.position_of a) g.nodes_sp),
        edges := g.edges ++ [⟨s.addr, d.addr, w⟩] }) := by
    simp only [addEdge, hfind, heq, hsi, hdi, position_of]
    simp
  have haddr : (modify_at Node.inc_in_degree (g.position_of b)
      (modify_at Node.inc_out_degree (g.position_of a) g.nodes_sp)).map Node.addr =
      g.nodes_sp.map Node.addr := by
    rw [map_modify_at_of_preserved Node.inc_in_degree Node.addr (fun _ => rfl),
      map_modify_at_of_preserved Node.inc_out_degree Node.addr (fun _ => rfl)]
  have hdata : (modify_at Node.inc_in_degree (g.position_of b)
      (modify_at Node.inc_out_degree (g.position_of a) g.nodes_sp)).map Node.data =
      g.nodes_sp.map Node.data := by
    rw [map_modify_at_of_preserved Node.inc_in_degree Node.data (fun _ => rfl),
      map_modify_at_of_preserved Node.inc_out_degree Node.data (fun _ => rfl)]
  have hnew : (⟨s.addr, d.addr, w⟩ : Edge E).triple g.nodes_sp = .ok (a, b, w) := by
    simp [Edge.triple, Edge.get_src_data, Edge.get_dst_data, lock_of_mem hh hsm,
      lock_of_mem hh hdm, Node.get_data, hsd, hdd, Edge.get_weight]
  refine ⟨_, ⟨s.addr, d.addr, w⟩, hres, ?_, ?_, rfl, ?_, ?_, ?_⟩
  · simp [length_modify_at]
  · intro k n hk
    simp only [getElem?_modify_at, hk, Option.map_some']
    split_ifs <;> rfl
  · show Edge.triple _ _ = _
    rw [triple_eq_of_map haddr hdata]
    exact hnew
  · intro e' _
    exact triple_eq_of_map haddr hdata e'
  · have hval : ∀ v, (({ g with
        nodes_sp := modify_at Node.inc_in_degree (g.position_of b)
          (modify_at Node.inc_out_degree (g.position_of a) g.nodes_sp),
        edges := g.edges ++ [⟨s.addr, d.addr, w⟩] } : Graph N E).isNode v) = g.isNode v := by
      intro v
      exact isNode_eq_of_map hdata v
    have hconn : ∀ e' ∈ g.edges ++ [(⟨s.addr, d.addr, w⟩ : Edge E)],
        ∃ r, e'.connects (modify_at Node.inc_in_degree (g.position_of b)
          (modify_at Node.inc_out_degree (g.position_of a) g.nodes_sp)) a b = .ok r := by
      intro e' he'
      rw [connects_eq_of_map haddr hdata]
      rcases List.mem_append.mp he' with h | h
      · obtain ⟨s', d', hs', hd', -, -, -⟩ := hg.triple_ok h
        exact ⟨decide (s' = a) && decide (d' = b), by simp only [Edge.connects, hs', hd']⟩
      · rw [List.mem_singleton] at h
        subst h
        refine ⟨true, ?_⟩
        simp [Edge.connects, Edge.get_src_data, Edge.get_dst_data, lock_of_mem hh hsm,
          lock_of_mem hh hdm, Node.get_data, hsd, hdd]
    have hlast : (⟨s.addr, d.addr, w⟩ : Edge E).connects
        (modify_at Node.inc_in_degree (g.position_of b)
          (modify_at Node.inc_out_degree (g.position_of a) g.nodes_sp)) a b = .ok true := by
      rw [connects_eq_of_map haddr hdata]
      simp [Edge.connects, Edge.get_src_data, Edge.get_dst_data, lock_of_mem hh hsm,
        lock_of_mem hh hdm, Node.get_data, hsd, hdd]
    have hne := find_if_append_ne_length
      (fun e' : Edge E => decide (e'.connects (modify_at Node.inc_in_degree (g.position_of b)
          (modify_at Node.inc_out_degree (g.position_of a) g.nodes_sp)) a b = .ok true))
      g.edges ⟨s.addr, d.addr, w⟩ (by simp [hlast])
    unfold isConnected
    rw [hval a, hval b, (isNode_iff g a).mpr ha, (isNode_iff g b).mpr hb]
    simp only [Bool.not_true, Bool.false_eq_true, if_false]
    rw [find_if_exc_total _ _ hconn]
    simp only [decide_eq_true_eq]
    exact congrArg Except.ok (decide_eq_true hne)

/-- Witness of C2 on the graph with the nodes 1, 2 and the edge `(1, 2, 5)`: adding
`(2, 1, 7)` succeeds and leaves the two edges. -/
theorem addEdge_success_witness :
    ex_one_edge.DistinctAddrs ∧ ex_one_edge.NoDangling ∧
      ∃ g' e, ex_one_edge.addEdge 2 1 7 = (.ok true, g') ∧
        g'.edges = ex_one_edge.edges ++ [e] ∧ (g'.isConnected 2 1).1 = .ok true := by
  have hh : ex_one_edge.DistinctAddrs := by unfold DistinctAddrs; decide
  have hg : ex_one_edge.NoDangling := by unfold NoDangling; decide
  obtain ⟨g', e, h1, -, -, h2, -, -, h3⟩ := addEdge_success ex_one_edge 2 1 7 hh hg
    (by unfold IsNodeValue; decide) (by unfold IsNodeValue; decide)
    (by unfold HasTriple; decide)
  exact ⟨hh, hg, g', e, h1, h2, h3⟩

/-- Witness of C1 on the graph with the nodes 1, 2 and the edge `(1, 2, 5)`: adding the
same triple again returns false and changes nothing. -/
theorem addEdge_outcome_witness :
    ex_one_edge.NoDangling ∧ ex_one_edge.addEdge 1 2 5 = (.ok false, ex_one_edge) :=
  ⟨by unfold NoDangling; decide,
    (addEdge_outcome ex_one_edge 1 2 5 (by unfold NoDangling; decide)).2.1
      (by unfold IsNodeValue; decide) (by unfold IsNodeValue; decide)
      (by unfold HasTriple; decide)⟩

end Graph

/-! ## Sequences of `addNode` -/

namespace Graph

variable {N E : Type}

theorem isNode_iff_mem_values [DecidableEq N] (g : Graph N E) (v : N) :
    g.isNode v = true ↔ v ∈ g.values := by
  rw [isNode_iff, isNodeValue_iff_mem_map, values]

theorem addNode_of_mem [DecidableEq N] (g : Graph N E) (v : N) (h : v ∈ g.values) :
    g.addNode v = (false, g) := by
  simp [addNode, (isNode_iff_mem_values g v).mpr h]

theorem addNode_of_not_mem [DecidableEq N] (g : Graph N E) (v : N) (h : v ∉ g.values) :
    (g.addNode v).1 = true ∧ (g.addNode v).2.values = g.values ++ [v] := by
  have : g.isNode v = false := by
    rw [← Bool.not_eq_true, isNode_iff_mem_values]
    exact h
  simp [addNode, this, values, Node.mk_node]

theorem addNodes_length [DecidableEq N] (g : Graph N E) (vs : List N) :
    (g.addNodes vs).1.length = vs.length := by
  induction vs generalizing g with
  | nil => rfl
  | cons v vs ih => simp [addNodes, ih]

theorem addNodes_results [DecidableEq N] (g : Graph N E) (vs : List N) (i : Nat)
    (h : i < vs.length) :
    (g.addNodes vs).1[i]? = some (decide (vs[i] ∉ g.values ∧ vs[i] ∉ vs.take i)) := by
  induction vs generalizing g i with
  | nil => simp at h
  | cons v vs ih =>
    cases i with
    | zero =>
      by_cases hv : v ∈ g.values
      · simp [addNodes, addNode_of_mem g v hv, hv]
      · simp [addNodes, (addNode_of_not_mem g v hv).1, hv]
    | succ i =>
      have hi : i < vs.length := by simpa using h
      simp only [addNodes, List.getElem?_cons_succ, List.getElem_cons_succ, List.take_succ_cons]
      rw [ih _ i hi]
      congr 1
      by_cases hv : v ∈ g.values
      · rw [addNode_of_mem g v hv]
        apply decide_eq_decide.mpr
        constructor
        · rintro ⟨h1, h2⟩
          refine ⟨h1, ?_⟩
          simp only [List.mem_cons, not_or]
          exact ⟨fun hc => h1 (hc ▸ hv), h2⟩
        · rintro ⟨h1, h2⟩
          simp only [List.mem_cons, not_or] at h2
          exact ⟨h1, h2.2⟩
      · rw [(addNode_of_not_mem g v hv).2]
        apply decide_eq_decide.mpr
        simp only [List.mem_append, List.mem_singleton, List.mem_cons, not_or]
        tauto

theorem addNodes_values [DecidableEq N] (g : Graph N E) (vs : List N) :
    ∃ t, (g.addNodes vs).2.values = g.values ++ t ∧ t.Nodup ∧
      (∀ v, v ∈ t ↔ v ∈ vs ∧ v ∉ g.values) ∧
      t.Pairwise (fun a b => vs.indexOf a < vs.indexOf b) := by
  induction vs generalizing g with
  | nil => exact ⟨[], by simp [addNodes]⟩
  | cons v vs ih =>
    by_cases hv : v ∈ g.values
    · obtain ⟨t, h1, h2, h3, h4⟩ := ih g
      refine ⟨t, ?_, h2, ?_, ?_⟩
      · simp only [addNodes, addNode_of_mem g v hv]
        exact h1
      · intro x
        rw [h3 x]
        simp only [List.mem_cons]
        constructor
        · rintro ⟨hx, hxg⟩
          exact ⟨Or.inr hx, hxg⟩
        · rintro ⟨hx | hx, hxg⟩
          · exact absurd (hx ▸ hv) hxg
          · exact ⟨hx, hxg⟩
      · refine List.Pairwise.imp_of_mem ?_ h4
        intro a b ha hb hab
        have hav : v ≠ a := fun hc => ((h3 a).mp ha).2 (hc ▸ hv)
        have hbv : v ≠ b := fun hc => ((h3 b).mp hb).2 (hc ▸ hv)
        rw [List.indexOf_cons_ne _ hav, List.indexOf_cons_ne _ hbv]
        omega
    · obtain ⟨t, h1, h2, h3, h4⟩ := ih (g.addNode v).2
      rw [(addNode_of_not_mem g v hv).2] at h1 h3
      have hvt : v ∉ t := fun hc => by
        have := ((h3 v).mp hc).2
        simp at this
      refine ⟨v :: t, ?_, List.nodup_cons.mpr ⟨hvt, h2⟩, ?_, ?_⟩
      · simp only [addNodes]
        rw [h1]
        simp
      · intro x
        rw [List.mem_cons, h3 x, List.mem_cons]
        constructor
        · rintro (hx | ⟨hx, hxg⟩)
          · exact ⟨Or.inl hx, hx ▸ hv⟩
          · exact ⟨Or.inr hx, fun hc => hxg (List.mem_append_left _ hc)⟩
        · rintro ⟨hx | hx, hxg⟩
          · exact Or.inl hx
          · by_cases hxv : x = v
            · exact Or.inl hxv
            · refine Or.inr ⟨hx, fun hc => ?_⟩
              rcases List.mem_append.mp hc with h | h
              · exact hxg h
              · exact hxv (List.mem_singleton.mp h)
      · refine List.pairwise_cons.mpr ⟨?_, ?_⟩
        · intro b hb
          have hbv : v ≠ b := fun hc => hvt (hc ▸ hb)
          rw [List.indexOf_cons_self, List.indexOf_cons_ne _ hbv]
          omega
        · refine List.Pairwise.imp_of_mem ?_ h4
          intro a b ha hb hab
          have hav : v ≠ a := fun hc => hvt (hc ▸ ha)
          have hbv : v ≠ b := fun hc => hvt (hc ▸ hb)
          rw [List.indexOf_cons_ne _ hav, List.indexOf_cons_ne _ hbv]
          omega

/-- C3: for every sequence of values passed to `addNode` in order, starting from the empty
graph, the i-th call returns true exactly when its value equals no earlier one, and the
final node collection holds exactly the values of the sequence, each once, in the order of
their first insertion. -/
theorem addNodes_from_empty [DecidableEq N] (vs : List N) :
    ((empty : Graph N E).addNodes vs).1.length = vs.length ∧
      (∀ (i : Nat) (h : i < vs.length),
        ((empty : Graph N E).addNodes vs).1[i]? = some (decide (vs[i] ∉ vs.take i))) ∧
      ((empty : Graph N E).addNodes vs).2.values.Nodup ∧
      (∀ v, v ∈ ((empty : Graph N E).addNodes vs).2.values ↔ v ∈ vs) ∧
      ((empty : Graph N E).addNodes vs).2.values.Pairwise
        (fun a b => vs.indexOf a < vs.indexOf b) := by
  obtain ⟨t, h1, h2, h3, h4⟩ := addNodes_values (empty : Graph N E) vs
  have he : (empty : Graph N E).values = [] := rfl
  rw [he, List.nil_append] at h1
  refine ⟨addNodes_length _ vs, ?_, ?_, ?_, ?_⟩
  · intro i h
    rw [addNodes_results _ vs i h, he]
    simp
  · rw [h1]; exact h2
  · intro v
    rw [h1, h3 v, he]
    simp
  · rw [h1]; exact h4

end Graph

/-! ## What the operations do to the addresses and values of the nodes -/

section EraseAt

variable {α : Type}

theorem erase_at_sublist (i : Nat) (l : List α) : (erase_at i l).Sublist l := by
  induction l generalizing i with
  | nil => cases i <;> exact List.Sublist.refl _
  | cons a l ih =>
    cases i with
    | zero => exact List.sublist_cons_self a l
    | succ i => exact (ih i).cons₂ a

theorem map_erase_at {β : Type} (q : α → β) (i : Nat) (l : List α) :
    (erase_at i l).map q = erase_at i (l.map q) := by
  induction l generalizing i with
  | nil => cases i <;> rfl
  | cons a l ih => cases i <;> simp [erase_at, ih]

theorem map_modify_at {β : Type} (q : α → β) (f : α → α) (f' : β → β)
    (hf : ∀ a, q (f a) = f' (q a)) (i : Nat) (l : List α) :
    (modify_at f i l).map q = modify_at f' i (l.map q) := by
  induction l generalizing i with
  | nil => cases i <;> rfl
  | cons a l ih => cases i <;> simp [modify_at, ih, hf]

theorem nodup_modify_at_const (x : α) (i : Nat) (l : List α) (hl : l.Nodup) (hx : x ∉ l) :
    (modify_at (fun _ => x) i l).Nodup := by
  induction l generalizing i with
  | nil => cases i <;> exact List.nodup_nil
  | cons a l ih =>
    rw [List.nodup_cons] at hl
    rw [List.mem_cons, not_or] at hx
    cases i with
    | zero => exact List.nodup_cons.mpr ⟨hx.2, hl.2⟩
    | succ i =>
      refine List.nodup_cons.mpr ⟨?_, ih i hl.2 hx.2⟩
      intro hc
      have hmem : ∀ (j : Nat) (m : List α), a ∈ modify_at (fun _ => x) j m → a = x ∨ a ∈ m := by
        intro j m
        induction m generalizing j with
        | nil => cases j <;> simp [modify_at]
        | cons b m ihm =>
          cases j with
          | zero =>
            simp only [modify_at, List.mem_cons]
            tauto
          | succ j =>
            simp only [modify_at, List.mem_cons]
            rintro (h | h)
            · exact Or.inr (Or.inl h)
            · rcases ihm j h with h' | h'
              · exact Or.inl h'
              · exact Or.inr (Or.inr h')
      rcases hmem i l hc with h | h
      · exact hx.1 h.symm
      · exact hl.1 h

end EraseAt

namespace Graph

variable {N E : Type}

theorem map_addr_modify_inc_out (i : Nat) (l : List (Node N)) :
    (modify_at Node.inc_out_degree i l).map Node.addr = l.map Node.addr :=
  map_modify_at_of_preserved Node.inc_out_degree Node.addr (fun _ => rfl) i l

theorem map_addr_modify_inc_in (i : Nat) (l : List (Node N)) :
    (modify_at Node.inc_in_degree i l).map Node.addr = l.map Node.addr :=
  map_modify_at_of_preserved Node.inc_in_degree Node.addr (fun _ => rfl) i l

theorem map_addr_modify_dec_out (i : Nat) (l : List (Node N)) :
    (modify_at Node.dec_out_degree i l).map Node.addr = l.map Node.addr :=
  map_modify_at_of_preserved Node.dec_out_degree Node.addr
    (fun _ => by unfold Node.dec_out_degree; rfl) i l

theorem map_addr_modify_dec_in (i : Nat) (l : List (Node N)) :
    (modify_at Node.dec_in_degree i l).map Node.addr = l.map Node.addr :=
  map_modify_at_of_preserved Node.dec_in_degree Node.addr
    (fun _ => by unfold Node.dec_in_degree; rfl) i l

theorem map_data_modify_inc_out (i : Nat) (l : List (Node N)) :
    (modify_at Node.inc_out_degree i l).map Node.data = l.map Node.data :=
  map_modify_at_of_preserved Node.inc_out_degree Node.data (fun _ => rfl) i l

theorem map_data_modify_inc_in (i : Nat) (l : List (Node N)) :
    (modify_at Node.inc_in_degree i l).map Node.data = l.map Node.data :=
  map_modify_at_of_preserved Node.inc_in_degree Node.data (fun _ => rfl) i l

theorem map_data_modify_dec_out (i : Nat) (l : List (Node N)) :
    (modify_at Node.dec_out_degree i l).map Node.data = l.map Node.data :=
  map_modify_at_of_preserved Node.dec_out_degree Node.data
    (fun _ => by unfold Node.dec_out_degree; rfl) i l

theorem map_data_modify_dec_in (i : Nat) (l : List (Node N)) :
    (modify_at Node.dec_in_degree i l).map Node.data = l.map Node.data :=
  map_modify_at_of_preserved Node.dec_in_degree Node.data
    (fun _ => by unfold Node.dec_in_degree; rfl) i l

theorem merge_edge_eq [DecidableEq N] (old_data : N) (new_it : Nat) (new_node : Node N)
    (nodes : List (Node N)) (e : Edge E) :
    merge_edge old_data new_it new_node nodes e =
      match e.get_src_data nodes with
      | .error err => .error err
      | .ok s =>
        match e.get_dst_data nodes with
        | .error err => .error err
        | .ok d =>
          .ok ((if d = old_data then modify_at Node.inc_in_degree new_it else id)
              ((if s = old_data then modify_at Node.inc_out_degree new_it else id) nodes),
            ⟨if s = old_data then new_node.addr else e.src_ptr,
              if d = old_data then new_node.addr else e.dst_ptr, e.weight⟩) := by
  unfold merge_edge
  cases hs : e.get_src_data nodes with
  | error err => rfl
  | ok s =>
    simp only []
    by_cases h1 : s = old_data
    · have hd : (e.set_src_node new_node).get_dst_data
          (modify_at Node.inc_out_degree new_it nodes) = e.get_dst_data nodes := by
        rw [get_dst_data_eq_of_map (map_addr_modify_inc_out _ _) (map_data_modify_inc_out _ _)]
        rfl
      simp only [h1, if_true, hd, id]
      cases e.get_dst_data nodes with
      | error err => rfl
      | ok d =>
        simp only []
        by_cases h2 : d = old_data
        · simp [h2, Edge.set_dst_node, Edge.set_src_node]
        · simp [h2, Edge.set_dst_node, Edge.set_src_node]
    · simp only [h1, if_false, id]
      cases e.get_dst_data nodes with
      | error err => rfl
      | ok d =>
        simp only []
        by_cases h2 : d = old_data
        · simp [h2, Edge.set_dst_node, Edge.set_src_node]
        · simp [h2, Edge.set_dst_node, Edge.set_src_node]

theorem merge_edge_maps [DecidableEq N] (old_data : N) (new_it : Nat) (new_node : Node N)
    (nodes nodes1 : List (Node N)) (e e1 : Edge E)
    (h : merge_edge old_data new_it new_node nodes e = .ok (nodes1, e1)) :
    nodes1.map Node.addr = nodes.map Node.addr ∧ nodes1.map Node.data = nodes.map Node.data := by
  rw [merge_edge_eq] at h
  cases hs : e.get_src_data nodes with
  | error err => rw [hs] at h; cases h
  | ok s =>
    cases hd : e.get_dst_data nodes with
    | error err => rw [hs, hd] at h; cases h
    | ok d =>
      rw [hs, hd] at h
      simp only [Except.ok.injEq, Prod.mk.injEq] at h
      rw [← h.1]
      split_ifs <;>
        simp [map_addr_modify_inc_out, map_addr_modify_inc_in, map_data_modify_inc_out,
          map_data_modify_inc_in]

theorem merge_edges_maps [DecidableEq N] (old_data : N) (new_it : Nat) (new_node : Node N)
    (nodes nodes1 : List (Node N)) (es es1 : List (Edge E))
    (h : merge_edges old_data new_it new_node nodes es = .ok (nodes1, es1)) :
    nodes1.map Node.addr = nodes.map Node.addr ∧ nodes1.map Node.data = nodes.map Node.data := by
  induction es generalizing nodes nodes1 es1 with
  | nil =>
    simp only [merge_edges, Except.ok.injEq, Prod.mk.injEq] at h
    rw [h.1]
    exact ⟨rfl, rfl⟩
  | cons e es ih =>
    unfold merge_edges at h
    split at h
    · cases h
    · rename_i n1 e1 h1
      split at h
      · cases h
      · rename_i n2 es2 h2
        simp only [Except.ok.injEq, Prod.mk.injEq] at h
        obtain ⟨ha, hd⟩ := merge_edge_maps _ _ _ _ _ _ _ h1
        obtain ⟨ha', hd'⟩ := ih _ _ _ h2
        rw [← h.1, ha', hd', ha, hd]
        exact ⟨rfl, rfl⟩

theorem release_edge_eq (nodes : List (Node N)) (e : Edge E) :
    release_edge nodes e =
      (if (lock nodes e.dst_ptr).isSome = true
        then modify_at Node.dec_in_degree (locate nodes e.dst_ptr) else id)
        ((if (lock nodes e.src_ptr).isSome = true
          then modify_at Node.dec_out_degree (locate nodes e.src_ptr) else id) nodes) := by
  unfold release_edge
  cases hs : lock nodes e.src_ptr with
  | none =>
    simp only [Option.isSome_none, Bool.false_eq_true, if_false, id]
    cases hd : lock nodes e.dst_ptr <;> simp
  | some n =>
    have ha := map_addr_modify_dec_out (locate nodes e.src_ptr) nodes
    simp only [Option.isSome_some, if_true]
    rw [locate_eq_of_map_addr ha]
    have hsome := lock_isSome_eq_of_map ha e.dst_ptr
    cases hd : lock nodes e.dst_ptr with
    | none =>
      rw [hd] at hsome
      cases hd' : lock (modify_at Node.dec_out_degree (locate nodes e.src_ptr) nodes)
          e.dst_ptr with
      | none => simp
      | some m' => rw [hd'] at hsome; cases hsome
    | some m =>
      rw [hd] at hsome
      obtain ⟨m', hm'⟩ := Option.isSome_iff_exists.mp hsome
      simp [hm']

theorem release_edge_maps (nodes : List (Node N)) (e : Edge E) :
    (release_edge nodes e).map Node.addr = nodes.map Node.addr ∧
      (release_edge nodes e).map Node.data = nodes.map Node.data := by
  rw [release_edge_eq]
  constructor <;>
    (split_ifs <;>
      simp [map_addr_modify_dec_out, map_addr_modify_dec_in, map_data_modify_dec_out,
        map_data_modify_dec_in])

theorem prune_cons (nodes : List (Node N)) (e : Edge E) (es : List (Edge E)) :
    prune nodes (e :: es) =
      if e.live nodes = true then ((prune nodes es).1, e :: (prune nodes es).2)
      else prune (release_edge nodes e) es := by
  unfold Edge.live
  cases hs : lock nodes e.src_ptr <;> cases hd : lock nodes e.dst_ptr <;>
    simp [prune, hs, hd]

theorem prune_maps (nodes : List (Node N)) (es : List (Edge E)) :
    (prune nodes es).1.map Node.addr = nodes.map Node.addr ∧
      (prune nodes es).1.map Node.data = nodes.map Node.data := by
  induction es generalizing nodes with
  | nil => exact ⟨rfl, rfl⟩
  | cons e es ih =>
    rw [prune_cons]
    split
    · exact ih nodes
    · obtain ⟨h1, h2⟩ := ih (release_edge nodes e)
      obtain ⟨h3, h4⟩ := release_edge_maps nodes e
      exact ⟨h1.trans h3, h2.trans h4⟩

theorem sort_perm {α : Type} (lt : α → α → Bool) (l : List α) : (sort lt l).Perm l :=
  List.perm_insertionSort _ l

theorem update_values_perm [LinearOrder N] [LinearOrder E] (g : Graph N E) :
    g.update.2.values.Perm g.values := by
  have h := (prune_maps g.nodes_sp g.edges).2
  simp only [update]
  cases keyed (prune g.nodes_sp g.edges).1 (prune g.nodes_sp g.edges).2 with
  | error err =>
    simp only [values]
    rw [h]
  | ok ks =>
    simp only [values]
    rw [← h]
    exact (sort_perm _ _).map _

theorem replace_values [DecidableEq N] (g : Graph N E) (old_data new_data : N) (r : Bool)
    (g' : Graph N E) (h : g.replace old_data new_data = (.ok r, g')) (hn : g.values.Nodup) :
    g'.values.Nodup := by
  simp only [replace] at h
  by_cases h1 : find_if (fun n => decide (n.get_data = old_data)) g.nodes_sp = g.nodes_sp.length
  · simp [h1] at h
  · by_cases h2 : find_if (fun n => decide (n.get_data = new_data)) g.nodes_sp =
        g.nodes_sp.length
    · simp only [h1, h2, if_false, ne_eq, not_true_eq_false, Prod.mk.injEq] at h
      rw [← h.2]
      simp only [values]
      rw [map_modify_at Node.data (Node.set_data new_data) (fun _ => new_data) (fun _ => rfl)]
      refine nodup_modify_at_const _ _ _ hn ?_
      rw [find_if_eq_length_iff] at h2
      intro hc
      obtain ⟨n, hn, hnd⟩ := List.mem_map.mp hc
      have := h2 n hn
      simp [Node.get_data, hnd] at this
    · simp only [h1, h2, if_false, ne_eq, not_false_eq_true, if_true, Prod.mk.injEq] at h
      rw [← h.2]
      exact hn

theorem mergeReplace_values [DecidableEq N] (g : Graph N E) (old_data new_data : N)
    (g' : Graph N E) (h : g.mergeReplace old_data new_data = (.ok (), g')) :
    g'.values.Sublist g.values := by
  simp only [mergeReplace] at h
  by_cases h1 : find_if (fun n => decide (n.get_data = old_data)) g.nodes_sp = g.nodes_sp.length
  · simp [h1] at h
  · simp only [h1, if_false] at h
    cases h2 : g.nodes_sp[find_if (fun n => decide (n.get_data = new_data)) g.nodes_sp]? with
    | none => simp [h2] at h
    | some new_node =>
      simp only [h2] at h
      cases hm : merge_edges old_data
          (find_if (fun n => decide (n.get_data = new_data)) g.nodes_sp) new_node
          g.nodes_sp g.edges with
      | error err => simp [hm] at h
      | ok r =>
        obtain ⟨nodes1, edges1⟩ := r
        simp only [hm, Prod.mk.injEq, true_and] at h
        rw [← h]
        simp only [values]
        rw [← (merge_edges_maps _ _ _ _ _ _ _ hm).2]
        exact (erase_at_sublist _ _).map _

theorem addEdge_values [DecidableEq N] [DecidableEq E] (g : Graph N E) (src dst : N) (w : E)
    (r : Bool) (g' : Graph N E) (h : g.addEdge src dst w = (.ok r, g')) :
    g'.values = g.values := by
  unfold addEdge at h
  split at h
  · cases h
  · split_ifs at h
    · cases h; rfl
    · simp only [] at h
      split at h
      · cases h
      · cases h
      · simp only [Prod.mk.injEq] at h
        rw [← h.2]
        simp only [values]
        rw [map_data_modify_inc_in, map_data_modify_inc_out]

theorem deleteEdge_nodes [DecidableEq N] [DecidableEq E] (g : Graph N E) (src dst : N)
    (w : E) (g' : Graph N E) (h : g.deleteEdge src dst w = (.ok (), g')) :
    g'.nodes_sp = g.nodes_sp := by
  unfold deleteEdge at h
  split at h
  · cases h
  · cases h; rfl

theorem next_nodes (g g' : Graph N E) (h : g.next = (.ok (), g')) :
    g'.nodes_sp = g.nodes_sp := by
  unfold next at h
  split at h
  · split at h
    · cases h
    · cases h; rfl
  · cases h

/-- C4: in every state reachable from the empty graph by public operations that complete,
no two nodes of the node collection carry equal values. -/
theorem reachable_values_nodup [LinearOrder N] [LinearOrder E] (g : Graph N E)
    (h : Reachable g) : g.values.Nodup := by
  induction h with
  | empty => exact List.nodup_nil
  | addNode g v _ ih =>
    by_cases hv : v ∈ g.values
    · rw [addNode_of_mem g v hv]; exact ih
    · rw [(addNode_of_not_mem g v hv).2]
      exact List.Nodup.append ih (List.nodup_singleton v) (by simpa using hv)
  | addEdge g src dst w r g' _ hop ih => rw [addEdge_values g src dst w r g' hop]; exact ih
  | replace g o n r g' _ hop ih => exact replace_values g o n r g' hop ih
  | mergeReplace g o n g' _ hop ih => exact (mergeReplace_values g o n g' hop).nodup ih
  | deleteNode g v _ ih => exact ih.sublist ((List.filter_sublist _).map _)
  | deleteEdge g src dst w g' _ hop ih =>
    unfold values
    rw [deleteEdge_nodes g src dst w g' hop]; exact ih
  | clear g _ _ => exact List.nodup_nil
  | update g g' _ hop ih =>
    have := update_values_perm g
    rw [hop] at this
    exact this.nodup_iff.mpr ih
  | begin g _ ih => exact ih
  | next g g' _ hop ih =>
    unfold values
    rw [next_nodes g g' hop]; exact ih

end Graph

namespace Graph

/-- Witness of C4: the state after `addNode(1)`, `addNode(2)`, `addNode(1)` is reachable and
its values are pairwise distinct. -/
theorem reachable_values_nodup_witness :
    Reachable (((((empty : Graph Nat Nat).addNode 1).2.addNode 2).2.addNode 1).2) ∧
      (((((empty : Graph Nat Nat).addNode 1).2.addNode 2).2.addNode 1).2).values.Nodup :=
  ⟨Reachable.addNode _ 1 (Reachable.addNode _ 2 (Reachable.addNode _ 1 Reachable.empty)),
    reachable_values_nodup _
      (Reachable.addNode _ 1 (Reachable.addNode _ 2 (Reachable.addNode _ 1 Reachable.empty)))⟩

/-- Witness of C3 on the sequence 1, 2, 1: the third call returns false. -/
theorem addNodes_from_empty_witness :
    ((empty : Graph Nat Nat).addNodes [1, 2, 1]).1[2]? = some false :=
  (addNodes_from_empty (E := Nat) [1, 2, 1]).2.1 2 (by decide)

end Graph

/-! ## `mergeReplace` -/

section EraseAtMem

variable {α : Type}

theorem mem_erase_at_of_ne (i : Nat) (l : List α) (a : α) (ha : a ∈ l)
    (hi : l[i]? ≠ some a) : a ∈ erase_at i l := by
  induction l generalizing i with
  | nil => cases ha
  | cons b l ih =>
    cases i with
    | zero =>
      simp only [List.getElem?_cons_zero, ne_eq, Option.some.injEq] at hi
      rcases List.mem_cons.mp ha with h | h
      · exact absurd h.symm hi
      · exact h
    | succ i =>
      simp only [List.getElem?_cons_succ] at hi
      simp only [erase_at, List.mem_cons]
      rcases List.mem_cons.mp ha with h | h
      · exact Or.inl h
      · exact Or.inr (ih i h hi)

theorem not_mem_erase_at_of_nodup (i : Nat) (l : List α) (a : α) (hl : l.Nodup)
    (hi : l[i]? = some a) : a ∉ erase_at i l := by
  induction l generalizing i with
  | nil => simp at hi
  | cons b l ih =>
    rw [List.nodup_cons] at hl
    cases i with
    | zero =>
      simp only [List.getElem?_cons_zero, Option.some.injEq] at hi
      subst hi
      exact hl.1
    | succ i =>
      simp only [List.getElem?_cons_succ] at hi
      simp only [erase_at, List.mem_cons, not_or]
      refine ⟨?_, ih i hl.2 hi⟩
      intro hc
      subst hc
      exact hl.1 (List.getElem?_mem hi)

theorem length_erase_at (i : Nat) (l : List α) (h : i < l.length) :
    (erase_at i l).length + 1 = l.length := by
  induction l generalizing i with
  | nil => simp at h
  | cons b l ih =>
    cases i with
    | zero => simp [erase_at]
    | succ i =>
      simp only [erase_at, List.length_cons]
      rw [ih i (by simpa using h)]

end EraseAtMem

namespace Graph

variable {N E : Type}

theorem lock_erase_at {l : List (Node N)} (hn : (l.map Node.addr).Nodup) {i : Nat}
    {m n : Node N} {p : Nat} (hi : l[i]? = some m) (h : lock l p = some n)
    (hne : n.data ≠ m.data) : lock (erase_at i l) p = some n := by
  obtain ⟨hmem, hp⟩ := lock_eq_some_mem h
  have hin : n ∈ erase_at i l := by
    apply mem_erase_at_of_ne i l n hmem
    rw [hi]
    intro hc
    injection hc with hc
    exact hne (hc ▸ rfl)
  have hn' : ((erase_at i l).map Node.addr).Nodup := hn.sublist ((erase_at_sublist i l).map _)
  rw [← hp]
  exact lock_of_mem hn' hin

theorem redirect_eq_of_map [DecidableEq N] {l l' : List (Node N)}
    (h : l'.map Node.addr = l.map Node.addr) (hd : l'.map Node.data = l.map Node.data)
    (old_data : N) (new_addr : Nat) (e : Edge E) :
    e.redirect l' old_data new_addr = e.redirect l old_data new_addr := by
  unfold Edge.redirect
  rw [get_src_data_eq_of_map h hd, get_dst_data_eq_of_map h hd]

theorem merge_edges_ok [DecidableEq N] (old_data : N) (new_it : Nat) (new_node : Node N)
    (nodes : List (Node N)) (es : List (Edge E))
    (h : ∀ e ∈ es, ∃ s d, e.get_src_data nodes = .ok s ∧ e.get_dst_data nodes = .ok d) :
    ∃ nodes1, merge_edges old_data new_it new_node nodes es =
        .ok (nodes1, es.map (Edge.redirect nodes old_data new_node.addr)) ∧
      nodes1.map Node.addr = nodes.map Node.addr ∧
      nodes1.map Node.data = nodes.map Node.data := by
  induction es generalizing nodes with
  | nil => exact ⟨nodes, rfl, rfl, rfl⟩
  | cons e es ih =>
    obtain ⟨s, d, hs, hd⟩ := h e (by simp)
    have hstep := merge_edge_eq old_data new_it new_node nodes e
    rw [hs, hd] at hstep
    simp only [] at hstep
    obtain ⟨ha1, hd1⟩ := merge_edge_maps _ _ _ _ _ _ _ hstep
    have hrest : ∀ e' ∈ es, ∃ s' d',
        e'.get_src_data ((if d = old_data then modify_at Node.inc_in_degree new_it else id)
          ((if s = old_data then modify_at Node.inc_out_degree new_it else id) nodes)) =
            .ok s' ∧
        e'.get_dst_data ((if d = old_data then modify_at Node.inc_in_degree new_it else id)
          ((if s = old_data then modify_at Node.inc_out_degree new_it else id) nodes)) =
            .ok d' := by
      intro e' he'
      obtain ⟨s', d', hs', hd'⟩ := h e' (by simp [he'])
      exact ⟨s', d', by rw [get_src_data_eq_of_map ha1 hd1, hs'],
        by rw [get_dst_data_eq_of_map ha1 hd1, hd']⟩
    obtain ⟨nodes2, h2, ha2, hd2⟩ := ih _ hrest
    refine ⟨nodes2, ?_, by rw [ha2, ha1], by rw [hd2, hd1]⟩
    simp only [merge_edges, hstep, h2, List.map_cons]
    have hhead : (⟨if s = old_data then new_node.addr else e.src_ptr,
        if d = old_data then new_node.addr else e.dst_ptr, e.weight⟩ : Edge E) =
        e.redirect nodes old_data new_node.addr := by
      simp [Edge.redirect, hs, hd]
    have htail : es.map (Edge.redirect ((if d = old_data then modify_at Node.inc_in_degree new_it
        else id) ((if s = old_data then modify_at Node.inc_out_degree new_it else id) nodes))
        old_data new_node.addr) = es.map (Edge.redirect nodes old_data new_node.addr) := by
      apply List.map_congr_left
      intro e' _
      exact redirect_eq_of_map ha1 hd1 _ _ e'
    rw [hhead, htail]

end Graph

namespace Graph

variable {N E : Type}

theorem read_after_erase {l : List (Node N)} (hn : (l.map Node.addr).Nodup) {i : Nat}
    {m : Node N} (hi : l[i]? = some m) {p : Nat} {v : N}
    (h : (lock l p).map Node.data = some v) (hv : v ≠ m.data) :
    (lock (erase_at i l) p).map Node.data = some v := by
  cases hl : lock l p with
  | none => rw [hl] at h; cases h
  | some n =>
    rw [hl] at h
    simp only [Option.map_some', Option.some.injEq] at h
    rw [lock_erase_at hn hi hl (by rw [h]; exact hv)]
    simp [h]

theorem triple_eq_of_reads (nodes : List (Node N)) (e : Edge E) (s d : N)
    (hs : (lock nodes e.src_ptr).map Node.data = some s)
    (hd : (lock nodes e.dst_ptr).map Node.data = some d) :
    e.triple nodes = .ok (s, d, e.weight) := by
  unfold Edge.triple
  rw [get_src_data_eq_map, get_dst_data_eq_map, hs, hd]
  rfl

theorem reads_of_get_data (nodes : List (Node N)) (e : Edge E) (s d : N)
    (hs : e.get_src_data nodes = .ok s) (hd : e.get_dst_data nodes = .ok d) :
    (lock nodes e.src_ptr).map Node.data = some s ∧
      (lock nodes e.dst_ptr).map Node.data = some d := by
  rw [get_src_data_eq_map] at hs
  rw [get_dst_data_eq_map] at hd
  constructor
  · cases h : (lock nodes e.src_ptr).map Node.data with
    | none => rw [h] at hs; cases hs
    | some v => rw [h] at hs; cases hs; rfl
  · cases h : (lock nodes e.dst_ptr).map Node.data with
    | none => rw [h] at hd; cases hd
    | some v => rw [h] at hd; cases hd; rfl

theorem exists_node_of [DecidableEq N] (g : Graph N E) (v : N) (h : g.IsNodeValue v) :
    ∃ n, g.nodes_sp[g.position_of v]? = some n ∧ n ∈ g.nodes_sp ∧ n.data = v := by
  obtain ⟨n, hn⟩ : ∃ n, g.nodes_sp[find_if (fun n => decide (n.get_data = v)) g.nodes_sp]? =
      some n :=
    Option.ne_none_iff_exists'.mp (fun hc => (getElem?_find_data_eq_none_iff g v).mp hc h)
  obtain ⟨h1, h2⟩ := getElem?_find_if_eq_some _ _ _ hn
  exact ⟨n, hn, h1, by simpa [Node.get_data] using h2⟩

/-- C5 (amended): in a graph without dangling edges, for values `old ≠ new` of current
nodes, `mergeReplace(old, new)` completes; one node is removed and, when the node values
were pairwise distinct, `old` is no longer the value of any node; the edge collection
keeps its length and order, and the edge at every position keeps its weight and reports
the endpoints it reported before with `old` replaced by `new`. -/
theorem mergeReplace_redirects [DecidableEq N] (g : Graph N E) (old_data new_data : N)
    (hh : g.DistinctAddrs) (hg : g.NoDangling) (ho : g.IsNodeValue old_data)
    (hn : g.IsNodeValue new_data) (hne : old_data ≠ new_data) :
    ∃ g', g.mergeReplace old_data new_data = (.ok (), g') ∧
      (g.values.Nodup → ¬ g'.IsNodeValue old_data) ∧
      g'.nodes_sp.length + 1 = g.nodes_sp.length ∧
      g'.edges.length = g.edges.length ∧
      ∀ (i : Nat) (e : Edge E), g.edges[i]? = some e →
        ∃ e' s d, g'.edges[i]? = some e' ∧ e.triple g.nodes_sp = .ok (s, d, e.weight) ∧
          e'.triple g'.nodes_sp =
            .ok (if s = old_data then new_data else s, if d = old_data then new_data else d,
              e.weight) := by
  obtain ⟨m, hm, hmm, hmd⟩ := exists_node_of g old_data ho
  obtain ⟨nn, hnn, hnm, hnd⟩ := exists_node_of g new_data hn
  have hlt : g.position_of old_data < g.nodes_sp.length := by
    by_contra hc
    rw [List.getElem?_eq_none (by omega)] at hm
    cases hm
  obtain ⟨nodes1, hmerge, ha1, hd1⟩ := merge_edges_ok old_data (g.position_of new_data) nn
    g.nodes_sp g.edges (fun e he => by
      obtain ⟨s, d, hs, hd, -⟩ := hg.triple_ok he
      exact ⟨s, d, hs, hd⟩)
  have hres : g.mergeReplace old_data new_data = (.ok (),
      { g with nodes_sp := erase_at (g.position_of old_data) nodes1,
               edges := g.edges.map (Edge.redirect g.nodes_sp old_data nn.addr) }) := by
    unfold position_of at hlt hnn hmerge ⊢
    simp only [mergeReplace, Nat.ne_of_lt hlt, if_false, hnn, hmerge]
  have hnodup1 : (nodes1.map Node.addr).Nodup := by rw [ha1]; exact hh
  obtain ⟨m1, hm1, hm1d⟩ : ∃ m1, nodes1[g.position_of old_data]? = some m1 ∧
      m1.data = old_data := by
    have h1 : (nodes1.map Node.data)[g.position_of old_data]? = some old_data := by
      rw [hd1, List.getElem?_map, hm, Option.map_some', hmd]
    rw [List.getElem?_map] at h1
    cases h2 : nodes1[g.position_of old_data]? with
    | none => rw [h2] at h1; cases h1
    | some m1 =>
      rw [h2] at h1
      exact ⟨m1, rfl, by simpa using h1⟩
  have hread : ∀ (p : Nat) (v : N), (lock g.nodes_sp p).map Node.data = some v →
      v ≠ old_data →
      (lock (erase_at (g.position_of old_data) nodes1) p).map Node.data = some v := by
    intro p v hp hv
    apply read_after_erase hnodup1 hm1
    · rw [lock_map_eq_of_map Node.data ha1 hd1]; exact hp
    · rw [hm1d]; exact hv
  have hnew : (lock (erase_at (g.position_of old_data) nodes1) nn.addr).map Node.data =
      some new_data := by
    apply hread
    · rw [lock_of_mem hh hnm]; simp [hnd]
    · exact fun hc => hne hc.symm
  refine ⟨_, hres, ?_, ?_, ?_, ?_⟩
  · intro hnod hc
    rw [isNodeValue_iff_mem_map] at hc
    simp only [] at hc
    rw [map_erase_at, hd1] at hc
    refine not_mem_erase_at_of_nodup _ _ _ hnod ?_ hc
    simp only [values]
    rw [List.getElem?_map, hm, Option.map_some', hmd]
  · have hl1 : nodes1.length = g.nodes_sp.length := by
      have := congrArg List.length ha1
      simpa using this
    rw [← hl1]
    exact length_erase_at _ _ (by rw [hl1]; exact hlt)
  · simp
  · intro i e hi
    obtain ⟨s, d, hs, hd, ht, -, -⟩ := hg.triple_ok (List.getElem?_mem hi)
    obtain ⟨hrs, hrd⟩ := reads_of_get_data _ _ _ _ hs hd
    refine ⟨e.redirect g.nodes_sp old_data nn.addr, s, d, ?_, ht, ?_⟩
    · simp [List.getElem?_map, hi]
    · apply triple_eq_of_reads
      · by_cases h1 : s = old_data
        · simp only [Edge.redirect, hs, h1, if_true]
          exact hnew
        · have : ¬ (Except.ok s : Except Err N) = .ok old_data := fun hc => h1 (by injection hc)
          simp only [Edge.redirect, hs, this, h1, if_false]
          exact hread _ _ hrs h1
      · by_cases h1 : d = old_data
        · simp only [Edge.redirect, hd, h1, if_true]
          exact hnew
        · have : ¬ (Except.ok d : Except Err N) = .ok old_data := fun hc => h1 (by injection hc)
          simp only [Edge.redirect, hd, this, h1, if_false]
          exact hread _ _ hrd h1

/-- Witness of C5 on the graph with the nodes 1, 2, 3: `mergeReplace(1, 2)` completes and
keeps the three edges. -/
theorem mergeReplace_redirects_witness :
    ex_three_nodes.DistinctAddrs ∧ ex_three_nodes.NoDangling ∧
      ∃ g', ex_three_nodes.mergeReplace 1 2 = (.ok (), g') ∧
        ¬ g'.IsNodeValue 1 ∧ g'.edges.length = ex_three_nodes.edges.length := by
  have hh : ex_three_nodes.DistinctAddrs := by unfold DistinctAddrs; decide
  have hg : ex_three_nodes.NoDangling := by unfold NoDangling; decide
  obtain ⟨g', h1, h2, -, h3, -⟩ := mergeReplace_redirects ex_three_nodes 1 2 hh hg
    (by unfold IsNodeValue; decide) (by unfold IsNodeValue; decide) (by decide)
  exact ⟨hh, hg, g', h1, h2 (by decide), h3⟩

/-- Counterexample to C5 as stated (`old = new`): on the graph with the single node 1 and
the self-loop `(1, 1, 5)`, `mergeReplace(1, 1)` erases the node; the edge that reported 1
as its source is left with expired endpoints and reports nothing. -/
theorem mergeReplace_redirects_counterexample :
    ex_self_loop.NoDangling ∧ ex_self_loop.IsNodeValue 1 ∧
      (∀ e ∈ ex_self_loop.edges, e.get_src_data ex_self_loop.nodes_sp = .ok 1) ∧
      (ex_self_loop.mergeReplace 1 1).1 = .ok () ∧
      (ex_self_loop.mergeReplace 1 1).2.edges.length = 1 ∧
      (∀ e ∈ (ex_self_loop.mergeReplace 1 1).2.edges,
        e.get_src_data (ex_self_loop.mergeReplace 1 1).2.nodes_sp = .error .expired_deref) := by
  refine ⟨?_, ?_, ?_, ?_, ?_, ?_⟩
  · unfold NoDangling; decide
  · unfold IsNodeValue; decide
  · decide
  · decide
  · decide
  · decide

end Graph

/-! ## Sorting and removing adjacent duplicates -/

section SortUnique

variable {α κ : Type} [LinearOrder κ]

theorem sort_sorted (key : α → κ) (lt : α → α → Bool)
    (hlt : ∀ a b, lt a b = true ↔ key a < key b) (l : List α) :
    (sort lt l).Sorted (fun a b => key a ≤ key b) := by
  have hr : ∀ a b, (lt b a = false) ↔ key a ≤ key b := by
    intro a b
    rw [← not_lt, ← hlt b a, Bool.not_eq_true]
  have htot : IsTotal α (fun a b => lt b a = false) :=
    ⟨fun a b => by rw [hr, hr]; exact le_total _ _⟩
  have htrans : IsTrans α (fun a b => lt b a = false) :=
    ⟨fun a b c => by rw [hr, hr, hr]; exact le_trans⟩
  have h := List.sorted_insertionSort (fun a b => lt b a = false) l
  exact List.Pairwise.imp (fun {a b} hab => (hr a b).mp hab) h

theorem unique_from_spec (key : α → κ) (eq : α → α → Bool)
    (heq : ∀ a b, eq a b = true ↔ key a = key b) (a : α) (l : List α)
    (hs : (a :: l).Sorted (fun a b => key a ≤ key b)) :
    (unique_from eq a l).Sublist l ∧
      (a :: unique_from eq a l).Pairwise (fun a b => key a < key b) ∧
      ∀ p ∈ l, key p = key a ∨ ∃ q ∈ unique_from eq a l, key q = key p := by
  induction l generalizing a with
  | nil => simp [unique_from]
  | cons b l ih =>
    have hab : key a ≤ key b := List.rel_of_sorted_cons hs b (by simp)
    have hbl : (b :: l).Sorted (fun a b => key a ≤ key b) := hs.of_cons
    have hal : (a :: l).Sorted (fun a b => key a ≤ key b) := by
      refine List.sorted_cons.mpr ⟨fun c hc => ?_, hbl.of_cons⟩
      exact List.rel_of_sorted_cons hs c (by simp [hc])
    by_cases he : eq a b = true
    · obtain ⟨h1, h2, h3⟩ := ih a hal
      simp only [unique_from, he, if_true]
      refine ⟨h1.cons b, h2, ?_⟩
      intro p hp
      rcases List.mem_cons.mp hp with h | h
      · exact Or.inl (by rw [h]; exact ((heq a b).mp he).symm)
      · exact h3 p h
    · obtain ⟨h1, h2, h3⟩ := ih b hbl
      have hlt : key a < key b := lt_of_le_of_ne hab (fun hc => he ((heq a b).mpr hc))
      simp only [unique_from, he, if_false]
      refine ⟨h1.cons₂ b, ?_, ?_⟩
      · refine List.pairwise_cons.mpr ⟨?_, h2⟩
        intro c hc
        rcases List.mem_cons.mp hc with h | h
        · rw [h]; exact hlt
        · exact lt_trans hlt (List.rel_of_pairwise_cons h2 h)
      · intro p hp
        rcases List.mem_cons.mp hp with h | h
        · exact Or.inr ⟨b, by simp, by rw [h]⟩
        · rcases h3 p h with h' | ⟨q, hq, hqp⟩
          · exact Or.inr ⟨b, by simp, h'.symm⟩
          · exact Or.inr ⟨q, by simp [hq], hqp⟩

theorem unique_spec (key : α → κ) (eq : α → α → Bool)
    (heq : ∀ a b, eq a b = true ↔ key a = key b) (l : List α)
    (hs : l.Sorted (fun a b => key a ≤ key b)) :
    (unique eq l).Sublist l ∧ (unique eq l).Pairwise (fun a b => key a < key b) ∧
      ∀ p ∈ l, ∃ q ∈ unique eq l, key q = key p := by
  cases l with
  | nil => simp [unique]
  | cons a l =>
    obtain ⟨h1, h2, h3⟩ := unique_from_spec key eq heq a l hs
    refine ⟨h1.cons₂ a, h2, ?_⟩
    intro p hp
    rcases List.mem_cons.mp hp with h | h
    · exact ⟨a, by simp [unique], by rw [h]⟩
    · rcases h3 p h with h' | ⟨q, hq, hqp⟩
      · exact ⟨a, by simp [unique], h'.symm⟩
      · exact ⟨q, by simp [unique, hq], hqp⟩

end SortUnique

namespace Graph

variable {N E : Type}

theorem triple_lt_iff [LinearOrder N] [LinearOrder E] (a b : N × N × E) :
    triple_lt a b = true ↔ lex_key a < lex_key b := by
  unfold triple_lt lex_key
  rw [Prod.Lex.lt_iff]
  simp only [Prod.Lex.lt_iff, Bool.or_eq_true, Bool.and_eq_true, decide_eq_true_eq]

theorem lex_key_injective [LinearOrder N] [LinearOrder E] (a b : N × N × E)
    (h : lex_key a = lex_key b) : a = b := by
  unfold lex_key at h
  have h1 := toLex.injective h
  simp only [Prod.mk.injEq] at h1
  have h2 := toLex.injective h1.2
  simp only [Prod.mk.injEq] at h2
  exact Prod.ext h1.1 (Prod.ext h2.1 h2.2)

theorem triple_eq_iff [DecidableEq N] [DecidableEq E] (a b : N × N × E) :
    triple_eq a b = true ↔ a = b := by
  unfold triple_eq
  simp only [Bool.and_eq_true, decide_eq_true_eq]
  constructor
  · rintro ⟨⟨h1, h2⟩, h3⟩
    exact Prod.ext h1 (Prod.ext h2 h3)
  · rintro rfl
    exact ⟨⟨rfl, rfl⟩, rfl⟩

end Graph

/-! ## The maintenance pass -/

namespace Graph

variable {N E : Type}

theorem live_eq_of_map {l l' : List (Node N)} (h : l'.map Node.addr = l.map Node.addr)
    (e : Edge E) : e.live l' = e.live l := by
  unfold Edge.live
  rw [lock_isSome_eq_of_map h, lock_isSome_eq_of_map h]

theorem prune_edges (nodes : List (Node N)) (es : List (Edge E)) :
    (prune nodes es).2 = es.filter (Edge.live nodes) := by
  induction es generalizing nodes with
  | nil => rfl
  | cons e es ih =>
    rw [prune_cons]
    by_cases h : e.live nodes = true
    · rw [if_pos h, List.filter_cons_of_pos h, ih]
    · rw [if_neg h, List.filter_cons_of_neg h, ih]
      apply List.filter_congr
      intro e' _
      exact live_eq_of_map (release_edge_maps nodes e).1 e'

theorem triple_ok_of_live {nodes : List (Node N)} {e : Edge E} (h : e.live nodes = true) :
    ∃ t, e.triple nodes = .ok t := by
  unfold Edge.live at h
  rw [Bool.and_eq_true] at h
  obtain ⟨a, ha⟩ := Option.isSome_iff_exists.mp h.1
  obtain ⟨b, hb⟩ := Option.isSome_iff_exists.mp h.2
  exact ⟨(a.data, b.data, e.weight), by
    simp [Edge.triple, Edge.get_src_data, Edge.get_dst_data, ha, hb, Node.get_data,
      Edge.get_weight]⟩

theorem live_of_triple_ok {nodes : List (Node N)} {e : Edge E} {t : N × N × E}
    (h : e.triple nodes = .ok t) : e.live nodes = true := by
  unfold Edge.live
  unfold Edge.triple Edge.get_src_data Edge.get_dst_data at h
  cases hs : lock nodes e.src_ptr with
  | none => simp [hs] at h
  | some a =>
    cases hd : lock nodes e.dst_ptr with
    | none => simp [hs, hd] at h
    | some b => rfl

theorem keyed_ok (nodes : List (Node N)) (es : List (Edge E))
    (h : ∀ e ∈ es, e.live nodes = true) :
    ∃ ks, keyed nodes es = .ok ks ∧ ks.map Prod.snd = es ∧
      ∀ p ∈ ks, p.2.triple nodes = .ok p.1 := by
  induction es with
  | nil => exact ⟨[], rfl, rfl, by simp⟩
  | cons e es ih =>
    obtain ⟨t, ht⟩ := triple_ok_of_live (h e (by simp))
    obtain ⟨ks, h1, h2, h3⟩ := ih (fun e' he' => h e' (by simp [he']))
    refine ⟨(t, e) :: ks, by simp [keyed, ht, h1], by simp [h2], ?_⟩
    intro p hp
    rcases List.mem_cons.mp hp with hp | hp
    · rw [hp]; exact ht
    · exact h3 p hp

theorem lock_perm {l l' : List (Node N)} (hp : l'.Perm l) (hn : (l.map Node.addr).Nodup)
    (p : Nat) : lock l' p = lock l p := by
  have hn' : (l'.map Node.addr).Nodup := (hp.map Node.addr).nodup_iff.mpr hn
  cases h : lock l p with
  | some n =>
    obtain ⟨hmem, hpa⟩ := lock_eq_some_mem h
    rw [← hpa]
    exact lock_of_mem hn' (hp.mem_iff.mpr hmem)
  | none =>
    have hnone := (getElem?_find_if_eq_none_iff _ _).mp h
    apply (getElem?_find_if_eq_none_iff _ _).mpr
    intro a ha
    exact hnone a (hp.mem_iff.mp ha)

theorem triple_perm {l l' : List (Node N)} (hp : l'.Perm l) (hn : (l.map Node.addr).Nodup)
    (e : Edge E) : e.triple l' = e.triple l := by
  unfold Edge.triple Edge.get_src_data Edge.get_dst_data
  rw [lock_perm hp hn, lock_perm hp hn]

theorem live_perm {l l' : List (Node N)} (hp : l'.Perm l) (hn : (l.map Node.addr).Nodup)
    (e : Edge E) : e.live l' = e.live l := by
  unfold Edge.live
  rw [lock_perm hp hn, lock_perm hp hn]

/-- The maintenance pass always completes: after the pruning pass every edge that is
compared by the sort has both endpoints alive. -/
theorem update_eq [LinearOrder N] [LinearOrder E] (g : Graph N E) :
    ∃ ks, keyed (prune g.nodes_sp g.edges).1 (g.edges.filter (Edge.live g.nodes_sp)) = .ok ks ∧
      ks.map Prod.snd = g.edges.filter (Edge.live g.nodes_sp) ∧
      (∀ p ∈ ks, p.2.triple g.nodes_sp = .ok p.1) ∧
      g.update = (.ok (),
        { g with
          nodes_sp := sort Node.lt (prune g.nodes_sp g.edges).1,
          edges := (unique (fun a b => triple_eq a.1 b.1)
            (sort (fun a b => triple_lt a.1 b.1) ks)).map Prod.snd }) := by
  obtain ⟨ha, hd⟩ := prune_maps g.nodes_sp g.edges
  obtain ⟨ks, h1, h2, h3⟩ := keyed_ok (prune g.nodes_sp g.edges).1
    (g.edges.filter (Edge.live g.nodes_sp)) (fun e he => by
      rw [live_eq_of_map ha]
      exact (List.mem_filter.mp he).2)
  refine ⟨ks, h1, h2, ?_, ?_⟩
  · intro p hp
    rw [← triple_eq_of_map ha hd]
    exact h3 p hp
  · simp only [update, prune_edges, h1]

end Graph

namespace Graph

variable {N E : Type}

/-- The result of the maintenance pass: the node collection is the pruned one, sorted; the
edge collection consists of edges of the graph paired with the triples they report,
strictly ascending, covering every triple reported before. -/
theorem update_edges_eq [LinearOrder N] [LinearOrder E] (g : Graph N E) :
    ∃ ps : List ((N × N × E) × Edge E),
      g.update = (.ok (),
        { g with
          nodes_sp := sort Node.lt (prune g.nodes_sp g.edges).1,
          edges := ps.map Prod.snd }) ∧
      ps.Pairwise (fun a b => lex_key a.1 < lex_key b.1) ∧
      (∀ p ∈ ps, p.2 ∈ g.edges ∧ p.2.triple g.nodes_sp = .ok p.1) ∧
      ∀ e ∈ g.edges, ∀ t, e.triple g.nodes_sp = .ok t → ∃ p ∈ ps, p.1 = t := by
  obtain ⟨ks, -, hsnd, hkey, hres⟩ := update_eq g
  have hsorted := sort_sorted (fun p : (N × N × E) × Edge E => lex_key p.1)
    (fun a b => triple_lt a.1 b.1) (fun a b => triple_lt_iff a.1 b.1) ks
  obtain ⟨hsub, hpair, hcover⟩ := unique_spec (fun p : (N × N × E) × Edge E => lex_key p.1)
    (fun a b => triple_eq a.1 b.1)
    (fun a b => by
      rw [triple_eq_iff]
      exact ⟨fun h => congrArg lex_key h, fun h => lex_key_injective _ _ h⟩)
    (sort (fun a b => triple_lt a.1 b.1) ks) hsorted
  refine ⟨_, hres, hpair, ?_, ?_⟩
  · intro p hp
    have hpk : p ∈ ks := (sort_perm _ ks).mem_iff.mp (hsub.subset hp)
    have hin : p.2 ∈ g.edges.filter (Edge.live g.nodes_sp) := by
      rw [← hsnd]
      exact List.mem_map_of_mem _ hpk
    exact ⟨(List.mem_filter.mp hin).1, hkey p hpk⟩
  · intro e he t het
    have hin : e ∈ ks.map Prod.snd := by
      rw [hsnd]
      exact List.mem_filter.mpr ⟨he, live_of_triple_ok het⟩
    obtain ⟨p, hp, rfl⟩ := List.mem_map.mp hin
    have hpt : p.1 = t := by
      have := hkey p hp
      rw [het] at this
      injection this with this
      exact this.symm
    obtain ⟨q, hq, hqp⟩ := hcover p ((sort_perm _ ks).mem_iff.mpr hp)
    exact ⟨q, hq, by rw [← hpt]; exact lex_key_injective _ _ hqp⟩

/-- C6: after one maintenance pass on any graph (dangling edges and duplicate triples
allowed), every edge has both endpoints in the node collection, the triples of the edge
list are strictly ascending in the lexicographic order on (source value, destination
value, weight), hence pairwise distinct, and the triples present are exactly the triples
of the edges that had both endpoints alive before the pass. -/
theorem update_invariants [LinearOrder N] [LinearOrder E] (g : Graph N E)
    (hh : g.DistinctAddrs) :
    ∃ g', g.update = (.ok (), g') ∧ g'.NoDangling ∧
      (∃ ts : List (N × N × E),
        List.Forall₂ (fun e t => e.triple g'.nodes_sp = .ok t) g'.edges ts ∧
        (ts.map lex_key).Sorted (fun a b => a < b) ∧ ts.Nodup) ∧
      ∀ t, (∃ e ∈ g'.edges, e.triple g'.nodes_sp = .ok t) ↔
        (∃ e ∈ g.edges, e.triple g.nodes_sp = .ok t) := by
  obtain ⟨ps, hres, hpair, hmem, hcover⟩ := update_edges_eq g
  obtain ⟨ha, hd⟩ := prune_maps g.nodes_sp g.edges
  have hn1 : ((prune g.nodes_sp g.edges).1.map Node.addr).Nodup := by rw [ha]; exact hh
  have htriple : ∀ e : Edge E, e.triple (sort Node.lt (prune g.nodes_sp g.edges).1) =
      e.triple g.nodes_sp := by
    intro e
    rw [triple_perm (sort_perm _ _) hn1, triple_eq_of_map ha hd]
  have hkey : ∀ p ∈ ps, p.2.triple (sort Node.lt (prune g.nodes_sp g.edges).1) = .ok p.1 :=
    fun p hp => by rw [htriple]; exact (hmem p hp).2
  refine ⟨_, hres, ?_, ⟨ps.map Prod.fst, ?_, ?_, ?_⟩, ?_⟩
  · intro e he
    simp only [List.mem_map] at he
    obtain ⟨p, hp, rfl⟩ := he
    have := live_of_triple_ok (hkey p hp)
    unfold Edge.live at this
    rw [Bool.and_eq_true] at this
    exact this
  · simp only [List.forall₂_map_left_iff, List.forall₂_map_right_iff]
    exact List.forall₂_same.mpr hkey
  · rw [List.map_map]
    exact List.pairwise_map.mpr hpair
  · apply List.Nodup.of_map lex_key
    rw [List.map_map]
    exact (List.pairwise_map.mpr hpair).imp (fun h => ne_of_lt h)
  · intro t
    constructor
    · rintro ⟨e, he, het⟩
      simp only [List.mem_map] at he
      obtain ⟨p, hp, rfl⟩ := he
      rw [htriple] at het
      exact ⟨p.2, (hmem p hp).1, het⟩
    · rintro ⟨e, he, het⟩
      obtain ⟨q, hq, hqt⟩ := hcover e he t het
      refine ⟨q.2, List.mem_map_of_mem _ hq, ?_⟩
      rw [hkey q hq, hqt]

/-- Witness of C6 on a graph with a duplicated triple and an edge whose source has been
released: the pass leaves the two edges `(1, 3, 2)` and `(3, 1, 5)`. -/
theorem update_invariants_witness :
    ex_messy.DistinctAddrs ∧
      ∃ g', ex_messy.update = (.ok (), g') ∧ g'.NoDangling ∧
        g'.edges = [⟨1, 0, 2⟩, ⟨0, 1, 5⟩] := by
  have hh : ex_messy.DistinctAddrs := by unfold DistinctAddrs; decide
  obtain ⟨g', h1, h2, -, -⟩ := update_invariants ex_messy hh
  refine ⟨hh, g', h1, h2, ?_⟩
  have h3 : ex_messy.update.2.edges = [⟨1, 0, 2⟩, ⟨0, 1, 5⟩] := by decide
  rw [h1] at h3
  exact h3

end Graph

/-! ## The counters after the pruning pass -/

namespace Graph

variable {N E : Type}

theorem dec_times_succ (k c : Nat) : dec_times k (dec_counter c) = dec_times (k + 1) c := by
  unfold dec_times
  rw [Function.iterate_succ_apply]

theorem dec_times_of_le (k c : Nat) (hk : k ≤ c) (hc : c < UINT_MOD) :
    dec_times k c = c - k := by
  induction k generalizing c with
  | zero => rfl
  | succ k ih =>
    rw [← dec_times_succ]
    have h1 : dec_counter c = c - 1 := by
      unfold dec_counter
      unfold UINT_MOD at hc ⊢
      omega
    rw [h1, ih (c - 1) (by omega) (by omega)]
    omega

theorem released_zero (n : Node N) : Node.released 0 0 n = n := rfl

theorem lock_isSome_iff_locate_lt (nodes : List (Node N)) (p : Nat) :
    (lock nodes p).isSome = true ↔ locate nodes p < nodes.length := by
  unfold lock
  rw [Option.isSome_iff_exists]
  constructor
  · rintro ⟨a, ha⟩
    by_contra hc
    rw [List.getElem?_eq_none (by omega)] at ha
    cases ha
  · intro h
    exact ⟨_, List.getElem?_eq_getElem h⟩

theorem dec_times_zero (c : Nat) : dec_times 0 c = c := by
  unfold dec_times
  rw [Function.iterate_zero, id]

theorem dec_times_one (c : Nat) : dec_times 1 c = dec_counter c := by
  unfold dec_times
  rw [Function.iterate_one]

theorem released_one_zero (n : Node N) : Node.dec_out_degree n = Node.released 1 0 n := by
  unfold Node.dec_out_degree Node.released
  rw [dec_times_one, dec_times_zero]

theorem released_zero_one (n : Node N) : Node.dec_in_degree n = Node.released 0 1 n := by
  unfold Node.dec_in_degree Node.released
  rw [dec_times_one, dec_times_zero]

theorem released_one_one (n : Node N) :
    Node.dec_in_degree (Node.dec_out_degree n) = Node.released 1 1 n := by
  unfold Node.dec_in_degree Node.dec_out_degree Node.released
  rw [dec_times_one, dec_times_one]

theorem getElem?_release_edge (nodes : List (Node N)) (e : Edge E) (i : Nat) :
    (release_edge nodes e)[i]? = (nodes[i]?).map
      (Node.released (if locate nodes e.src_ptr = i then 1 else 0)
        (if locate nodes e.dst_ptr = i then 1 else 0)) := by
  rw [release_edge_eq]
  cases hi : nodes[i]? with
  | none =>
    split_ifs <;> simp only [id, getElem?_modify_at, hi, Option.map_none']
  | some n =>
    have hlt : i < nodes.length := by
      by_contra hc
      rw [List.getElem?_eq_none (by omega)] at hi
      cases hi
    have hs := lock_isSome_iff_locate_lt nodes e.src_ptr
    have hd := lock_isSome_iff_locate_lt nodes e.dst_ptr
    by_cases h1 : locate nodes e.src_ptr = i <;> by_cases h2 : locate nodes e.dst_ptr = i
    · have h1' := hs.mpr (by omega)
      have h2' := hd.mpr (by omega)
      have c1 : (i = locate nodes e.src_ptr) = True := eq_true h1.symm
      have c2 : (i = locate nodes e.dst_ptr) = True := eq_true h2.symm
      rw [if_pos h1', if_pos h2', if_pos h1, if_pos h2, Option.map_some', ← released_one_one]
      simp only [getElem?_modify_at, hi, Option.map_some', c1, c2, if_true]
    · have h1' := hs.mpr (by omega)
      have c1 : (i = locate nodes e.src_ptr) = True := eq_true h1.symm
      have c2 : (i = locate nodes e.dst_ptr) = False := eq_false (Ne.symm h2)
      rw [if_pos h1', if_pos h1, if_neg h2, Option.map_some', ← released_one_zero]
      split_ifs <;> simp only [id, getElem?_modify_at, hi, Option.map_some', c1, c2, if_true,
        if_false]
    · have h2' := hd.mpr (by omega)
      have c1 : (i = locate nodes e.src_ptr) = False := eq_false (Ne.symm h1)
      have c2 : (i = locate nodes e.dst_ptr) = True := eq_true h2.symm
      rw [if_pos h2', if_neg h1, if_pos h2, Option.map_some', ← released_zero_one]
      split_ifs <;> simp only [id, getElem?_modify_at, hi, Option.map_some', c1, c2, if_true,
        if_false]
    · have c1 : (i = locate nodes e.src_ptr) = False := eq_false (Ne.symm h1)
      have c2 : (i = locate nodes e.dst_ptr) = False := eq_false (Ne.symm h2)
      rw [if_neg h1, if_neg h2, Option.map_some', released_zero]
      split_ifs <;> simp only [id, getElem?_modify_at, hi, Option.map_some', c1, c2, if_false]

end Graph

namespace Graph

variable {N E : Type}

theorem released_step (a b : Nat) (p q : Prop) [Decidable p] [Decidable q] (n : Node N) :
    Node.released a b (Node.released (if p then 1 else 0) (if q then 1 else 0) n) =
      Node.released (a + if p then 1 else 0) (b + if q then 1 else 0) n := by
  unfold Node.released
  split_ifs <;> simp only [dec_times_one, dec_times_zero, dec_times_succ, Nat.add_zero]

theorem dead_out_count_eq_of_map {l l' : List (Node N)}
    (h : l'.map Node.addr = l.map Node.addr) (es : List (Edge E)) (i : Nat) :
    dead_out_count l' es i = dead_out_count l es i := by
  unfold dead_out_count
  congr 1
  funext e
  rw [live_eq_of_map h, locate_eq_of_map_addr h]

theorem dead_in_count_eq_of_map {l l' : List (Node N)}
    (h : l'.map Node.addr = l.map Node.addr) (es : List (Edge E)) (i : Nat) :
    dead_in_count l' es i = dead_in_count l es i := by
  unfold dead_in_count
  congr 1
  funext e
  rw [live_eq_of_map h, locate_eq_of_map_addr h]

/-- The node collection after the pruning pass: the node at every position has been
decremented once for every removed edge of which it is the living endpoint. -/
theorem prune_nodes (nodes : List (Node N)) (es : List (Edge E)) (i : Nat) :
    (prune nodes es).1[i]? = (nodes[i]?).map
      (Node.released (dead_out_count nodes es i) (dead_in_count nodes es i)) := by
  induction es generalizing nodes with
  | nil =>
    simp only [prune, dead_out_count, dead_in_count, List.countP_nil]
    cases nodes[i]? with
    | none => rw [Option.map_none']
    | some n => rw [Option.map_some', released_zero]
  | cons e es ih =>
    rw [prune_cons]
    by_cases h : e.live nodes = true
    · rw [if_pos h, ih]
      simp [dead_out_count, dead_in_count, List.countP_cons, h]
    · rw [if_neg h, ih, getElem?_release_edge,
        dead_out_count_eq_of_map (release_edge_maps nodes e).1,
        dead_in_count_eq_of_map (release_edge_maps nodes e).1]
      have h' : e.live nodes = false := by simpa using h
      cases nodes[i]? with
      | none => rw [Option.map_none', Option.map_none', Option.map_none']
      | some n =>
        simp only [Option.map_some', released_step]
        simp [dead_out_count, dead_in_count, List.countP_cons, h']

end Graph

/-! ## `deleteNode` followed by the maintenance pass -/

namespace Graph

variable {N E : Type}

theorem index_unique {α : Type} {l : List α} (hn : l.Nodup) {i j : Nat} {a : α}
    (hi : l[i]? = some a) (hj : l[j]? = some a) : i = j := by
  induction l generalizing i j with
  | nil => simp at hi
  | cons b l ih =>
    rw [List.nodup_cons] at hn
    cases i with
    | zero =>
      cases j with
      | zero => rfl
      | succ j =>
        simp only [List.getElem?_cons_zero, Option.some.injEq] at hi
        simp only [List.getElem?_cons_succ] at hj
        exact absurd (hi ▸ List.getElem?_mem hj) hn.1
    | succ i =>
      cases j with
      | zero =>
        simp only [List.getElem?_cons_zero, Option.some.injEq] at hj
        simp only [List.getElem?_cons_succ] at hi
        exact absurd (hj ▸ List.getElem?_mem hi) hn.1
      | succ j =>
        simp only [List.getElem?_cons_succ] at hi hj
        rw [ih hn.2 hi hj]

theorem locate_eq_iff {l : List (Node N)} (hn : (l.map Node.addr).Nodup) {i : Nat}
    {n : Node N} (hi : l[i]? = some n) (p : Nat) : locate l p = i ↔ p = n.addr := by
  constructor
  · intro h
    rw [← h] at hi
    have := (getElem?_find_if_eq_some _ _ _ hi).2
    simp only [decide_eq_true_eq] at this
    exact this.symm
  · intro h
    have h1 : lock l n.addr = some n := lock_of_mem hn (List.getElem?_mem hi)
    rw [h]
    have h2 : (l.map Node.addr)[locate l n.addr]? = some n.addr := by
      rw [List.getElem?_map]
      unfold lock at h1
      rw [h1]
      rfl
    have h3 : (l.map Node.addr)[i]? = some n.addr := by
      rw [List.getElem?_map, hi]
      rfl
    exact index_unique hn h2 h3

theorem lock_filter {l : List (Node N)} (hn : (l.map Node.addr).Nodup) (q : Node N → Bool)
    (p : Nat) : lock (l.filter q) p = (lock l p).filter q := by
  have hn' : ((l.filter q).map Node.addr).Nodup :=
    hn.sublist ((List.filter_sublist l).map _)
  cases h : lock l p with
  | none =>
    have hnone := (getElem?_find_if_eq_none_iff _ _).mp h
    apply (getElem?_find_if_eq_none_iff _ _).mpr
    intro a ha
    exact hnone a (List.mem_filter.mp ha).1
  | some m =>
    obtain ⟨hm, hma⟩ := lock_eq_some_mem h
    by_cases hq : q m = true
    · simp only [Option.filter, hq, if_true]
      rw [← hma]
      exact lock_of_mem hn' (List.mem_filter.mpr ⟨hm, hq⟩)
    · simp only [Option.filter, hq, if_false]
      cases h' : lock (l.filter q) p with
      | none => rfl
      | some m' =>
        obtain ⟨hm', hma'⟩ := lock_eq_some_mem h'
        obtain ⟨hm'l, hq'⟩ := List.mem_filter.mp hm'
        have : m' = m := List.inj_on_of_nodup_map hn hm'l hm (hma'.trans hma.symm)
        rw [this] at hq'
        exact absurd hq' hq

theorem triple_filter [DecidableEq N] {l : List (Node N)} (hn : (l.map Node.addr).Nodup)
    (v : N) (e : Edge E) (t : N × N × E) :
    e.triple (l.filter (fun n => !decide (n.get_data = v))) = .ok t ↔
      e.triple l = .ok t ∧ t.1 ≠ v ∧ t.2.1 ≠ v := by
  unfold Edge.triple Edge.get_src_data Edge.get_dst_data
  rw [lock_filter hn, lock_filter hn]
  cases hs : lock l e.src_ptr with
  | none => simp [Option.filter]
  | some a =>
    cases hd : lock l e.dst_ptr with
    | none =>
      by_cases h1 : a.get_data = v <;> simp [Option.filter, h1]
    | some b =>
      by_cases h1 : a.get_data = v <;> by_cases h2 : b.get_data = v
      · simp only [Option.filter, h1, h2, decide_True, Bool.not_true, Bool.false_eq_true,
          if_false, Except.ok.injEq]
        constructor
        · intro h; cases h
        · rintro ⟨rfl, h3, -⟩
          exact absurd rfl h3
      · simp only [Option.filter, h1, h2, decide_True, Bool.not_true, Bool.false_eq_true,
          if_false, Except.ok.injEq]
        constructor
        · intro h; cases h
        · rintro ⟨rfl, h3, -⟩
          exact absurd rfl h3
      · simp only [Option.filter, h1, h2, decide_True, decide_False, Bool.not_true,
          Bool.not_false, Bool.false_eq_true, if_false, if_true, Except.ok.injEq]
        constructor
        · intro h; cases h
        · rintro ⟨rfl, -, h3⟩
          exact absurd rfl h3
      · simp only [Option.filter, h1, h2, decide_False, Bool.not_false, if_true,
          Except.ok.injEq]
        constructor
        · rintro rfl
          exact ⟨rfl, h1, h2⟩
        · rintro ⟨rfl, -, -⟩
          rfl

end Graph

namespace Graph

variable {N E : Type}

theorem dead_out_count_deleteNode [DecidableEq N] (g : Graph N E) (v : N)
    (hh : g.DistinctAddrs) (hg : g.NoDangling) {i : Nat} {n : Node N}
    (hi : (g.nodes_sp.filter (fun n => !decide (n.get_data = v)))[i]? = some n) :
    dead_out_count (g.nodes_sp.filter (fun n => !decide (n.get_data = v))) g.edges i =
      g.edges_to_value n v := by
  have hh1 : ((g.nodes_sp.filter (fun n => !decide (n.get_data = v))).map Node.addr).Nodup :=
    List.Nodup.sublist ((List.filter_sublist g.nodes_sp).map _) hh
  unfold dead_out_count edges_to_value
  apply List.countP_congr
  intro e he
  obtain ⟨-, hdl⟩ := hg e he
  obtain ⟨b, hb⟩ := Option.isSome_iff_exists.mp hdl
  simp only [Bool.and_eq_true, Bool.not_eq_true', decide_eq_true_eq, locate_eq_iff hh1 hi]
  constructor
  · rintro ⟨hlive, hsrc⟩
    refine ⟨hsrc, ?_⟩
    unfold Edge.live at hlive
    rw [hsrc, lock_of_mem hh1 (List.getElem?_mem hi), lock_filter hh, hb] at hlive
    by_cases hbv : b.get_data = v
    · simp [Edge.get_dst_data, hb, hbv]
    · simp [Option.filter, hbv] at hlive
  · rintro ⟨hsrc, hdst⟩
    refine ⟨?_, hsrc⟩
    unfold Edge.live
    rw [hsrc, lock_of_mem hh1 (List.getElem?_mem hi), lock_filter hh, hb]
    have hbv : b.get_data = v := by
      simpa [Edge.get_dst_data, hb] using hdst
    simp [Option.filter, hbv]

theorem dead_in_count_deleteNode [DecidableEq N] (g : Graph N E) (v : N)
    (hh : g.DistinctAddrs) (hg : g.NoDangling) {i : Nat} {n : Node N}
    (hi : (g.nodes_sp.filter (fun n => !decide (n.get_data = v)))[i]? = some n) :
    dead_in_count (g.nodes_sp.filter (fun n => !decide (n.get_data = v))) g.edges i =
      g.edges_from_value v n := by
  have hh1 : ((g.nodes_sp.filter (fun n => !decide (n.get_data = v))).map Node.addr).Nodup :=
    List.Nodup.sublist ((List.filter_sublist g.nodes_sp).map _) hh
  unfold dead_in_count edges_from_value
  apply List.countP_congr
  intro e he
  obtain ⟨hsl, -⟩ := hg e he
  obtain ⟨b, hb⟩ := Option.isSome_iff_exists.mp hsl
  simp only [Bool.and_eq_true, Bool.not_eq_true', decide_eq_true_eq, locate_eq_iff hh1 hi]
  constructor
  · rintro ⟨hlive, hdst⟩
    refine ⟨hdst, ?_⟩
    unfold Edge.live at hlive
    rw [hdst, lock_of_mem hh1 (List.getElem?_mem hi), lock_filter hh, hb] at hlive
    by_cases hbv : b.get_data = v
    · simp [Edge.get_src_data, hb, hbv]
    · simp [Option.filter, hbv] at hlive
  · rintro ⟨hdst, hsrc⟩
    refine ⟨?_, hdst⟩
    unfold Edge.live
    rw [hdst, lock_of_mem hh1 (List.getElem?_mem hi), lock_filter hh, hb]
    have hbv : b.get_data = v := by
      simpa [Edge.get_src_data, hb] using hsrc
    simp [Option.filter, hbv]

/-- C7 (amended): in a graph without dangling edges, after `deleteNode(v)` followed by a
maintenance pass, `v` is not a node value; no edge has `v` as source or destination and
the triple of every previous edge not touching `v` is still present; the node collection
consists of the surviving nodes, each with its out-degree decremented (as an `unsigned`
counter) once for every previous edge from it to `v` and its in-degree once for every
previous edge from `v` to it, which is a decrease by exactly that number when the counter
was at least that number. -/
theorem deleteNode_update [LinearOrder N] [LinearOrder E] (g : Graph N E) (v : N)
    (hh : g.DistinctAddrs) (hg : g.NoDangling) :
    ∃ g', (g.deleteNode v).update = (.ok (), g') ∧
      ¬ g'.IsNodeValue v ∧
      (∀ e ∈ g'.edges, ∃ t, e.triple g'.nodes_sp = .ok t ∧ t.1 ≠ v ∧ t.2.1 ≠ v) ∧
      (∀ e ∈ g.edges, ∀ t, e.triple g.nodes_sp = .ok t → t.1 ≠ v → t.2.1 ≠ v →
        ∃ e' ∈ g'.edges, e'.triple g'.nodes_sp = .ok t) ∧
      g'.nodes_sp.Perm ((g.nodes_sp.filter (fun n => !decide (n.data = v))).map
        (fun n => Node.released (g.edges_to_value n v) (g.edges_from_value v n) n)) ∧
      ∀ n ∈ g.nodes_sp, n.data ≠ v →
        (g.edges_to_value n v ≤ n.out_degree → n.out_degree < UINT_MOD →
          (Node.released (g.edges_to_value n v) (g.edges_from_value v n) n).out_degree =
            n.out_degree - g.edges_to_value n v) ∧
        (g.edges_from_value v n ≤ n.in_degree → n.in_degree < UINT_MOD →
          (Node.released (g.edges_to_value n v) (g.edges_from_value v n) n).in_degree =
            n.in_degree - g.edges_from_value v n) := by
  have hh1 : ((g.nodes_sp.filter (fun n => !decide (n.get_data = v))).map Node.addr).Nodup :=
    List.Nodup.sublist ((List.filter_sublist g.nodes_sp).map _) hh
  obtain ⟨ps, hres, -, hmem, hcover⟩ := update_edges_eq (g.deleteNode v)
  obtain ⟨ha, hd⟩ := prune_maps (g.nodes_sp.filter (fun n => !decide (n.get_data = v))) g.edges
  have hn1 : ((prune (g.nodes_sp.filter (fun n => !decide (n.get_data = v)))
      g.edges).1.map Node.addr).Nodup := by rw [ha]; exact hh1
  have htriple : ∀ e : Edge E, e.triple (sort Node.lt
      (prune (g.nodes_sp.filter (fun n => !decide (n.get_data = v))) g.edges).1) =
      e.triple (g.nodes_sp.filter (fun n => !decide (n.get_data = v))) := by
    intro e
    rw [triple_perm (sort_perm _ _) hn1, triple_eq_of_map ha hd]
  have hprune : (prune (g.nodes_sp.filter (fun n => !decide (n.get_data = v))) g.edges).1 =
      (g.nodes_sp.filter (fun n => !decide (n.get_data = v))).map
        (fun n => Node.released (g.edges_to_value n v) (g.edges_from_value v n) n) := by
    apply List.ext_getElem?
    intro i
    rw [prune_nodes, List.getElem?_map]
    cases hi : (g.nodes_sp.filter (fun n => !decide (n.get_data = v)))[i]? with
    | none => rfl
    | some n =>
      simp only [Option.map_some']
      rw [dead_out_count_deleteNode g v hh hg hi, dead_in_count_deleteNode g v hh hg hi]
  refine ⟨_, hres, ?_, ?_, ?_, ?_, ?_⟩
  · rintro ⟨n, hn, hnv⟩
    have hn' : n ∈ (prune (g.nodes_sp.filter (fun n => !decide (n.get_data = v))) g.edges).1 :=
      (sort_perm _ _).mem_iff.mp hn
    have hmem' : n.data ∈ (g.nodes_sp.filter (fun n => !decide (n.get_data = v))).map
        Node.data := by
      rw [← hd]
      exact List.mem_map_of_mem _ hn'
    obtain ⟨m, hm, hmd⟩ := List.mem_map.mp hmem'
    have := (List.mem_filter.mp hm).2
    simp only [Node.get_data, Bool.not_eq_true', decide_eq_false_iff_not] at this
    exact this (hmd.trans hnv)
  · intro e he
    simp only [List.mem_map] at he
    obtain ⟨p, hp, rfl⟩ := he
    have h1 := (hmem p hp).2
    refine ⟨p.1, ?_, ((triple_filter hh v p.2 p.1).mp h1).2⟩
    exact (htriple p.2).trans h1
  · intro e he t het h1 h2
    have h3 : e.triple (g.deleteNode v).nodes_sp = .ok t :=
      (triple_filter hh v e t).mpr ⟨het, h1, h2⟩
    obtain ⟨q, hq, hqt⟩ := hcover e he t h3
    refine ⟨q.2, List.mem_map_of_mem _ hq, ?_⟩
    rw [← hqt]
    exact (htriple q.2).trans (hmem q hq).2
  · show (sort Node.lt _).Perm _
    refine (sort_perm _ _).trans ?_
    exact List.Perm.of_eq hprune
  · intro n _ _
    exact ⟨fun h1 h2 => dec_times_of_le _ _ h1 h2, fun h1 h2 => dec_times_of_le _ _ h1 h2⟩

end Graph

/-! ## Reachable states with wrapped counters -/

namespace Graph

theorem ex_cycle_addEdge (k : Nat) :
    (ex_cycle k).addEdge 1 2 5 = (.ok true, ex_cycle_edge k) := rfl

theorem ex_cycle_deleteEdge (k : Nat) :
    (ex_cycle_edge k).deleteEdge 1 2 5 = (.ok (), ex_cycle (k + 1)) := by
  have h : (k % UINT_MOD + 1) % UINT_MOD = (k + 1) % UINT_MOD := Nat.mod_add_mod k UINT_MOD 1
  unfold ex_cycle_edge ex_cycle
  rw [h]
  rfl

/-- Alternating `addEdge` and `deleteEdge` on two nodes reaches every value of the
counters: `deleteEdge` never decrements. -/
theorem reachable_ex_cycle (k : Nat) : Reachable (ex_cycle k) := by
  induction k with
  | zero =>
    exact Reachable.addNode _ 2 (Reachable.addNode _ 1 Reachable.empty)
  | succ k ih =>
    exact Reachable.deleteEdge _ 1 2 5 _
      (Reachable.addEdge _ 1 2 5 true _ ih (ex_cycle_addEdge k)) (ex_cycle_deleteEdge k)

theorem reachable_ex_full_counter : Reachable ex_full_counter :=
  reachable_ex_cycle 4294967295

theorem reachable_ex_wrapped : Reachable ex_wrapped :=
  Reachable.addEdge ex_full_counter 1 2 5 true _ reachable_ex_full_counter (by decide)

end Graph

namespace Graph

/-- Counterexample to C2 as stated: in the reachable state where the out-degree of the
node carrying 1 is 4294967295, a successful `addEdge(1, 2, 0)` leaves it at 0, not one
more than before. -/
theorem addEdge_success_counterexample :
    Reachable ex_full_counter ∧ ex_full_counter.NoDangling ∧
      ex_full_counter.IsNodeValue 1 ∧ ex_full_counter.IsNodeValue 2 ∧
      ¬ ex_full_counter.HasTriple 1 2 0 ∧
      (ex_full_counter.addEdge 1 2 0).1 = .ok true ∧
      (ex_full_counter.node_of 1).map Node.out_degree = some 4294967295 ∧
      ((ex_full_counter.addEdge 1 2 0).2.node_of 1).map Node.out_degree = some 0 := by
  refine ⟨reachable_ex_full_counter, ?_, ?_, ?_, ?_, ?_, ?_, ?_⟩
  · unfold NoDangling; decide
  · unfold IsNodeValue; decide
  · unfold IsNodeValue; decide
  · unfold HasTriple; decide
  · decide
  · decide
  · decide

/-- Witness of C7 on the graph with the nodes 1, 2, 3: after `deleteNode(3)` and the
maintenance pass no edge is left and the nodes 1 and 2 have out-degree 0. -/
theorem deleteNode_update_witness :
    ex_three_nodes.DistinctAddrs ∧ ex_three_nodes.NoDangling ∧
      ∃ g', (ex_three_nodes.deleteNode 3).update = (.ok (), g') ∧ ¬ g'.IsNodeValue 3 ∧
        g'.nodes_sp.Perm [⟨0, 1, 0, 0⟩, ⟨1, 2, 0, 0⟩] := by
  have hh : ex_three_nodes.DistinctAddrs := by unfold DistinctAddrs; decide
  have hg : ex_three_nodes.NoDangling := by unfold NoDangling; decide
  obtain ⟨g', h1, h2, -, -, h3, -⟩ := deleteNode_update ex_three_nodes 3 hh hg
  refine ⟨hh, hg, g', h1, h2, ?_⟩
  have h4 : (ex_three_nodes.nodes_sp.filter (fun n => !decide (n.data = 3))).map
      (fun n => Node.released (ex_three_nodes.edges_to_value n 3)
        (ex_three_nodes.edges_from_value 3 n) n) = [⟨0, 1, 0, 0⟩, ⟨1, 2, 0, 0⟩] := by
    decide
  rw [h4] at h3
  exact h3

/-- Counterexample to C7 as stated: in the reachable state with the edge `(1, 2, 5)` where
the out-degree of the node carrying 1 has wrapped to 0, `deleteNode(2)` followed by the
maintenance pass leaves that out-degree at 4294967295: the counter has not decreased by
the one edge from 1 to 2. -/
theorem deleteNode_update_counterexample :
    Reachable ex_wrapped ∧ ex_wrapped.NoDangling ∧ ex_wrapped.IsNodeValue 2 ∧
      ex_wrapped.nodes_sp = [⟨0, 1, 0, 0⟩, ⟨1, 2, 0, 0⟩] ∧
      ex_wrapped.edges_to_value ⟨0, 1, 0, 0⟩ 2 = 1 ∧
      (ex_wrapped.deleteNode 2).update =
        (.ok (), ⟨[⟨0, 1, 0, 4294967295⟩], [], 2, .singular⟩) := by
  refine ⟨reachable_ex_wrapped, ?_, ?_, ?_, ?_, ?_⟩
  · unfold NoDangling; decide
  · unfold IsNodeValue; decide
  · rfl
  · decide
  · decide

end Graph

/-! ## The degree counters after `deleteEdge` and after a merge -/

namespace Graph

theorem reachable_ex_one_edge : Reachable ex_one_edge :=
  Reachable.addEdge (ex_cycle 0) 1 2 5 true _ (reachable_ex_cycle 0) (by decide)

theorem reachable_ex_two_sources : Reachable ex_two_sources :=
  Reachable.addEdge _ 2 3 5 true _
    (Reachable.addEdge _ 1 3 5 true _
      (Reachable.addNode _ 3 (Reachable.addNode _ 2 (Reachable.addNode _ 1 Reachable.empty)))
      (show Graph.addEdge _ 1 3 5 =
        (.ok true, ⟨[⟨0, 1, 0, 1⟩, ⟨1, 2, 0, 0⟩, ⟨2, 3, 1, 0⟩], [⟨0, 2, 5⟩], 3, .singular⟩)
        by decide))
    (by decide)

theorem reachable_ex_dangling : Reachable ex_dangling :=
  Reachable.deleteNode ex_one_edge 1 reachable_ex_one_edge

/-- C8, the code at the failing inputs.  After `addNode(1)`, `addNode(2)`,
`addEdge(1, 2, 5)`, `deleteEdge(1, 2, 5)` the maintenance pass leaves the node carrying 1
with out-degree 1 and no edge.  After `mergeReplace(1, 2)` on the nodes 1, 2, 3 with the
edges `(1, 3, 5)`, `(2, 3, 5)` the maintenance pass leaves the single edge `(2, 3, 5)`, the
node carrying 2 with out-degree 2 and the node carrying 3 with in-degree 2. -/
theorem update_degree_mismatch :
    (Reachable (ex_cycle 1) ∧
      (ex_cycle 1).update = (.ok (), ⟨[⟨0, 1, 0, 1⟩, ⟨1, 2, 1, 0⟩], [], 2, .singular⟩) ∧
      (ex_cycle 1).update.2.out_edges ⟨0, 1, 0, 1⟩ = 0) ∧
    (Reachable ex_two_sources ∧
      ex_two_sources.mergeReplace 1 2 =
        (.ok (), ⟨[⟨1, 2, 0, 2⟩, ⟨2, 3, 2, 0⟩], [⟨1, 2, 5⟩, ⟨1, 2, 5⟩], 3, .singular⟩) ∧
      (ex_two_sources.mergeReplace 1 2).2.update =
        (.ok (), ⟨[⟨1, 2, 0, 2⟩, ⟨2, 3, 2, 0⟩], [⟨1, 2, 5⟩], 3, .singular⟩) ∧
      (ex_two_sources.mergeReplace 1 2).2.update.2.out_edges ⟨1, 2, 0, 2⟩ = 1 ∧
      (ex_two_sources.mergeReplace 1 2).2.update.2.in_edges ⟨2, 3, 2, 0⟩ = 1) := by
  refine ⟨⟨reachable_ex_cycle 1, ?_, ?_⟩, ⟨reachable_ex_two_sources, ?_, ?_, ?_, ?_⟩⟩ <;> decide

/-- C9, the code at the failing input: in the reachable state left by `deleteNode(1)` on
the graph with the edge `(1, 2, 5)`, no edge reports a triple, and `deleteEdge(3, 4, 6)`
dereferences the expired source of the dangling edge. -/
theorem deleteEdge_dangling_fails :
    Reachable ex_dangling ∧ (∀ s d w, ¬ ex_dangling.HasTriple s d w) ∧
      (ex_dangling.deleteEdge 3 4 6).1 = .error .expired_deref := by
  refine ⟨reachable_ex_dangling, ?_, by decide⟩
  rintro s d w ⟨e, he, ht⟩
  have h : ∀ e ∈ ex_dangling.edges, e.triple ex_dangling.nodes_sp = .error .expired_deref := by
    decide
  rw [h e he] at ht
  cases ht

end Graph

/-! ## `deleteNode` and `deleteEdge` on an absent target -/

namespace Graph

variable {N E : Type}

theorem remove_if_exc_ok {α : Type} (p : α → Except Err Bool) (q : α → Bool) (l : List α)
    (h : ∀ a ∈ l, p a = .ok (q a)) :
    remove_if_exc p l = .ok (l.filter (fun a => !q a)) := by
  induction l with
  | nil => rfl
  | cons a l ih =>
    have ha := h a (by simp)
    have hl := ih (fun b hb => h b (by simp [hb]))
    simp only [remove_if_exc, ha, hl]
    cases hq : q a <;> simp [hq]

/-- On a value that no node carries, `deleteNode` leaves the graph unchanged. -/
theorem deleteNode_absent [DecidableEq N] (g : Graph N E) (v : N) (h : ¬ g.IsNodeValue v) :
    g.deleteNode v = g := by
  have hf : g.nodes_sp.filter (fun n => !decide (n.get_data = v)) = g.nodes_sp := by
    rw [List.filter_eq_self]
    intro n hn
    have : n.data ≠ v := fun hc => h ⟨n, hn, hc⟩
    simp [Node.get_data, this]
  unfold deleteNode
  rw [hf]

/-- Without dangling edges `deleteEdge` completes and removes exactly the edges reporting
the triple. -/
theorem deleteEdge_noDangling [DecidableEq N] [DecidableEq E] (g : Graph N E) (src dst : N)
    (w : E) (hg : g.NoDangling) :
    g.deleteEdge src dst w = (.ok (),
      { g with edges :=
          List.filter (fun e => !decide (e.triple g.nodes_sp = .ok (src, dst, w))) g.edges }) := by
  unfold deleteEdge
  rw [remove_if_exc_ok _ _ _ (fun _ he => hg.matches_triple_ok src dst w he)]

/-- Without dangling edges, `deleteEdge` on a triple that no edge reports leaves the graph
unchanged. -/
theorem deleteEdge_absent [DecidableEq N] [DecidableEq E] (g : Graph N E) (src dst : N)
    (w : E) (hg : g.NoDangling) (h : ¬ g.HasTriple src dst w) :
    g.deleteEdge src dst w = (.ok (), g) := by
  rw [deleteEdge_noDangling g src dst w hg]
  have hf : g.edges.filter (fun e => !decide (e.triple g.nodes_sp = .ok (src, dst, w))) =
      g.edges := by
    rw [List.filter_eq_self]
    intro e he
    have : e.triple g.nodes_sp ≠ .ok (src, dst, w) := fun hc => h ⟨e, he, hc⟩
    simp [this]
  rw [hf]

/-! ## `replace` -/

/-- C10 (amended): when `old` is the value of a node, `replace(old, new)` returns false
exactly when `new` is the value of some node, the node carrying `old` included (so
`replace(old, old)` returns false), and then the graph is unchanged; otherwise it returns
true, the node that carried `old` carries `new` and nothing else changes. -/
theorem replace_outcome [DecidableEq N] (g : Graph N E) (old_data new_data : N)
    (ho : g.IsNodeValue old_data) :
    ((g.replace old_data new_data).1 = .ok false ↔ g.IsNodeValue new_data) ∧
      (g.IsNodeValue new_data → g.replace old_data new_data = (.ok false, g)) ∧
      (¬ g.IsNodeValue new_data →
        ∃ n, g.node_of old_data = some n ∧
          g.replace old_data new_data = (.ok true,
            { g with nodes_sp :=
                modify_at (Node.set_data new_data) (g.position_of old_data) g.nodes_sp }) ∧
          (g.replace old_data new_data).2.nodes_sp[g.position_of old_data]? =
            some { n with data := new_data } ∧
          ∀ k, k ≠ g.position_of old_data →
            (g.replace old_data new_data).2.nodes_sp[k]? = g.nodes_sp[k]?) := by
  obtain ⟨n, hn, -, -⟩ := exists_node_of g old_data ho
  have hlt : find_if (fun n => decide (n.get_data = old_data)) g.nodes_sp ≠
      g.nodes_sp.length := by
    intro hc
    unfold position_of at hn
    rw [hc, List.getElem?_eq_none (le_refl _)] at hn
    cases hn
  have hnew := find_if_eq_length_iff (fun n : Node N => decide (n.get_data = new_data))
    g.nodes_sp
  have hiff : find_if (fun n => decide (n.get_data = new_data)) g.nodes_sp =
      g.nodes_sp.length ↔ ¬ g.IsNodeValue new_data := by
    rw [hnew]
    simp [IsNodeValue, Node.get_data]
  have hpos : g.IsNodeValue new_data → g.replace old_data new_data = (.ok false, g) := by
    intro h
    have h2 : find_if (fun n => decide (n.get_data = new_data)) g.nodes_sp ≠
        g.nodes_sp.length := fun hc => (hiff.mp hc) h
    simp only [replace, hlt, if_false, h2, ne_eq, not_false_eq_true, if_true]
  have hneg : ¬ g.IsNodeValue new_data → g.replace old_data new_data = (.ok true,
      { g with nodes_sp :=
          modify_at (Node.set_data new_data) (g.position_of old_data) g.nodes_sp }) := by
    intro h
    have h2 := hiff.mpr h
    simp only [replace, hlt, if_false, h2, ne_eq, not_true_eq_false, position_of]
  refine ⟨?_, hpos, ?_⟩
  · constructor
    · intro h
      by_contra hc
      rw [hneg hc] at h
      cases h
    · intro h
      rw [hpos h]
  · intro h
    refine ⟨n, hn, hneg h, ?_, ?_⟩
    · rw [hneg h]
      simp only [getElem?_modify_at, hn, Option.map_some', if_true]
      rfl
    · intro k hk
      rw [hneg h]
      simp only [getElem?_modify_at, hk, if_false]
      cases g.nodes_sp[k]? <;> rfl

/-- Witness of C10 on the graph with the nodes 1, 2 and the edge `(1, 2, 5)`:
`replace(1, 7)` returns true. -/
theorem replace_outcome_witness :
    ex_one_edge.IsNodeValue 1 ∧ (ex_one_edge.replace 1 7).1 = .ok true := by
  have ho : ex_one_edge.IsNodeValue 1 := by unfold IsNodeValue; decide
  obtain ⟨n, -, h, -⟩ := (replace_outcome ex_one_edge 1 7 ho).2.2
    (by unfold IsNodeValue; decide)
  exact ⟨ho, by rw [h]⟩

/-- Counterexample to C10 as stated: `replace(1, 1)` on a graph in which 1 is a node value
returns false, although no node distinct from the one carrying 1 carries 1. -/
theorem replace_outcome_counterexample :
    Reachable ex_one_edge ∧ ex_one_edge.IsNodeValue 1 ∧
      (∀ k, ex_one_edge.nodes_sp[k]?.map Node.data = some 1 → k = ex_one_edge.position_of 1) ∧
      ex_one_edge.replace 1 1 = (.ok false, ex_one_edge) := by
  refine ⟨reachable_ex_one_edge, by unfold IsNodeValue; decide, ?_, by decide⟩
  intro k hk
  match k, hk with
  | 0, _ => decide
  | 1, h => exact absurd h (by decide)
  | k + 2, h => exact absurd h (by simp [ex_one_edge])

end Graph

/-! ## `replace` onto a fresh value -/

namespace Graph

variable {N E : Type}

theorem lock_modify_at (f : Node N → Node N) (hf : ∀ n, (f n).addr = n.addr) (i : Nat)
    (l : List (Node N)) (p : Nat) :
    lock (modify_at f i l) p = (lock l p).map (fun n => if locate l p = i then f n else n) := by
  unfold lock
  rw [locate_eq_of_map_addr (map_modify_at_of_preserved f Node.addr hf i l), getElem?_modify_at]

theorem locate_eq_position_iff [DecidableEq N] (g : Graph N E) (hv : g.values.Nodup)
    {old_data : N} {n m : Node N} (hn : g.nodes_sp[g.position_of old_data]? = some n)
    (hnd : n.data = old_data) {p : Nat} (hm : lock g.nodes_sp p = some m) :
    locate g.nodes_sp p = g.position_of old_data ↔ m.data = old_data := by
  constructor
  · intro h
    unfold lock at hm
    rw [h, hn] at hm
    injection hm with hm
    rw [← hm, hnd]
  · intro h
    have h1 : g.values[locate g.nodes_sp p]? = some old_data := by
      unfold values
      unfold lock at hm
      rw [List.getElem?_map, hm, Option.map_some', h]
    have h2 : g.values[g.position_of old_data]? = some old_data := by
      unfold values
      rw [List.getElem?_map, hn, Option.map_some', hnd]
    exact index_unique hv h1 h2

theorem read_after_rename [DecidableEq N] (g : Graph N E) (hv : g.values.Nodup)
    (old_data new_data : N) {n : Node N}
    (hn : g.nodes_sp[g.position_of old_data]? = some n) (hnd : n.data = old_data) (p : Nat)
    (s : N) (hs : (lock g.nodes_sp p).map Node.data = some s) :
    (lock (modify_at (Node.set_data new_data) (g.position_of old_data) g.nodes_sp) p).map
      Node.data = some (if s = old_data then new_data else s) := by
  rw [lock_modify_at (Node.set_data new_data) (fun _ => rfl)]
  cases hm : lock g.nodes_sp p with
  | none => rw [hm] at hs; cases hs
  | some m =>
    rw [hm] at hs
    simp only [Option.map_some', Option.some.injEq] at hs
    have hiff := locate_eq_position_iff g hv hn hnd hm
    rw [hs] at hiff
    by_cases h : s = old_data
    · rw [if_pos h, Option.map_some', Option.map_some', if_pos (hiff.mpr h)]
      rfl
    · rw [if_neg h, Option.map_some', Option.map_some', if_neg (fun hc => h (hiff.mp hc)), hs]

/-- C11: in a graph without dangling edges (node values pairwise distinct, as the data
model requires), when `old` is a node value and `new` is not, `replace(old, new)` returns
true; the node that carried `old` carries `new` at the same position with the same
counters; all other nodes are unchanged; the edge collection is unchanged as a sequence of
edges, every endpoint that reported `old` reports `new`, and every other endpoint value
and every weight is as before. -/
theorem replace_fresh [DecidableEq N] (g : Graph N E) (old_data new_data : N)
    (hv : g.values.Nodup) (hg : g.NoDangling) (ho : g.IsNodeValue old_data)
    (hn : ¬ g.IsNodeValue new_data) :
    ∃ g' n, g.replace old_data new_data = (.ok true, g') ∧
      g.node_of old_data = some n ∧
      g'.nodes_sp.length = g.nodes_sp.length ∧
      g'.nodes_sp[g.position_of old_data]? = some { n with data := new_data } ∧
      (∀ k, k ≠ g.position_of old_data → g'.nodes_sp[k]? = g.nodes_sp[k]?) ∧
      g'.edges = g.edges ∧
      ∀ e ∈ g.edges, ∃ s d, e.triple g.nodes_sp = .ok (s, d, e.weight) ∧
        e.triple g'.nodes_sp =
          .ok (if s = old_data then new_data else s, if d = old_data then new_data else d,
            e.weight) := by
  obtain ⟨n, hpos, -, hnd⟩ := exists_node_of g old_data ho
  have hlt : find_if (fun n => decide (n.get_data = old_data)) g.nodes_sp ≠
      g.nodes_sp.length := by
    intro hc
    unfold position_of at hpos
    rw [hc, List.getElem?_eq_none (le_refl _)] at hpos
    cases hpos
  have hnew : find_if (fun n => decide (n.get_data = new_data)) g.nodes_sp =
      g.nodes_sp.length := by
    rw [find_if_eq_length_iff]
    intro m hm
    have : m.data ≠ new_data := fun hc => hn ⟨m, hm, hc⟩
    simp [Node.get_data, this]
  have hres : g.replace old_data new_data = (.ok true,
      { g with nodes_sp :=
          modify_at (Node.set_data new_data) (g.position_of old_data) g.nodes_sp }) := by
    simp only [replace, hlt, if_false, hnew, ne_eq, not_true_eq_false, position_of]
  refine ⟨_, n, hres, hpos, length_modify_at _ _ _, ?_, ?_, rfl, ?_⟩
  · show (modify_at _ _ _)[_]? = _
    rw [getElem?_modify_at, hpos, Option.map_some', if_pos rfl]
    rfl
  · intro k hk
    show (modify_at _ _ _)[_]? = _
    rw [getElem?_modify_at]
    cases g.nodes_sp[k]? with
    | none => rfl
    | some m => rw [Option.map_some', if_neg hk]
  · intro e he
    obtain ⟨s, d, hs, hd, ht, -, -⟩ := hg.triple_ok he
    obtain ⟨hrs, hrd⟩ := reads_of_get_data _ _ _ _ hs hd
    refine ⟨s, d, ht, ?_⟩
    apply triple_eq_of_reads
    · exact read_after_rename g hv old_data new_data hpos hnd _ s hrs
    · exact read_after_rename g hv old_data new_data hpos hnd _ d hrd

/-- Witness of C11 on the graph with the nodes 1, 2 and the edge `(1, 2, 5)`:
`replace(1, 7)` returns true and keeps the edge collection. -/
theorem replace_fresh_witness :
    ex_one_edge.values.Nodup ∧ ex_one_edge.NoDangling ∧ ex_one_edge.IsNodeValue 1 ∧
      ¬ ex_one_edge.IsNodeValue 7 ∧
      ∃ g', ex_one_edge.replace 1 7 = (.ok true, g') ∧ g'.edges = ex_one_edge.edges := by
  have hv : ex_one_edge.values.Nodup := by decide
  have hg : ex_one_edge.NoDangling := by unfold NoDangling; decide
  have ho : ex_one_edge.IsNodeValue 1 := by unfold IsNodeValue; decide
  have hn : ¬ ex_one_edge.IsNodeValue 7 := by unfold IsNodeValue; decide
  obtain ⟨g', n, h1, -, -, -, -, h2, -⟩ := replace_fresh ex_one_edge 1 7 hv hg ho hn
  exact ⟨hv, hg, ho, hn, g', h1, h2⟩

end Graph

/-! ## `isConnected` and `deleteEdge` -/

namespace Graph

variable {N E : Type}

theorem connects_eq_true_iff [DecidableEq N] (nodes : List (Node N)) (src dst : N)
    (e : Edge E) :
    e.connects nodes src dst = .ok true ↔ ∃ w, e.triple nodes = .ok (src, dst, w) := by
  unfold Edge.connects Edge.triple
  cases e.get_src_data nodes with
  | error err => simp
  | ok s =>
    cases e.get_dst_data nodes with
    | error err => simp
    | ok d =>
      simp only [Except.ok.injEq, Bool.and_eq_true, decide_eq_true_eq, Prod.mk.injEq]
      constructor
      · rintro ⟨h1, h2⟩
        exact ⟨e.get_weight, h1, h2, rfl⟩
      · rintro ⟨w, h1, h2, -⟩
        exact ⟨h1, h2⟩

/-- C14: in a graph without dangling edges, `isConnected(src, dst)` fails with a
missing-node error exactly when `src` or `dst` is not the value of a current node;
otherwise it returns true exactly when some edge has source value `src` and destination
value `dst`, whatever its weight; in every case the graph is unchanged. -/
theorem isConnected_outcome [DecidableEq N] (g : Graph N E) (src dst : N)
    (hg : g.NoDangling) :
    ((∃ err, (g.isConnected src dst).1 = .error err ∧ err.isMissingNode = true) ↔
        (¬ g.IsNodeValue src ∨ ¬ g.IsNodeValue dst)) ∧
      (g.IsNodeValue src → g.IsNodeValue dst →
        ∃ b, (g.isConnected src dst).1 = .ok b ∧
          (b = true ↔ ∃ e ∈ g.edges, ∃ w, e.triple g.nodes_sp = .ok (src, dst, w))) ∧
      (g.isConnected src dst).2 = g := by
  have hconn : ∀ e ∈ g.edges, ∃ r, e.connects g.nodes_sp src dst = .ok r := by
    intro e he
    obtain ⟨s, d, hs, hd, -, -, -⟩ := hg.triple_ok he
    exact ⟨decide (s = src) && decide (d = dst), by simp only [Edge.connects, hs, hd]⟩
  have hfind := find_if_exc_total _ _ hconn
  have hlen := find_if_eq_length_iff
    (fun e : Edge E => decide (e.connects g.nodes_sp src dst = .ok true)) g.edges
  by_cases hs : g.IsNodeValue src
  · by_cases hd : g.IsNodeValue dst
    · have hres : g.isConnected src dst = (.ok (decide (find_if
          (fun e : Edge E => decide (e.connects g.nodes_sp src dst = .ok true)) g.edges ≠
            g.edges.length)), g) := by
        simp only [isConnected, (isNode_iff g src).mpr hs, (isNode_iff g dst).mpr hd,
          Bool.not_true, Bool.false_eq_true, if_false, hfind]
      refine ⟨?_, ?_, by rw [hres]⟩
      · rw [hres]
        simp [hs, hd]
      · intro _ _
        refine ⟨_, by rw [hres], ?_⟩
        rw [decide_eq_true_iff, Ne, hlen]
        constructor
        · intro h
          by_contra hc
          apply h
          intro e he
          rw [decide_eq_false_iff_not, connects_eq_true_iff]
          exact fun ⟨w, hw⟩ => hc ⟨e, he, w, hw⟩
        · rintro ⟨e, he, w, hw⟩ hc
          have := hc e he
          rw [decide_eq_false_iff_not, connects_eq_true_iff] at this
          exact this ⟨w, hw⟩
    · have hf : g.isNode dst = false := by
        rw [← Bool.not_eq_true, isNode_iff]; exact hd
      have hres : g.isConnected src dst = (.error .dst_not_in_graph, g) := by
        simp only [isConnected, (isNode_iff g src).mpr hs, hf, Bool.not_true, Bool.not_false,
          Bool.false_eq_true, if_false, if_true]
      refine ⟨?_, fun _ h => absurd h hd, by rw [hres]⟩
      rw [hres]
      simp [hd, Err.isMissingNode]
  · have hf : g.isNode src = false := by
      rw [← Bool.not_eq_true, isNode_iff]; exact hs
    have hres : g.isConnected src dst = (.error .src_not_in_graph, g) := by
      simp only [isConnected, hf, Bool.not_false, if_true]
    refine ⟨?_, fun h => absurd h hs, by rw [hres]⟩
    rw [hres]
    simp [hs, Err.isMissingNode]

/-- Witness of C14 on the graph with the nodes 1, 2 and the edge `(1, 2, 5)`:
`isConnected(1, 2)` returns true and `isConnected(2, 1)` returns false. -/
theorem isConnected_outcome_witness :
    ex_one_edge.NoDangling ∧ (ex_one_edge.isConnected 1 2).2 = ex_one_edge ∧
      (ex_one_edge.isConnected 1 2).1 = .ok true ∧
      (ex_one_edge.isConnected 2 1).1 = .ok false :=
  ⟨by unfold NoDangling; decide,
    (isConnected_outcome ex_one_edge 1 2 (by unfold NoDangling; decide)).2.2,
    by decide, by decide⟩

/-- C18: in a graph without dangling edges, `deleteEdge(s, d, w)` completes; afterwards no
edge reports the triple `(s, d, w)`, the edge collection is the previous one without the
edges that reported it, the others in their previous order, and the node collection with
every degree counter is exactly as before. -/
theorem deleteEdge_effect [DecidableEq N] [DecidableEq E] (g : Graph N E) (s d : N) (w : E)
    (hg : g.NoDangling) :
    ∃ g', g.deleteEdge s d w = (.ok (), g') ∧
      g'.nodes_sp = g.nodes_sp ∧
      g'.edges = g.edges.filter (fun e => !decide (e.triple g.nodes_sp = .ok (s, d, w))) ∧
      g'.edges.Sublist g.edges ∧
      ¬ g'.HasTriple s d w ∧
      ∀ e ∈ g.edges, e.triple g.nodes_sp ≠ .ok (s, d, w) → e ∈ g'.edges := by
  refine ⟨_, deleteEdge_noDangling g s d w hg, rfl, rfl, List.filter_sublist _, ?_, ?_⟩
  · rintro ⟨e, he, ht⟩
    have := (List.mem_filter.mp he).2
    simp only [Bool.not_eq_true', decide_eq_false_iff_not] at this
    exact this ht
  · intro e he hne
    exact List.mem_filter.mpr ⟨he, by simp [hne]⟩

/-- Witness of C18 on the graph with the nodes 1, 2 and the edge `(1, 2, 5)`:
`deleteEdge(1, 2, 5)` leaves no edge and the counters as they were. -/
theorem deleteEdge_effect_witness :
    ex_one_edge.NoDangling ∧
      ∃ g', ex_one_edge.deleteEdge 1 2 5 = (.ok (), g') ∧
        g'.nodes_sp = [⟨0, 1, 0, 1⟩, ⟨1, 2, 1, 0⟩] ∧ g'.edges = [] := by
  have hg : ex_one_edge.NoDangling := by unfold NoDangling; decide
  obtain ⟨g', h1, h2, h3, -⟩ := deleteEdge_effect ex_one_edge 1 2 5 hg
  refine ⟨hg, g', h1, by rw [h2]; rfl, ?_⟩
  rw [h3]
  decide

end Graph

/-! ## No mutation on a missing-node failure -/

namespace Graph

variable {N E : Type}

theorem get_src_data_error {nodes : List (Node N)} {e : Edge E} {err : Err}
    (h : e.get_src_data nodes = .error err) : err = .expired_deref := by
  unfold Edge.get_src_data at h
  cases hl : lock nodes e.src_ptr with
  | none => rw [hl] at h; injection h with h; exact h.symm
  | some n => rw [hl] at h; cases h

theorem get_dst_data_error {nodes : List (Node N)} {e : Edge E} {err : Err}
    (h : e.get_dst_data nodes = .error err) : err = .expired_deref := by
  unfold Edge.get_dst_data at h
  cases hl : lock nodes e.dst_ptr with
  | none => rw [hl] at h; injection h with h; exact h.symm
  | some n => rw [hl] at h; cases h

theorem print_pairs_error [DecidableEq N] (nodes : List (Node N)) (val : N)
    (es : List (Edge E)) (err : Err) (h : print_pairs nodes val es = .error err) :
    err = .expired_deref := by
  induction es generalizing err with
  | nil => cases h
  | cons e es ih =>
    unfold print_pairs at h
    cases hs : e.get_src_data nodes with
    | error err1 =>
      rw [hs] at h
      injection h with h
      rw [← h]
      exact get_src_data_error hs
    | ok s =>
      rw [hs] at h
      simp only [] at h
      by_cases hv : s = val
      · rw [if_pos hv] at h
        cases hd : e.get_dst_data nodes with
        | error err1 =>
          rw [hd] at h
          injection h with h
          rw [← h]
          exact get_dst_data_error hd
        | ok d =>
          rw [hd] at h
          simp only [] at h
          cases hr : print_pairs nodes val es with
          | error err1 =>
            rw [hr] at h
            injection h with h
            rw [← h]
            exact ih _ hr
          | ok ls => rw [hr] at h; cases h
      · rw [if_neg hv] at h
        exact ih _ h

theorem addEdge_error_state [DecidableEq N] [DecidableEq E] (g : Graph N E) (src dst : N)
    (w : E) (err : Err) (h : (g.addEdge src dst w).1 = .error err) :
    (g.addEdge src dst w).2 = g := by
  unfold addEdge at h ⊢
  cases hf : find_if_exc (Edge.matches_triple g.nodes_sp src dst w) g.edges with
  | error e1 => rfl
  | ok it =>
    rw [hf] at h
    simp only [] at h ⊢
    by_cases hit : it ≠ g.edges.length
    · rw [if_pos hit]
    · rw [if_neg hit] at h ⊢
      cases hs : g.nodes_sp[find_if (fun n => decide (n.get_data = src)) g.nodes_sp]? with
      | none => rfl
      | some s =>
        cases hd : g.nodes_sp[find_if (fun n => decide (n.get_data = dst)) g.nodes_sp]? with
        | none => rfl
        | some d =>
          rw [hs, hd] at h
          cases h

theorem replace_error_state [DecidableEq N] (g : Graph N E) (old_data new_data : N)
    (err : Err) (h : (g.replace old_data new_data).1 = .error err) :
    (g.replace old_data new_data).2 = g := by
  unfold replace at h ⊢
  simp only [] at h ⊢
  by_cases h1 : find_if (fun n => decide (n.get_data = old_data)) g.nodes_sp = g.nodes_sp.length
  · rw [if_pos h1]
  · rw [if_neg h1] at h ⊢
    by_cases h2 : find_if (fun n => decide (n.get_data = new_data)) g.nodes_sp ≠
        g.nodes_sp.length
    · rw [if_pos h2]
    · rw [if_neg h2] at h
      cases h

theorem mergeReplace_error_state [DecidableEq N] (g : Graph N E) (old_data new_data : N)
    (err : Err) (h : (g.mergeReplace old_data new_data).1 = .error err) :
    (g.mergeReplace old_data new_data).2 = g := by
  unfold mergeReplace at h ⊢
  simp only [] at h ⊢
  by_cases h1 : find_if (fun n => decide (n.get_data = old_data)) g.nodes_sp = g.nodes_sp.length
  · rw [if_pos h1]
  · rw [if_neg h1] at h ⊢
    cases h2 : g.nodes_sp[find_if (fun n => decide (n.get_data = new_data)) g.nodes_sp]? with
    | none => rfl
    | some new_node =>
      rw [h2] at h
      simp only [] at h ⊢
      cases hm : merge_edges old_data
          (find_if (fun n => decide (n.get_data = new_data)) g.nodes_sp) new_node
          g.nodes_sp g.edges with
      | error e1 => rfl
      | ok r =>
        rw [hm] at h
        cases h

theorem isConnected_state [DecidableEq N] (g : Graph N E) (src dst : N) :
    (g.isConnected src dst).2 = g := by
  unfold isConnected
  split_ifs
  · rfl
  · rfl
  · cases find_if_exc (Edge.connects g.nodes_sp src dst) g.edges <;> rfl

theorem printEdges_error_state [LinearOrder N] [LinearOrder E] (g : Graph N E) (val : N)
    (err : Err) (h : (g.printEdges val).1 = .error err) (hm : err.isMissingNode = true) :
    (g.printEdges val).2 = g := by
  obtain ⟨ks, -, -, -, hres⟩ := update_eq g
  unfold printEdges at h ⊢
  by_cases hn : (!g.isNode val) = true
  · rw [if_pos hn]
  · rw [if_neg hn, hres] at h
    simp only [] at h
    exfalso
    cases hp : print_pairs (sort Node.lt (prune g.nodes_sp g.edges).1) val
        ((unique (fun a b : (N × N × E) × Edge E => triple_eq a.1 b.1)
          (sort (fun a b => triple_lt a.1 b.1) ks)).map Prod.snd) with
    | error e1 =>
      rw [hp] at h
      injection h with h
      have := print_pairs_error _ _ _ _ hp
      rw [← h, this] at hm
      cases hm
    | ok ls =>
      rw [hp] at h
      cases h

/-- C15: on every graph, whenever `addEdge`, `replace`, `mergeReplace`, `isConnected` or
`printEdges` fails with a missing-node error, the state it leaves (node collection with
values, order and counters, edge collection with members and order) is exactly the state
before the call. -/
theorem missing_node_no_mutation [LinearOrder N] [LinearOrder E] (g : Graph N E) :
    (∀ src dst w err, (g.addEdge src dst w).1 = .error err → err.isMissingNode = true →
        (g.addEdge src dst w).2 = g) ∧
      (∀ o n err, (g.replace o n).1 = .error err → err.isMissingNode = true →
        (g.replace o n).2 = g) ∧
      (∀ o n err, (g.mergeReplace o n).1 = .error err → err.isMissingNode = true →
        (g.mergeReplace o n).2 = g) ∧
      (∀ src dst err, (g.isConnected src dst).1 = .error err → err.isMissingNode = true →
        (g.isConnected src dst).2 = g) ∧
      (∀ val err, (g.printEdges val).1 = .error err → err.isMissingNode = true →
        (g.printEdges val).2 = g) :=
  ⟨fun src dst w err h _ => addEdge_error_state g src dst w err h,
    fun o n err h _ => replace_error_state g o n err h,
    fun o n err h _ => mergeReplace_error_state g o n err h,
    fun src dst _ _ _ => isConnected_state g src dst,
    fun val err h hm => printEdges_error_state g val err h hm⟩

/-- Witness of C15 on the graph with a duplicated triple and a dangling edge:
`printEdges(9)` fails with a missing-node error and leaves the state as it was, without
running the maintenance pass. -/
theorem missing_node_no_mutation_witness :
    (ex_messy.printEdges 9).1 = .error .node_not_in_graph ∧
      (ex_messy.printEdges 9).2 = ex_messy :=
  ⟨by decide, (missing_node_no_mutation ex_messy).2.2.2.2 9 .node_not_in_graph (by decide)
    (by decide)⟩

end Graph

/-! ## The scenario of the specification -/

namespace Graph

/-- C13: starting from the empty graph over strings and integers, `addNode("A")` and
`addNode("B")` return true, `addEdge("A", "B", 5)` returns true and a second one false;
after `deleteNode("B")`, `printNodes()` writes the single line `A` and leaves the node
`A` with both counters 0 and an empty edge collection. -/
theorem scenario_output :
    ((empty : Graph String Int).addNode "A").1 = true ∧
      (scenario1.addNode "B").1 = true ∧
      (scenario2.addEdge "A" "B" 5).1 = .ok true ∧
      (scenario3.addEdge "A" "B" 5).1 = .ok false ∧
      scenario5.printNodes = (.ok ["A"], ⟨[⟨0, "A", 0, 0⟩], [], 2, .singular⟩) := by
  refine ⟨?_, ?_, ?_, ?_, ?_⟩ <;> decide

end Graph

/-! ## The canonical order and the cursor -/

namespace Graph

variable {N E : Type}

theorem getElem?_append_cons {α : Type} (pre : List α) (n : α) (post : List α) :
    (pre ++ n :: post)[pre.length]? = some n := by
  induction pre with
  | nil => simp
  | cons a pre ih => simpa using ih

theorem getElem?_append_cons_succ {α : Type} (pre : List α) (n : α) (post : List α) :
    (pre ++ n :: post)[pre.length + 1]? = post[0]? := by
  induction pre with
  | nil => simp
  | cons a pre ih => simpa using ih

theorem traverse_from (post : List (Node N)) :
    ∀ (fuel : Nat) (pre : List (Node N)) (n : Node N) (h : Graph N E),
      h.nodes_sp = pre ++ n :: post → h.DistinctAddrs → h.const_iter = .at_node n.addr →
      post.length + 1 < fuel →
      traverse fuel h = some (.ok (n.data :: post.map Node.data)) := by
  induction post with
  | nil =>
    intro fuel pre n h hnodes hh hc hf
    obtain ⟨f, rfl⟩ : ∃ f, fuel = f + 2 := ⟨fuel - 2, by simp at hf; omega⟩
    have hmem : n ∈ h.nodes_sp := by rw [hnodes]; simp
    have hlock : h.nodes_sp[locate h.nodes_sp n.addr]? = some n := lock_of_mem hh hmem
    have hpos : h.nodes_sp[pre.length]? = some n := by
      rw [hnodes]; exact getElem?_append_cons pre n _
    have hloc : locate h.nodes_sp n.addr = pre.length := (locate_eq_iff hh hpos _).mpr rfl
    have hnext : h.nodes_sp[locate h.nodes_sp n.addr + 1]? = none := by
      rw [hloc, hnodes, getElem?_append_cons_succ]
      simp
    simp only [traverse, is_end, value, next, hc, hlock, hnext, Node.get_data, List.map_nil]
  | cons m post ih =>
    intro fuel pre n h hnodes hh hc hf
    obtain ⟨f, rfl⟩ : ∃ f, fuel = f + 1 := ⟨fuel - 1, by simp at hf; omega⟩
    have hmem : n ∈ h.nodes_sp := by rw [hnodes]; simp
    have hlock : h.nodes_sp[locate h.nodes_sp n.addr]? = some n := lock_of_mem hh hmem
    have hpos : h.nodes_sp[pre.length]? = some n := by
      rw [hnodes]; exact getElem?_append_cons pre n _
    have hloc : locate h.nodes_sp n.addr = pre.length := (locate_eq_iff hh hpos _).mpr rfl
    have hnext : h.nodes_sp[locate h.nodes_sp n.addr + 1]? = some m := by
      rw [hloc, hnodes, getElem?_append_cons_succ]
      simp
    have hrec := ih f (pre ++ [n]) m { h with const_iter := .at_node m.addr }
      (by simp [hnodes]) hh rfl (by simp at hf ⊢; omega)
    simp only [traverse, is_end, value, next, hc, hlock, hnext, Node.get_data, hrec,
      List.map_cons]

theorem traverse_begin (h : Graph N E) (hh : h.DistinctAddrs) (fuel : Nat)
    (hf : h.nodes_sp.length < fuel) : traverse fuel h.begin = some (.ok h.values) := by
  cases hn : h.nodes_sp with
  | nil =>
    obtain ⟨f, rfl⟩ : ∃ f, fuel = f + 1 := ⟨fuel - 1, by omega⟩
    simp only [traverse, is_end, begin, hn, values, List.map_nil]
  | cons n post =>
    have := traverse_from post fuel [] n h.begin (by simp [begin, hn]) hh
      (by simp [begin, hn]) (by rw [hn] at hf; simp at hf ⊢; omega)
    rw [this]
    simp [values, hn]

theorem node_lt_iff [LinearOrder N] (a b : Node N) : Node.lt a b = true ↔ a.data < b.data := by
  unfold Node.lt
  rw [decide_eq_true_iff]

/-- C16: for every graph with pairwise distinct node values, the maintenance pass
completes; afterwards the node collection holds the same values as before, arranged in
strictly ascending order, and the cursor protocol `begin()`, then `value()`/`next()` until
`end()`, reads exactly those values in that order (whenever the loop is given more tests
of `end()` than there are nodes). -/
theorem update_canonical_order [LinearOrder N] [LinearOrder E] (g : Graph N E)
    (hh : g.DistinctAddrs) (hv : g.values.Nodup) :
    ∃ g', g.update = (.ok (), g') ∧ g'.values.Perm g.values ∧
      g'.values.Sorted (fun a b => a < b) ∧
      ∀ fuel, g'.nodes_sp.length < fuel → traverse fuel g'.begin = some (.ok g'.values) := by
  obtain ⟨ps, hres, -, -, -⟩ := update_edges_eq g
  obtain ⟨ha, hd⟩ := prune_maps g.nodes_sp g.edges
  have hperm := update_values_perm g
  rw [hres] at hperm
  have hsorted := sort_sorted Node.data Node.lt node_lt_iff (prune g.nodes_sp g.edges).1
  have hh' : ((sort Node.lt (prune g.nodes_sp g.edges).1).map Node.addr).Nodup := by
    refine ((sort_perm _ _).map Node.addr).nodup_iff.mpr ?_
    rw [ha]
    exact hh
  refine ⟨_, hres, hperm, ?_, fun fuel hf => traverse_begin _ (by exact hh') fuel hf⟩
  have hle : (List.map Node.data (sort Node.lt (prune g.nodes_sp g.edges).1)).Sorted
      (fun a b => a ≤ b) := List.pairwise_map.mpr hsorted
  exact hle.lt_of_le (hperm.nodup_iff.mpr hv)

/-- Witness of C16 on the graph with the nodes 3 and 1: after the pass the values are
1, 3 and the cursor reads 1, 3. -/
theorem update_canonical_order_witness :
    ex_messy.DistinctAddrs ∧ ex_messy.values.Nodup ∧
      ∃ g', ex_messy.update = (.ok (), g') ∧ g'.values = [1, 3] ∧
        traverse 3 g'.begin = some (.ok [1, 3]) := by
  have hh : ex_messy.DistinctAddrs := by unfold DistinctAddrs; decide
  have hv : ex_messy.values.Nodup := by decide
  obtain ⟨g', h1, -, -, h2⟩ := update_canonical_order ex_messy hh hv
  have h3 : ex_messy.update.2.values = [1, 3] := by decide
  rw [h1] at h3
  have h4 := h2 3 (by
    have : g'.values.length = 2 := by rw [h3]; rfl
    unfold values at this
    rw [List.length_map] at this
    omega)
  rw [h3] at h4
  exact ⟨hh, hv, g', h1, h3, h4⟩

end Graph

/-! ## The maintenance pass is idempotent -/

section SortFixed

variable {α κ : Type} [LinearOrder κ]

theorem sort_eq_self (key : α → κ) (lt : α → α → Bool)
    (hlt : ∀ a b, lt a b = true ↔ key a < key b) (l : List α)
    (h : l.Sorted (fun a b => key a ≤ key b)) : sort lt l = l := by
  have hr : ∀ a b, key a ≤ key b → lt b a = false := by
    intro a b hab
    rw [← Bool.not_eq_true, hlt]
    exact not_lt.mpr hab
  exact List.Sorted.insertionSort_eq (List.Pairwise.imp (fun {a b} hab => hr a b hab) h)

theorem unique_from_eq_self (eq : α → α → Bool) (a : α) (l : List α)
    (h : (a :: l).Pairwise (fun a b => eq a b = false)) : unique_from eq a l = l := by
  induction l generalizing a with
  | nil => rfl
  | cons b l ih =>
    have hab : eq a b = false := List.rel_of_pairwise_cons h (by simp)
    simp only [unique_from, hab, Bool.false_eq_true, if_false]
    rw [ih b (List.Pairwise.of_cons h)]

theorem unique_eq_self (eq : α → α → Bool) (l : List α)
    (h : l.Pairwise (fun a b => eq a b = false)) : unique eq l = l := by
  cases l with
  | nil => rfl
  | cons a l => simp only [unique, unique_from_eq_self eq a l h]

end SortFixed

namespace Graph

variable {N E : Type}

theorem prune_all_live (nodes : List (Node N)) (es : List (Edge E))
    (h : ∀ e ∈ es, e.live nodes = true) : prune nodes es = (nodes, es) := by
  induction es with
  | nil => rfl
  | cons e es ih =>
    rw [prune_cons, if_pos (h e (by simp)), ih (fun e' he' => h e' (by simp [he']))]

theorem keyed_map_snd (nodes : List (Node N)) (ps : List ((N × N × E) × Edge E))
    (h : ∀ p ∈ ps, p.2.triple nodes = .ok p.1) : keyed nodes (ps.map Prod.snd) = .ok ps := by
  induction ps with
  | nil => rfl
  | cons p ps ih =>
    simp only [List.map_cons, keyed, h p (by simp), ih (fun q hq => h q (by simp [hq]))]

/-- A graph whose edges report strictly ascending triples and whose nodes are in ascending
order is left as it is by the maintenance pass. -/
theorem update_of_clean [LinearOrder N] [LinearOrder E] (h : Graph N E)
    (ps : List ((N × N × E) × Edge E)) (hedges : h.edges = ps.map Prod.snd)
    (hkey : ∀ p ∈ ps, p.2.triple h.nodes_sp = .ok p.1)
    (hpair : ps.Pairwise (fun a b => lex_key a.1 < lex_key b.1))
    (hnodes : h.nodes_sp.Sorted (fun a b => a.data ≤ b.data)) :
    h.update = (.ok (), h) := by
  have hlive : ∀ e ∈ h.edges, e.live h.nodes_sp = true := by
    intro e he
    rw [hedges] at he
    obtain ⟨p, hp, rfl⟩ := List.mem_map.mp he
    exact live_of_triple_ok (hkey p hp)
  have h1 := prune_all_live h.nodes_sp h.edges hlive
  have h2 : keyed h.nodes_sp h.edges = .ok ps := by
    rw [hedges]
    exact keyed_map_snd _ _ hkey
  have h3 : sort (fun a b : (N × N × E) × Edge E => triple_lt a.1 b.1) ps = ps :=
    sort_eq_self (fun p : (N × N × E) × Edge E => lex_key p.1) _
      (fun a b => triple_lt_iff a.1 b.1) ps (hpair.imp (fun hab => le_of_lt hab))
  have h4 : unique (fun a b : (N × N × E) × Edge E => triple_eq a.1 b.1) ps = ps := by
    apply unique_eq_self
    refine hpair.imp ?_
    intro a b hab
    rw [← Bool.not_eq_true, triple_eq_iff]
    intro hc
    rw [hc] at hab
    exact lt_irrefl _ hab
  have h5 : sort Node.lt h.nodes_sp = h.nodes_sp :=
    sort_eq_self Node.data Node.lt node_lt_iff _ hnodes
  simp only [update, h1, h2, h3, h4, h5, ← hedges]

/-- C20: the maintenance pass is idempotent: on every graph (dangling edges and duplicate
triples allowed) it completes, and running it again on its result leaves that result
unchanged, node order, values, counters and edge list included. -/
theorem update_idempotent [LinearOrder N] [LinearOrder E] (g : Graph N E)
    (hh : g.DistinctAddrs) :
    ∃ g', g.update = (.ok (), g') ∧ g'.update = (.ok (), g') := by
  obtain ⟨ps, hres, hpair, hmem, -⟩ := update_edges_eq g
  obtain ⟨ha, hd⟩ := prune_maps g.nodes_sp g.edges
  have hn1 : ((prune g.nodes_sp g.edges).1.map Node.addr).Nodup := by rw [ha]; exact hh
  have htriple : ∀ e : Edge E, e.triple (sort Node.lt (prune g.nodes_sp g.edges).1) =
      e.triple g.nodes_sp := by
    intro e
    rw [triple_perm (sort_perm _ _) hn1, triple_eq_of_map ha hd]
  refine ⟨_, hres, ?_⟩
  apply update_of_clean _ ps rfl
  · intro p hp
    exact (htriple p.2).trans (hmem p hp).2
  · exact hpair
  · exact sort_sorted Node.data Node.lt node_lt_iff _

/-- Witness of C20 on the graph with a duplicated triple and a dangling edge. -/
theorem update_idempotent_witness :
    ex_messy.DistinctAddrs ∧ ex_messy.update.2.update = (.ok (), ex_messy.update.2) := by
  have hh : ex_messy.DistinctAddrs := by unfold DistinctAddrs; decide
  obtain ⟨g', h1, h2⟩ := update_idempotent ex_messy hh
  refine ⟨hh, ?_⟩
  rw [h1]
  exact h2

end Graph

/-! ## The counters after `mergeReplace` -/

namespace Graph

variable {N E : Type}

theorem inc_times_zero (c : Nat) : inc_times 0 c = c := by
  unfold inc_times
  rw [Function.iterate_zero, id]

theorem inc_times_one (c : Nat) : inc_times 1 c = inc_counter c := by
  unfold inc_times
  rw [Function.iterate_one]

theorem inc_times_succ (k c : Nat) : inc_times k (inc_counter c) = inc_times (k + 1) c := by
  unfold inc_times
  rw [Function.iterate_succ_apply]

theorem inc_times_of_lt (k c : Nat) (h : c + k < UINT_MOD) : inc_times k c = c + k := by
  induction k generalizing c with
  | zero => rw [inc_times_zero, Nat.add_zero]
  | succ k ih =>
    rw [← inc_times_succ]
    have h1 : inc_counter c = c + 1 := by
      unfold inc_counter
      exact Nat.mod_eq_of_lt (by omega)
    rw [h1, ih (c + 1) (by omega)]
    omega

theorem merged_zero (n : Node N) : Node.merged 0 0 n = n := by
  unfold Node.merged
  rw [inc_times_zero, inc_times_zero]

theorem merged_one_zero (n : Node N) : Node.inc_out_degree n = Node.merged 1 0 n := by
  unfold Node.inc_out_degree Node.merged
  rw [inc_times_one, inc_times_zero]

theorem merged_zero_one (n : Node N) : Node.inc_in_degree n = Node.merged 0 1 n := by
  unfold Node.inc_in_degree Node.merged
  rw [inc_times_one, inc_times_zero]

theorem merged_one_one (n : Node N) :
    Node.inc_in_degree (Node.inc_out_degree n) = Node.merged 1 1 n := by
  unfold Node.inc_in_degree Node.inc_out_degree Node.merged
  rw [inc_times_one, inc_times_one]

theorem merged_step (a b : Nat) (p q : Prop) [Decidable p] [Decidable q] (n : Node N) :
    Node.merged a b (Node.merged (if p then 1 else 0) (if q then 1 else 0) n) =
      Node.merged (a + if p then 1 else 0) (b + if q then 1 else 0) n := by
  unfold Node.merged
  split_ifs <;> simp only [inc_times_one, inc_times_zero, inc_times_succ, Nat.add_zero]

theorem getElem?_merge_step [DecidableEq N] (old_data s d : N) (new_it : Nat)
    (nodes : List (Node N)) (k : Nat) :
    ((if d = old_data then modify_at Node.inc_in_degree new_it else id)
        ((if s = old_data then modify_at Node.inc_out_degree new_it else id) nodes))[k]? =
      (nodes[k]?).map (fun n =>
        if k = new_it then
          Node.merged (if s = old_data then 1 else 0) (if d = old_data then 1 else 0) n
        else n) := by
  cases hk : nodes[k]? with
  | none =>
    split_ifs <;> simp only [id, getElem?_modify_at, hk, Option.map_none']
  | some n =>
    by_cases hkn : k = new_it
    · have c : (k = new_it) = True := eq_true hkn
      by_cases h1 : s = old_data <;> by_cases h2 : d = old_data
      · rw [if_pos h1, if_pos h2, Option.map_some', if_pos hkn, if_pos h1, if_pos h2,
          ← merged_one_one]
        simp only [getElem?_modify_at, hk, Option.map_some', c, if_true]
      · rw [if_pos h1, if_neg h2, Option.map_some', if_pos hkn, if_pos h1, if_neg h2,
          ← merged_one_zero]
        simp only [id, getElem?_modify_at, hk, Option.map_some', c, if_true]
      · rw [if_neg h1, if_pos h2, Option.map_some', if_pos hkn, if_neg h1, if_pos h2,
          ← merged_zero_one]
        simp only [id, getElem?_modify_at, hk, Option.map_some', c, if_true]
      · rw [if_neg h1, if_neg h2, Option.map_some', if_pos hkn, if_neg h1, if_neg h2,
          merged_zero]
        simp only [id, hk]
    · have c : (k = new_it) = False := eq_false hkn
      rw [Option.map_some', if_neg hkn]
      split_ifs <;> simp only [id, getElem?_modify_at, hk, Option.map_some', c, if_false]

end Graph

namespace Graph

variable {N E : Type}

theorem src_count_eq_of_map [DecidableEq N] {l l' : List (Node N)}
    (h : l'.map Node.addr = l.map Node.addr) (hd : l'.map Node.data = l.map Node.data)
    (old_data : N) (es : List (Edge E)) : src_count l' old_data es = src_count l old_data es := by
  unfold src_count
  congr 1
  funext e
  rw [get_src_data_eq_of_map h hd]

theorem dst_count_eq_of_map [DecidableEq N] {l l' : List (Node N)}
    (h : l'.map Node.addr = l.map Node.addr) (hd : l'.map Node.data = l.map Node.data)
    (old_data : N) (es : List (Edge E)) : dst_count l' old_data es = dst_count l old_data es := by
  unfold dst_count
  congr 1
  funext e
  rw [get_dst_data_eq_of_map h hd]

/-- The node collection after the `for_each` of `mergeReplace`: the node at the position of
the new value has been incremented once for every endpoint that read the old value. -/
theorem merge_edges_nodes [DecidableEq N] (old_data : N) (new_it : Nat) (new_node : Node N)
    (es : List (Edge E)) :
    ∀ (nodes nodes1 : List (Node N)) (es1 : List (Edge E)),
      merge_edges old_data new_it new_node nodes es = .ok (nodes1, es1) →
      ∀ k, nodes1[k]? = (nodes[k]?).map (fun n =>
        if k = new_it then
          Node.merged (src_count nodes old_data es) (dst_count nodes old_data es) n
        else n) := by
  induction es with
  | nil =>
    intro nodes nodes1 es1 h k
    simp only [merge_edges, Except.ok.injEq, Prod.mk.injEq] at h
    rw [← h.1]
    simp only [src_count, dst_count, List.countP_nil, merged_zero, ite_self]
    cases nodes[k]? with
    | none => rw [Option.map_none']
    | some n => rw [Option.map_some']
  | cons e es ih =>
    intro nodes nodes1 es1 h k
    unfold merge_edges at h
    rw [merge_edge_eq] at h
    cases hs : e.get_src_data nodes with
    | error err => rw [hs] at h; cases h
    | ok s =>
      cases hd : e.get_dst_data nodes with
      | error err => rw [hs, hd] at h; cases h
      | ok d =>
        rw [hs, hd] at h
        simp only [] at h
        have hstep := merge_edge_eq old_data new_it new_node nodes e
        rw [hs, hd] at hstep
        simp only [] at hstep
        obtain ⟨ha1, hd1⟩ := merge_edge_maps _ _ _ _ _ _ _ hstep
        cases hrec : merge_edges old_data new_it new_node
            ((if d = old_data then modify_at Node.inc_in_degree new_it else id)
              ((if s = old_data then modify_at Node.inc_out_degree new_it else id) nodes))
            es with
        | error err => rw [hrec] at h; cases h
        | ok r =>
          obtain ⟨nodes2, es2⟩ := r
          rw [hrec] at h
          simp only [Except.ok.injEq, Prod.mk.injEq] at h
          rw [← h.1, ih _ _ _ hrec k, getElem?_merge_step, src_count_eq_of_map ha1 hd1,
            dst_count_eq_of_map ha1 hd1]
          have hc1 : src_count nodes old_data (e :: es) =
              src_count nodes old_data es + if s = old_data then 1 else 0 := by
            unfold src_count
            rw [List.countP_cons, hs]
            by_cases h1 : s = old_data
            · simp [h1]
            · have : ¬ (Except.ok s : Except Err N) = .ok old_data :=
                fun hc => h1 (by injection hc)
              simp [h1, this]
          have hc2 : dst_count nodes old_data (e :: es) =
              dst_count nodes old_data es + if d = old_data then 1 else 0 := by
            unfold dst_count
            rw [List.countP_cons, hd]
            by_cases h1 : d = old_data
            · simp [h1]
            · have : ¬ (Except.ok d : Except Err N) = .ok old_data :=
                fun hc => h1 (by injection hc)
              simp [h1, this]
          rw [hc1, hc2]
          cases nodes[k]? with
          | none => simp only [Option.map_none']
          | some n =>
            simp only [Option.map_some']
            by_cases hk : k = new_it
            · simp only [if_pos hk, merged_step]
            · simp only [if_neg hk]

end Graph

namespace Graph

variable {N E : Type}

/-- C17 (amended): in a graph without dangling edges, for values `old ≠ new` of current
nodes, `mergeReplace(old, new)` completes and leaves the node collection of before with
the node carrying `old` erased and the node carrying `new` incremented (as `unsigned`
counters, modulo `2 ^ 32`) once in its out-degree for every edge whose source was `old`
and once in its in-degree for every edge whose destination was `old`: its counters are
the previous ones plus those numbers whenever the sums stay below `2 ^ 32`; every other
remaining node is unchanged. -/
theorem mergeReplace_degrees [DecidableEq N] (g : Graph N E) (old_data new_data : N)
    (hg : g.NoDangling) (ho : g.IsNodeValue old_data) (hn : g.IsNodeValue new_data)
    (hne : old_data ≠ new_data) :
    ∃ g' nn, g.mergeReplace old_data new_data = (.ok (), g') ∧
      g.node_of new_data = some nn ∧
      g'.nodes_sp = erase_at (g.position_of old_data)
        (modify_at (Node.merged (src_count g.nodes_sp old_data g.edges)
          (dst_count g.nodes_sp old_data g.edges)) (g.position_of new_data) g.nodes_sp) ∧
      Node.merged (src_count g.nodes_sp old_data g.edges)
        (dst_count g.nodes_sp old_data g.edges) nn ∈ g'.nodes_sp ∧
      (nn.out_degree + src_count g.nodes_sp old_data g.edges < UINT_MOD →
        (Node.merged (src_count g.nodes_sp old_data g.edges)
          (dst_count g.nodes_sp old_data g.edges) nn).out_degree =
          nn.out_degree + src_count g.nodes_sp old_data g.edges) ∧
      (nn.in_degree + dst_count g.nodes_sp old_data g.edges < UINT_MOD →
        (Node.merged (src_count g.nodes_sp old_data g.edges)
          (dst_count g.nodes_sp old_data g.edges) nn).in_degree =
          nn.in_degree + dst_count g.nodes_sp old_data g.edges) := by
  obtain ⟨m, hm, hmm, hmd⟩ := exists_node_of g old_data ho
  obtain ⟨nn, hnn, hnm, hnd⟩ := exists_node_of g new_data hn
  have hlt : g.position_of old_data < g.nodes_sp.length := by
    by_contra hc
    rw [List.getElem?_eq_none (by omega)] at hm
    cases hm
  obtain ⟨nodes1, hmerge, -, -⟩ := merge_edges_ok old_data (g.position_of new_data) nn
    g.nodes_sp g.edges (fun e he => by
      obtain ⟨s, d, hs, hd, -⟩ := hg.triple_ok he
      exact ⟨s, d, hs, hd⟩)
  have hnodes1 : nodes1 = modify_at (Node.merged (src_count g.nodes_sp old_data g.edges)
      (dst_count g.nodes_sp old_data g.edges)) (g.position_of new_data) g.nodes_sp := by
    apply List.ext_getElem?
    intro k
    rw [merge_edges_nodes _ _ _ _ _ _ _ hmerge k, getElem?_modify_at]
  have hres : g.mergeReplace old_data new_data = (.ok (),
      { g with nodes_sp := erase_at (g.position_of old_data) nodes1,
               edges := g.edges.map (Edge.redirect g.nodes_sp old_data nn.addr) }) := by
    unfold position_of at hlt hnn hmerge ⊢
    simp only [mergeReplace, Nat.ne_of_lt hlt, if_false, hnn, hmerge]
  have hpos_ne : g.position_of new_data ≠ g.position_of old_data := by
    intro hc
    rw [hc, hm] at hnn
    injection hnn with hnn
    rw [hnn] at hmd
    exact hne (hmd.symm.trans hnd)
  refine ⟨_, nn, hres, hnn, by rw [hnodes1], ?_, ?_, ?_⟩
  · show _ ∈ erase_at _ nodes1
    rw [hnodes1]
    apply mem_erase_at_of_ne
    · apply List.getElem?_mem (n := g.position_of new_data)
      rw [getElem?_modify_at, hnn, Option.map_some', if_pos rfl]
    · rw [getElem?_modify_at, hm, Option.map_some', if_neg (Ne.symm hpos_ne)]
      intro hc
      injection hc with hc
      have hdata : m.data = (Node.merged (src_count g.nodes_sp old_data g.edges)
          (dst_count g.nodes_sp old_data g.edges) nn).data := by rw [hc]
      have hmerged : (Node.merged (src_count g.nodes_sp old_data g.edges)
          (dst_count g.nodes_sp old_data g.edges) nn).data = nn.data := by
        unfold Node.merged
        rfl
      rw [hmerged, hmd, hnd] at hdata
      exact hne hdata
  · intro h
    unfold Node.merged
    exact inc_times_of_lt _ _ h
  · intro h
    unfold Node.merged
    exact inc_times_of_lt _ _ h

/-- Witness of C17 on the graph with the nodes 1, 2, 3 and the edges `(1, 3, 5)`,
`(2, 3, 5)`, `(3, 1, 7)`: `mergeReplace(1, 2)` leaves the node 2 with out-degree 2 and
in-degree 1. -/
theorem mergeReplace_degrees_witness :
    ex_three_nodes.NoDangling ∧
      ∃ g', ex_three_nodes.mergeReplace 1 2 = (.ok (), g') ∧
        g'.nodes_sp = [⟨1, 2, 1, 2⟩, ⟨2, 3, 2, 1⟩] := by
  have hg : ex_three_nodes.NoDangling := by unfold NoDangling; decide
  obtain ⟨g', nn, h1, -, h2, -⟩ := mergeReplace_degrees ex_three_nodes 1 2 hg
    (by unfold IsNodeValue; decide) (by unfold IsNodeValue; decide) (by decide)
  refine ⟨hg, g', h1, ?_⟩
  have h3 : (ex_three_nodes.mergeReplace 1 2).2.nodes_sp = [⟨1, 2, 1, 2⟩, ⟨2, 3, 2, 1⟩] := by
    decide
  rw [h1] at h3
  exact h3

theorem reachable_ex_merge_wrap : Reachable ex_merge_wrap :=
  Reachable.addEdge _ 3 2 0 true _ (Reachable.addNode _ 3 reachable_ex_full_counter)
    (by decide)

/-- Counterexample to C17 as stated: in a reachable state where the node carrying 1 has
out-degree 4294967295 and one edge has the source 3, `mergeReplace(3, 1)` leaves the
out-degree of the node carrying 1 at 0, not at the previous value plus 1. -/
theorem mergeReplace_degrees_counterexample :
    Reachable ex_merge_wrap ∧ ex_merge_wrap.NoDangling ∧ ex_merge_wrap.IsNodeValue 3 ∧
      ex_merge_wrap.IsNodeValue 1 ∧
      (ex_merge_wrap.node_of 1).map Node.out_degree = some 4294967295 ∧
      src_count ex_merge_wrap.nodes_sp 3 ex_merge_wrap.edges = 1 ∧
      ex_merge_wrap.mergeReplace 3 1 =
        (.ok (), ⟨[⟨0, 1, 0, 0⟩, ⟨1, 2, 0, 0⟩], [⟨0, 1, 0⟩], 3, .singular⟩) := by
  refine ⟨reachable_ex_merge_wrap, ?_, ?_, ?_, ?_, ?_, ?_⟩
  · unfold NoDangling; decide
  · unfold IsNodeValue; decide
  · unfold IsNodeValue; decide
  · decide
  · decide
  · decide

end Graph

/-! ## Copy construction and assignment -/

namespace Graph

variable {N E : Type}

theorem addEdge_fresh [DecidableEq N] [DecidableEq E] (g : Graph N E) (a b : N) (w : E)
    (hh : g.DistinctAddrs) (hg : g.NoDangling) (ha : g.IsNodeValue a) (hb : g.IsNodeValue b)
    (hT : ¬ g.HasTriple a b w) :
    ∃ g' e', g.addEdge a b w = (.ok true, g') ∧
      g'.nodes_sp.map Node.addr = g.nodes_sp.map Node.addr ∧
      g'.nodes_sp.map Node.data = g.nodes_sp.map Node.data ∧
      g'.edges = g.edges ++ [e'] ∧ e'.triple g.nodes_sp = .ok (a, b, w) := by
  have hfind := hg.find_matches a b w
  have heq := (find_triple_eq_length_iff g a b w).mpr hT
  obtain ⟨s, hsi, hsm, hsd⟩ := exists_node_of g a ha
  obtain ⟨d, hdi, hdm, hdd⟩ := exists_node_of g b hb
  have hres : g.addEdge a b w = (.ok true,
      { g with
        nodes_sp := modify_at Node.inc_in_degree (g.position_of b)
          (modify_at Node.inc_out_degree (g.position_of a) g.nodes_sp),
        edges := g.edges ++ [⟨s.addr, d.addr, w⟩] }) := by
    unfold position_of at hsi hdi ⊢
    simp only [addEdge, hfind, heq, hsi, hdi]
    simp
  refine ⟨_, ⟨s.addr, d.addr, w⟩, hres, ?_, ?_, rfl, ?_⟩
  · show (modify_at _ _ _).map _ = _
    rw [map_addr_modify_inc_in, map_addr_modify_inc_out]
  · show (modify_at _ _ _).map _ = _
    rw [map_data_modify_inc_in, map_data_modify_inc_out]
  · simp [Edge.triple, Edge.get_src_data, Edge.get_dst_data, lock_of_mem hh hsm,
      lock_of_mem hh hdm, Node.get_data, hsd, hdd, Edge.get_weight]

theorem copy_nodes_spec [DecidableEq N] (ns : List (Node N)) :
    ∀ s : Graph N E, s.DistinctAddrs → s.FreshAddrs →
      (∀ n ∈ ns, n.data ∉ s.values) → (ns.map Node.data).Nodup →
      (copy_nodes s ns).DistinctAddrs ∧ (copy_nodes s ns).values = s.values ++ ns.map Node.data ∧
        (copy_nodes s ns).edges = s.edges := by
  induction ns with
  | nil =>
    intro s hd _ _ _
    exact ⟨hd, by simp [copy_nodes], rfl⟩
  | cons n ns ih =>
    intro s hd hf hnot hnodup
    rw [List.map_cons, List.nodup_cons] at hnodup
    have hn : n.data ∉ s.values := hnot n (by simp)
    have hisNode : s.isNode n.get_data = false := by
      rw [← Bool.not_eq_true, isNode_iff_mem_values]
      exact hn
    have hadd : s.addNode n.get_data = (true,
        { s with nodes_sp := s.nodes_sp ++ [Node.mk_node s.next_addr n.get_data],
                 next_addr := s.next_addr + 1 }) := by
      simp [addNode, hisNode]
    have hd' : (s.addNode n.get_data).2.DistinctAddrs := by
      rw [hadd]
      unfold DistinctAddrs
      simp only [List.map_append, List.map_cons, List.map_nil]
      refine List.Nodup.append hd (List.nodup_singleton _) ?_
      intro x hx hx'
      rw [List.mem_singleton] at hx'
      obtain ⟨m, hm, hma⟩ := List.mem_map.mp hx
      have := hf m hm
      rw [hma, hx'] at this
      exact Nat.lt_irrefl _ this
    have hf' : (s.addNode n.get_data).2.FreshAddrs := by
      rw [hadd]
      intro m hm
      simp only [List.mem_append, List.mem_singleton] at hm
      rcases hm with hm | hm
      · exact Nat.lt_succ_of_lt (hf m hm)
      · rw [hm]
        exact Nat.lt_succ_self _
    have hvals : (s.addNode n.get_data).2.values = s.values ++ [n.data] := by
      rw [hadd]
      simp [values, Node.mk_node, Node.get_data]
    have hnot' : ∀ m ∈ ns, m.data ∉ (s.addNode n.get_data).2.values := by
      intro m hm hc
      rw [hvals, List.mem_append, List.mem_singleton] at hc
      rcases hc with hc | hc
      · exact hnot m (by simp [hm]) hc
      · exact hnodup.1 (hc ▸ List.mem_map_of_mem _ hm)
    obtain ⟨h1, h2, h3⟩ := ih _ hd' hf' hnot' hnodup.2
    refine ⟨h1, ?_, ?_⟩
    · show (copy_nodes (s.addNode n.get_data).2 ns).values = _
      rw [h2, hvals]
      simp
    · show (copy_nodes (s.addNode n.get_data).2 ns).edges = _
      rw [h3, hadd]

theorem copy_edges_spec [DecidableEq N] [DecidableEq E] (g : Graph N E) (hg : g.NoDangling)
    (es : List (Edge E)) :
    ∀ c : Graph N E, c.DistinctAddrs → c.NoDangling → c.values = g.values →
      (∀ e ∈ es, e ∈ g.edges) →
      (c.triples ++ es.map (fun e => e.triple g.nodes_sp)).Nodup →
      ∃ c', copy_edges g.nodes_sp c es = (.ok (), c') ∧ c'.values = g.values ∧
        c'.triples = c.triples ++ es.map (fun e => e.triple g.nodes_sp) := by
  induction es with
  | nil =>
    intro c _ _ hv _ _
    exact ⟨c, rfl, hv, by simp⟩
  | cons e es ih =>
    intro c hd hc hv hmem hnodup
    obtain ⟨s, d, hs, hdd, ht, hsv, hdv⟩ := hg.triple_ok (hmem e (by simp))
    have hsc : c.IsNodeValue s := by
      rw [isNodeValue_iff_mem_map] at hsv ⊢
      unfold values at hv
      rw [hv]
      exact hsv
    have hdc : c.IsNodeValue d := by
      rw [isNodeValue_iff_mem_map] at hdv ⊢
      unfold values at hv
      rw [hv]
      exact hdv
    have hT : ¬ c.HasTriple s d e.weight := by
      rintro ⟨e0, he0, ht0⟩
      have h1 : Except.ok (s, d, e.weight) ∈ c.triples := by
        rw [← ht0]
        exact List.mem_map_of_mem _ he0
      have h2 := (List.nodup_append.mp hnodup).2.2
      exact h2 h1 (by simp [ht])
    obtain ⟨c1, e', hadd, ha1, hd1, hedges, hte⟩ := addEdge_fresh c s d e.weight hd hc hsc hdc hT
    have htr1 : c1.triples = c.triples ++ [Except.ok (s, d, e.weight)] := by
      unfold triples
      rw [hedges, List.map_append, List.map_cons, List.map_nil, triple_eq_of_map ha1 hd1, hte]
      congr 1
      apply List.map_congr_left
      intro e0 _
      exact triple_eq_of_map ha1 hd1 e0
    have hd1' : c1.DistinctAddrs := by
      unfold DistinctAddrs
      rw [ha1]
      exact hd
    have hc1 : c1.NoDangling := by
      intro e0 he0
      have hlive : e0.live c1.nodes_sp = true := by
        rw [live_eq_of_map ha1]
        rw [hedges, List.mem_append, List.mem_singleton] at he0
        rcases he0 with h | h
        · have := hc e0 h
          unfold Edge.live
          rw [this.1, this.2]
          rfl
        · rw [h]
          exact live_of_triple_ok hte
      unfold Edge.live at hlive
      rw [Bool.and_eq_true] at hlive
      exact hlive
    have hv1 : c1.values = g.values := by
      unfold values at hv ⊢
      rw [hd1, hv]
    have hnodup1 : (c1.triples ++ es.map (fun e => e.triple g.nodes_sp)).Nodup := by
      rw [htr1, List.append_assoc]
      simpa [ht] using hnodup
    obtain ⟨c', h1, h2, h3⟩ := ih c1 hd1' hc1 hv1 (fun e0 he0 => hmem e0 (by simp [he0])) hnodup1
    refine ⟨c', ?_, h2, ?_⟩
    · simp only [copy_edges, hs, hdd, Edge.get_weight, hadd, h1]
    · rw [h3, htr1, List.append_assoc]
      simp [ht]

end Graph

namespace Graph

variable {N E : Type}

theorem copy_from [DecidableEq N] [DecidableEq E] (s g : Graph N E) (hsn : s.nodes_sp = [])
    (hse : s.edges = []) (hg : g.NoDangling) (hv : g.values.Nodup) (ht : g.triples.Nodup) :
    ∃ c, copy_edges g.nodes_sp (copy_nodes s g.nodes_sp) g.edges = (.ok (), c) ∧
      c.values = g.values ∧ c.triples = g.triples := by
  have hs_vals : s.values = [] := by unfold values; rw [hsn]; rfl
  obtain ⟨h1, h2, h3⟩ := copy_nodes_spec g.nodes_sp s
    (by unfold DistinctAddrs; rw [hsn]; exact List.nodup_nil)
    (by intro n hn; rw [hsn] at hn; cases hn)
    (by intro n _; rw [hs_vals]; exact List.not_mem_nil _)
    hv
  rw [hs_vals, List.nil_append] at h2
  rw [hse] at h3
  have htr0 : (copy_nodes s g.nodes_sp).triples = [] := by unfold triples; rw [h3]; rfl
  obtain ⟨c, hc1, hc2, hc3⟩ := copy_edges_spec g hg g.edges (copy_nodes s g.nodes_sp) h1
    (by intro e he; rw [h3] at he; cases he) h2 (fun e he => he)
    (by rw [htr0, List.nil_append]; exact ht)
  refine ⟨c, hc1, hc2, ?_⟩
  rw [hc3, htr0, List.nil_append]
  rfl

/-- C12 (amended): for every graph `g` without dangling edges in which no two edges report
the same triple (node values pairwise distinct, as the data model requires), the graph
produced by copy construction from `g`, and the graph produced by assigning `g` to any
other target, has the same sequence of node values and the same sequence of edge
triples as `g`. -/
theorem copy_same [DecidableEq N] [DecidableEq E] (g target : Graph N E) (hg : g.NoDangling)
    (hv : g.values.Nodup) (ht : g.triples.Nodup) :
    (∃ c, copy_construct g = (.ok (), c) ∧ c.values = g.values ∧ c.triples = g.triples) ∧
      (∃ c, assign target g = (.ok (), c) ∧ c.values = g.values ∧ c.triples = g.triples) :=
  ⟨copy_from empty g rfl rfl hg hv ht, copy_from target.clear g rfl rfl hg hv ht⟩

/-- Witness of C12: the graph with the nodes 1, 2, 3 and three edges, copied and assigned
to the graph with a dangling edge. -/
theorem copy_same_witness :
    ex_three_nodes.NoDangling ∧ ex_three_nodes.values.Nodup ∧ ex_three_nodes.triples.Nodup ∧
      (∃ c, copy_construct ex_three_nodes = (.ok (), c) ∧
        c.values = [1, 2, 3] ∧ c.triples = [.ok (1, 3, 5), .ok (2, 3, 5), .ok (3, 1, 7)]) ∧
      (∃ c, assign ex_messy ex_three_nodes = (.ok (), c) ∧
        c.values = [1, 2, 3] ∧ c.triples = [.ok (1, 3, 5), .ok (2, 3, 5), .ok (3, 1, 7)]) := by
  have hg : ex_three_nodes.NoDangling := by unfold NoDangling; decide
  have hv : ex_three_nodes.values.Nodup := by decide
  have ht : ex_three_nodes.triples.Nodup := by decide
  have h1 : ex_three_nodes.values = [1, 2, 3] := by decide
  have h2 : ex_three_nodes.triples = [.ok (1, 3, 5), .ok (2, 3, 5), .ok (3, 1, 7)] := by decide
  obtain ⟨⟨c, hc1, hc2, hc3⟩, ⟨c', hc1', hc2', hc3'⟩⟩ :=
    copy_same ex_three_nodes ex_messy hg hv ht
  exact ⟨hg, hv, ht, ⟨c, hc1, hc2.trans h1, hc3.trans h2⟩, ⟨c', hc1', hc2'.trans h1, hc3'.trans h2⟩⟩

theorem reachable_ex_dup_edges : Reachable ex_dup_edges :=
  Reachable.mergeReplace ex_two_sources 1 2 _ reachable_ex_two_sources (by decide)

/-- Counterexample to C12 as stated: in the reachable state left by `mergeReplace(1, 2)`
two edges report `(2, 3, 5)` and none dangles; the copy holds the triple once, the second
`addEdge` of the copy loop returning false. -/
theorem copy_same_counterexample :
    Reachable ex_dup_edges ∧ ex_dup_edges.NoDangling ∧
      ex_dup_edges.triples = [.ok (2, 3, 5), .ok (2, 3, 5)] ∧
      (copy_construct ex_dup_edges).1 = .ok () ∧
      (copy_construct ex_dup_edges).2.triples = [.ok (2, 3, 5)] ∧
      (assign ex_messy ex_dup_edges).2.triples = [.ok (2, 3, 5)] := by
  refine ⟨reachable_ex_dup_edges, ?_, ?_, ?_, ?_, ?_⟩
  · unfold NoDangling; decide
  · decide
  · decide
  · decide
  · decide

end Graph

/-! ## The counters cover the edges as long as no increment wraps -/

section CountLemmas

variable {α β : Type}

theorem countP_map_le (f : α → β) (p : β → Bool) (q : α → Bool) (l : List α)
    (h : ∀ a ∈ l, p (f a) = true → q a = true) : (l.map f).countP p ≤ l.countP q := by
  induction l with
  | nil => simp
  | cons a l ih =>
    have ih' := ih (fun b hb => h b (by simp [hb]))
    have ha := h a (by simp)
    rw [List.map_cons, List.countP_cons, List.countP_cons]
    by_cases hp : p (f a) = true
    · rw [if_pos hp, if_pos (ha hp)]
      omega
    · rw [if_neg hp]
      split_ifs <;> omega

theorem countP_map_le_add (f : α → β) (p : β → Bool) (q1 q2 : α → Bool) (l : List α)
    (h : ∀ a ∈ l, p (f a) = true → q1 a = true ∨ q2 a = true) :
    (l.map f).countP p ≤ l.countP q1 + l.countP q2 := by
  induction l with
  | nil => simp
  | cons a l ih =>
    have ih' := ih (fun b hb => h b (by simp [hb]))
    have ha := h a (by simp)
    rw [List.map_cons, List.countP_cons, List.countP_cons, List.countP_cons]
    by_cases hp : p (f a) = true
    · rw [if_pos hp]
      rcases ha hp with h1 | h2
      · rw [if_pos h1]
        split_ifs <;> omega
      · rw [if_pos h2]
        split_ifs <;> omega
    · rw [if_neg hp]
      split_ifs <;> omega

theorem countP_eq_zero_of_forall (p : α → Bool) (l : List α) (h : ∀ a ∈ l, p a = false) :
    l.countP p = 0 := by
  induction l with
  | nil => rfl
  | cons a l ih =>
    rw [List.countP_cons, ih (fun b hb => h b (by simp [hb])), h a (by simp)]
    rfl

theorem countP_filter_add (p q : α → Bool) (l : List α) :
    (l.filter q).countP p + l.countP (fun a => !q a && p a) = l.countP p := by
  induction l with
  | nil => rfl
  | cons a l ih =>
    rw [List.countP_cons, List.countP_cons]
    by_cases hq : q a = true
    · rw [List.filter_cons_of_pos hq, List.countP_cons]
      simp only [hq, Bool.not_true, Bool.false_and, Bool.false_eq_true, if_false]
      omega
    · rw [List.filter_cons_of_neg hq]
      have hq' : q a = false := by simpa using hq
      simp only [hq', Bool.not_false, Bool.true_and]
      omega

theorem countP_le_of_imp (p q : α → Bool) (l : List α)
    (h : ∀ a ∈ l, p a = true → q a = true) : l.countP p ≤ l.countP q := by
  have := countP_map_le id p q l h
  rwa [List.map_id] at this

theorem remove_if_exc_sublist (p : α → Except Err Bool) (l r : List α)
    (h : remove_if_exc p l = .ok r) : r.Sublist l := by
  induction l generalizing r with
  | nil =>
    simp only [remove_if_exc, Except.ok.injEq] at h
    rw [← h]
  | cons a l ih =>
    unfold remove_if_exc at h
    cases hp : p a with
    | error e => rw [hp] at h; cases h
    | ok b =>
      rw [hp] at h
      simp only [] at h
      cases hr : remove_if_exc p l with
      | error e => rw [hr] at h; cases h
      | ok r' =>
        rw [hr] at h
        simp only [Except.ok.injEq] at h
        rw [← h]
        cases b
        · exact (ih r' hr).cons₂ a
        · exact (ih r' hr).cons a

end CountLemmas

namespace Graph

variable {N E : Type}

theorem CountersCover.of_empty : (empty : Graph N E).CountersCover :=
  ⟨List.nodup_nil, fun _ h => (List.not_mem_nil _ h).elim,
    fun _ h => (List.not_mem_nil _ h).elim, fun _ h => (List.not_mem_nil _ h).elim,
    fun _ h => (List.not_mem_nil _ h).elim⟩

theorem CountersCover.of_addNode [DecidableEq N] {g : Graph N E} (hg : g.CountersCover)
    (v : N) : (g.addNode v).2.CountersCover := by
  unfold Graph.addNode
  by_cases h : g.isNode v = true
  · rw [if_pos h]
    exact hg
  · rw [if_neg h]
    refine ⟨?_, ?_, ?_, ?_, ?_⟩
    · show ((g.nodes_sp ++ [Node.mk_node g.next_addr v]).map Node.addr).Nodup
      rw [List.map_append, List.nodup_append]
      refine ⟨hg.distinct, List.nodup_singleton _, ?_⟩
      intro a ha hb
      obtain ⟨n, hn, rfl⟩ := List.mem_map.mp ha
      have h1 := hg.fresh n hn
      simp only [List.map_cons, List.map_nil, List.mem_singleton] at hb
      have h2 : (Node.mk_node g.next_addr v).addr = g.next_addr := rfl
      omega
    · intro n hn
      show n.addr < g.next_addr + 1
      rcases List.mem_append.mp hn with h1 | h1
      · exact Nat.lt_succ_of_lt (hg.fresh n h1)
      · rw [List.mem_singleton.mp h1]
        exact Nat.lt_succ_self _
    · intro e he
      show e.src_ptr < g.next_addr + 1 ∧ e.dst_ptr < g.next_addr + 1
      have h1 := hg.refs e he
      omega
    · intro n hn
      rcases List.mem_append.mp hn with h1 | h1
      · exact hg.bounded n h1
      · rw [List.mem_singleton.mp h1]
        show (0 : Nat) < UINT_MOD ∧ (0 : Nat) < UINT_MOD
        exact ⟨by decide, by decide⟩
    · intro n hn
      rcases List.mem_append.mp hn with h1 | h1
      · exact hg.degrees n h1
      · rw [List.mem_singleton.mp h1]
        have h2 : (Node.mk_node g.next_addr v).addr = g.next_addr := rfl
        constructor
        · have : g.edges.countP (fun e => decide (e.src_ptr = g.next_addr)) = 0 :=
            countP_eq_zero_of_forall _ _ (fun e he => by
              have := (hg.refs e he).1
              exact decide_eq_false (by omega))
          show g.edges.countP (fun e => decide (e.src_ptr = g.next_addr)) ≤ _
          rw [this]
          exact Nat.zero_le _
        · have : g.edges.countP (fun e => decide (e.dst_ptr = g.next_addr)) = 0 :=
            countP_eq_zero_of_forall _ _ (fun e he => by
              have := (hg.refs e he).2
              exact decide_eq_false (by omega))
          show g.edges.countP (fun e => decide (e.dst_ptr = g.next_addr)) ≤ _
          rw [this]
          exact Nat.zero_le _

theorem CountersCover.of_replace [DecidableEq N] {g : Graph N E} (hg : g.CountersCover)
    (old_data new_data : N) (r : Bool) (g' : Graph N E)
    (h : g.replace old_data new_data = (.ok r, g')) : g'.CountersCover := by
  unfold Graph.replace at h
  simp only [] at h
  by_cases h1 : find_if (fun n => decide (n.get_data = old_data)) g.nodes_sp = g.nodes_sp.length
  · rw [if_pos h1] at h
    cases h
  · rw [if_neg h1] at h
    by_cases h2 : find_if (fun n => decide (n.get_data = new_data)) g.nodes_sp
        ≠ g.nodes_sp.length
    · rw [if_pos h2] at h
      cases h
      exact hg
    · rw [if_neg h2] at h
      cases h
      have hmem : ∀ n' ∈ modify_at (Node.set_data new_data)
          (find_if (fun n => decide (n.get_data = old_data)) g.nodes_sp) g.nodes_sp,
          ∃ n ∈ g.nodes_sp, n'.addr = n.addr ∧ n'.out_degree = n.out_degree ∧
            n'.in_degree = n.in_degree := by
        intro n' hn'
        obtain ⟨k, hk⟩ := List.getElem?_of_mem hn'
        rw [getElem?_modify_at] at hk
        cases hnk : g.nodes_sp[k]? with
        | none => rw [hnk] at hk; cases hk
        | some n =>
          rw [hnk] at hk
          simp only [Option.map_some', Option.some.injEq] at hk
          refine ⟨n, List.getElem?_mem hnk, ?_⟩
          rw [← hk]
          split_ifs <;> exact ⟨rfl, rfl, rfl⟩
      refine ⟨?_, ?_, hg.refs, ?_, ?_⟩
      · show ((modify_at (Node.set_data new_data) _ g.nodes_sp).map Node.addr).Nodup
        rw [map_modify_at_of_preserved (Node.set_data new_data) Node.addr (fun _ => rfl)]
        exact hg.distinct
      · intro n' hn'
        obtain ⟨n, hn, ha, -, -⟩ := hmem n' hn'
        show n'.addr < g.next_addr
        rw [ha]
        exact hg.fresh n hn
      · intro n' hn'
        obtain ⟨n, hn, -, ho, hi⟩ := hmem n' hn'
        rw [ho, hi]
        exact hg.bounded n hn
      · intro n' hn'
        obtain ⟨n, hn, ha, ho, hi⟩ := hmem n' hn'
        have := hg.degrees n hn
        unfold out_edges in_edges at this ⊢
        rw [ho, hi, ha]
        exact this

theorem CountersCover.of_deleteNode [DecidableEq N] {g : Graph N E} (hg : g.CountersCover)
    (v : N) : (g.deleteNode v).CountersCover := by
  have hsub : ∀ n ∈ (g.deleteNode v).nodes_sp, n ∈ g.nodes_sp :=
    fun n hn => (List.mem_filter.mp hn).1
  refine ⟨?_, fun n hn => hg.fresh n (hsub n hn), hg.refs,
    fun n hn => hg.bounded n (hsub n hn), fun n hn => hg.degrees n (hsub n hn)⟩
  exact hg.distinct.sublist ((List.filter_sublist _).map _)

theorem CountersCover.of_edges_sublist {g : Graph N E} (hg : g.CountersCover)
    (es : List (Edge E)) (hs : es.Sublist g.edges) :
    ({ g with edges := es } : Graph N E).CountersCover := by
  refine ⟨hg.distinct, hg.fresh, fun e he => hg.refs e (hs.subset he), hg.bounded, ?_⟩
  intro n hn
  have := hg.degrees n hn
  exact ⟨(hs.countP_le _).trans this.1, (hs.countP_le _).trans this.2⟩

theorem CountersCover.of_deleteEdge [DecidableEq N] [DecidableEq E] {g : Graph N E}
    (hg : g.CountersCover) (src dst : N) (w : E) (g' : Graph N E)
    (h : g.deleteEdge src dst w = (.ok (), g')) : g'.CountersCover := by
  unfold Graph.deleteEdge at h
  cases hr : remove_if_exc (Edge.matches_triple g.nodes_sp src dst w) g.edges with
  | error err => rw [hr] at h; cases h
  | ok es =>
    rw [hr] at h
    cases h
    exact hg.of_edges_sublist es (remove_if_exc_sublist _ _ _ hr)

theorem CountersCover.of_clear (g : Graph N E) :
    g.clear.CountersCover :=
  ⟨List.nodup_nil, fun _ h => (List.not_mem_nil _ h).elim,
    fun _ h => (List.not_mem_nil _ h).elim, fun _ h => (List.not_mem_nil _ h).elim,
    fun _ h => (List.not_mem_nil _ h).elim⟩

theorem CountersCover.of_cursor {g : Graph N E} (hg : g.CountersCover) (c : Cursor) :
    ({ g with const_iter := c } : Graph N E).CountersCover :=
  ⟨hg.distinct, hg.fresh, hg.refs, hg.bounded, hg.degrees⟩

theorem CountersCover.of_next {g : Graph N E} (hg : g.CountersCover) (g' : Graph N E)
    (h : g.next = (.ok (), g')) : g'.CountersCover := by
  unfold Graph.next at h
  cases hc : g.const_iter with
  | singular => rw [hc] at h; cases h
  | past_end => rw [hc] at h; cases h
  | at_node p =>
    rw [hc] at h
    simp only [] at h
    cases hk : g.nodes_sp[locate g.nodes_sp p]? with
    | none => rw [hk] at h; cases h
    | some n =>
      rw [hk] at h
      cases h
      exact hg.of_cursor _

end Graph

theorem inc_counter_lt (c : Nat) : inc_counter c < UINT_MOD :=
  Nat.mod_lt _ (by decide)

theorem inc_counter_of_lt (c : Nat) (h : c + 1 < UINT_MOD) : inc_counter c = c + 1 :=
  Nat.mod_eq_of_lt h

namespace Graph

variable {N E : Type}

theorem addr_index_unique {l : List (Node N)} (hn : (l.map Node.addr).Nodup) {i j : Nat}
    {a b : Node N} (hi : l[i]? = some a) (hj : l[j]? = some b) (hab : a.addr = b.addr) :
    i = j := by
  have h1 : (l.map Node.addr)[i]? = some a.addr := by
    rw [List.getElem?_map, hi]
    rfl
  have h2 : (l.map Node.addr)[j]? = some a.addr := by
    rw [List.getElem?_map, hj, hab]
    rfl
  exact index_unique hn h1 h2

theorem CountersCover.of_addEdge [DecidableEq N] [DecidableEq E] {g : Graph N E}
    (hg : g.CountersCover) (src dst : N) (w : E) (r : Bool) (g' : Graph N E)
    (h : g.addEdge src dst w = (.ok r, g')) (hw : r = true → g.AddEdgeNoWrap src dst) :
    g'.CountersCover := by
  unfold Graph.addEdge at h
  cases hf : find_if_exc (Edge.matches_triple g.nodes_sp src dst w) g.edges with
  | error err => rw [hf] at h; cases h
  | ok edge_it =>
    rw [hf] at h
    simp only [] at h
    by_cases he : edge_it ≠ g.edges.length
    · rw [if_pos he] at h
      cases h
      exact hg
    · rw [if_neg he] at h
      cases hs : g.nodes_sp[find_if (fun n => decide (n.get_data = src)) g.nodes_sp]? with
      | none => rw [hs] at h; cases h
      | some s =>
        cases hd : g.nodes_sp[find_if (fun n => decide (n.get_data = dst)) g.nodes_sp]? with
        | none => rw [hs, hd] at h; cases h
        | some d =>
          rw [hs, hd] at h
          cases h
          have hws := (hw rfl).1 s hs
          have hwd := (hw rfl).2 d hd
          have hmem : ∀ n' ∈ modify_at Node.inc_in_degree
              (find_if (fun n => decide (n.get_data = dst)) g.nodes_sp)
              (modify_at Node.inc_out_degree
                (find_if (fun n => decide (n.get_data = src)) g.nodes_sp) g.nodes_sp),
              ∃ k n, g.nodes_sp[k]? = some n ∧ n'.addr = n.addr ∧
                n'.out_degree =
                  (if k = find_if (fun n => decide (n.get_data = src)) g.nodes_sp
                    then inc_counter n.out_degree else n.out_degree) ∧
                n'.in_degree =
                  (if k = find_if (fun n => decide (n.get_data = dst)) g.nodes_sp
                    then inc_counter n.in_degree else n.in_degree) := by
            intro n' hn'
            obtain ⟨k, hk⟩ := List.getElem?_of_mem hn'
            rw [getElem?_modify_at, getElem?_modify_at] at hk
            cases hnk : g.nodes_sp[k]? with
            | none => rw [hnk] at hk; cases hk
            | some n =>
              rw [hnk] at hk
              simp only [Option.map_some', Option.some.injEq] at hk
              refine ⟨k, n, hnk, ?_⟩
              rw [← hk]
              by_cases h1 : k = find_if (fun n => decide (n.get_data = src)) g.nodes_sp
              · by_cases h2 : k = find_if (fun n => decide (n.get_data = dst)) g.nodes_sp
                · rw [if_pos h1, if_pos h2, if_pos h1, if_pos h2]
                  exact ⟨rfl, rfl, rfl⟩
                · rw [if_pos h1, if_neg h2, if_pos h1, if_neg h2]
                  exact ⟨rfl, rfl, rfl⟩
              · by_cases h2 : k = find_if (fun n => decide (n.get_data = dst)) g.nodes_sp
                · rw [if_neg h1, if_pos h2, if_neg h1, if_pos h2]
                  exact ⟨rfl, rfl, rfl⟩
                · rw [if_neg h1, if_neg h2, if_neg h1, if_neg h2]
                  exact ⟨rfl, rfl, rfl⟩
          refine ⟨?_, ?_, ?_, ?_, ?_⟩
          · show ((modify_at Node.inc_in_degree _
              (modify_at Node.inc_out_degree _ g.nodes_sp)).map Node.addr).Nodup
            rw [map_addr_modify_inc_in, map_addr_modify_inc_out]
            exact hg.distinct
          · intro n' hn'
            obtain ⟨k, n, hk, ha, -, -⟩ := hmem n' hn'
            show n'.addr < g.next_addr
            rw [ha]
            exact hg.fresh n (List.getElem?_mem hk)
          · intro e he'
            show e.src_ptr < g.next_addr ∧ e.dst_ptr < g.next_addr
            rcases List.mem_append.mp he' with h1 | h1
            · exact hg.refs e h1
            · rw [List.mem_singleton.mp h1]
              exact ⟨hg.fresh s (List.getElem?_mem hs), hg.fresh d (List.getElem?_mem hd)⟩
          · intro n' hn'
            obtain ⟨k, n, hk, -, ho, hi⟩ := hmem n' hn'
            have hb := hg.bounded n (List.getElem?_mem hk)
            rw [ho, hi]
            constructor
            · split_ifs
              · exact inc_counter_lt _
              · exact hb.1
            · split_ifs
              · exact inc_counter_lt _
              · exact hb.2
          · intro n' hn'
            obtain ⟨k, n, hk, ha, ho, hi⟩ := hmem n' hn'
            have hdeg := hg.degrees n (List.getElem?_mem hk)
            unfold out_edges in_edges at hdeg
            constructor
            · show (g.edges ++ [(⟨s.addr, d.addr, w⟩ : Edge E)]).countP
                (fun e : Edge E => decide (e.src_ptr = n'.addr)) ≤ n'.out_degree
              rw [List.countP_append, List.countP_cons, List.countP_nil, ho, ha]
              by_cases hsa : s.addr = n.addr
              · have hks : k = find_if (fun n => decide (n.get_data = src)) g.nodes_sp :=
                  addr_index_unique hg.distinct hk hs hsa.symm
                have hns : n = s := by
                  rw [hks, hs] at hk
                  exact (Option.some.inj hk).symm
                rw [if_pos hks, if_pos (decide_eq_true hsa), hns,
                  inc_counter_of_lt _ hws]
                rw [hns] at hdeg
                have := hdeg.1
                omega
              · rw [if_neg (by simpa using hsa)]
                have := hdeg.1
                split_ifs with hks
                · have hns : n = s := by
                    rw [hks, hs] at hk
                    exact (Option.some.inj hk).symm
                  exact absurd (by rw [hns]) hsa
                · omega
            · show (g.edges ++ [(⟨s.addr, d.addr, w⟩ : Edge E)]).countP
                (fun e : Edge E => decide (e.dst_ptr = n'.addr)) ≤ n'.in_degree
              rw [List.countP_append, List.countP_cons, List.countP_nil, hi, ha]
              by_cases hda : d.addr = n.addr
              · have hkd : k = find_if (fun n => decide (n.get_data = dst)) g.nodes_sp :=
                  addr_index_unique hg.distinct hk hd hda.symm
                have hnd : n = d := by
                  rw [hkd, hd] at hk
                  exact (Option.some.inj hk).symm
                rw [if_pos hkd, if_pos (decide_eq_true hda), hnd,
                  inc_counter_of_lt _ hwd]
                rw [hnd] at hdeg
                have := hdeg.2
                omega
              · rw [if_neg (by simpa using hda)]
                have := hdeg.2
                split_ifs with hkd
                · have hnd : n = d := by
                    rw [hkd, hd] at hk
                    exact (Option.some.inj hk).symm
                  exact absurd (by rw [hnd]) hda
                · omega

end Graph

theorem unique_from_sublist {α : Type} (eq : α → α → Bool) (a : α) (l : List α) :
    (unique_from eq a l).Sublist l := by
  induction l generalizing a with
  | nil => exact List.Sublist.refl _
  | cons b l ih =>
    unfold unique_from
    split_ifs
    · exact (ih a).cons b
    · exact (ih b).cons₂ b

theorem unique_sublist {α : Type} (eq : α → α → Bool) (l : List α) :
    (unique eq l).Sublist l := by
  cases l with
  | nil => exact List.Sublist.refl _
  | cons a l => exact (unique_from_sublist eq a l).cons₂ a

namespace Graph

variable {N E : Type}

theorem inc_times_lt (k c : Nat) (hc : c < UINT_MOD) : inc_times k c < UINT_MOD := by
  induction k generalizing c with
  | zero =>
    rw [inc_times_zero]
    exact hc
  | succ k ih =>
    rw [← inc_times_succ]
    exact ih _ (inc_counter_lt c)

theorem dead_out_count_eq {l : List (Node N)} (hn : (l.map Node.addr).Nodup) {i : Nat}
    {n : Node N} (hi : l[i]? = some n) (es : List (Edge E)) :
    dead_out_count l es i =
      es.countP (fun e => !e.live l && decide (e.src_ptr = n.addr)) := by
  unfold dead_out_count
  congr 1
  funext e
  congr 1
  exact decide_eq_decide.mpr (locate_eq_iff hn hi e.src_ptr)

theorem dead_in_count_eq {l : List (Node N)} (hn : (l.map Node.addr).Nodup) {i : Nat}
    {n : Node N} (hi : l[i]? = some n) (es : List (Edge E)) :
    dead_in_count l es i =
      es.countP (fun e => !e.live l && decide (e.dst_ptr = n.addr)) := by
  unfold dead_in_count
  congr 1
  funext e
  congr 1
  exact decide_eq_decide.mpr (locate_eq_iff hn hi e.dst_ptr)

/-- In a state where the counters cover the edges, the number of decrements the pruning
pass of `update` applies to a counter is at most the counter. -/
theorem CountersCover.dead_le {g : Graph N E} (hg : g.CountersCover) {i : Nat} {n : Node N}
    (hi : g.nodes_sp[i]? = some n) :
    (g.edges.filter (Edge.live g.nodes_sp)).countP (fun e => decide (e.src_ptr = n.addr)) +
        dead_out_count g.nodes_sp g.edges i ≤ n.out_degree ∧
      (g.edges.filter (Edge.live g.nodes_sp)).countP (fun e => decide (e.dst_ptr = n.addr)) +
        dead_in_count g.nodes_sp g.edges i ≤ n.in_degree := by
  have hdeg := hg.degrees n (List.getElem?_mem hi)
  unfold out_edges in_edges at hdeg
  rw [dead_out_count_eq hg.distinct hi, dead_in_count_eq hg.distinct hi,
    countP_filter_add, countP_filter_add]
  exact hdeg

theorem CountersCover.of_update [LinearOrder N] [LinearOrder E] {g : Graph N E}
    (hg : g.CountersCover) (g' : Graph N E) (h : g.update = (.ok (), g')) :
    g'.CountersCover := by
  obtain ⟨ks, -, hsnd, -, hres⟩ := update_eq g
  rw [hres] at h
  have hg' := (Prod.mk.inj h).2
  rw [← hg']
  have hcount : ∀ p : Edge E → Bool,
      ((unique (fun a b => triple_eq a.1 b.1)
        (sort (fun a b => triple_lt a.1 b.1) ks)).map Prod.snd).countP p ≤
      (g.edges.filter (Edge.live g.nodes_sp)).countP p := by
    intro p
    rw [← hsnd]
    refine (((unique_sublist _ _).map Prod.snd).countP_le p).trans ?_
    exact le_of_eq (((sort_perm _ ks).map Prod.snd).countP_eq p)
  have hsubset : ∀ e ∈ (unique (fun a b => triple_eq a.1 b.1)
      (sort (fun a b => triple_lt a.1 b.1) ks)).map Prod.snd, e ∈ g.edges := by
    intro e he
    have h1 : e ∈ (sort (fun a b => triple_lt a.1 b.1) ks).map Prod.snd :=
      ((unique_sublist _ _).map Prod.snd).subset he
    have h2 : e ∈ ks.map Prod.snd := ((sort_perm _ ks).map Prod.snd).mem_iff.mp h1
    rw [hsnd] at h2
    exact (List.mem_filter.mp h2).1
  have hmem : ∀ n' ∈ sort Node.lt (prune g.nodes_sp g.edges).1,
      ∃ k n, g.nodes_sp[k]? = some n ∧
        n' = Node.released (dead_out_count g.nodes_sp g.edges k)
          (dead_in_count g.nodes_sp g.edges k) n := by
    intro n' hn'
    have h1 : n' ∈ (prune g.nodes_sp g.edges).1 := (sort_perm _ _).mem_iff.mp hn'
    obtain ⟨k, hk⟩ := List.getElem?_of_mem h1
    rw [prune_nodes] at hk
    cases hnk : g.nodes_sp[k]? with
    | none => rw [hnk] at hk; cases hk
    | some n =>
      rw [hnk] at hk
      simp only [Option.map_some', Option.some.injEq] at hk
      exact ⟨k, n, hnk, hk.symm⟩
  refine ⟨?_, ?_, ?_, ?_, ?_⟩
  · show ((sort Node.lt (prune g.nodes_sp g.edges).1).map Node.addr).Nodup
    have hp := (sort_perm Node.lt (prune g.nodes_sp g.edges).1).map Node.addr
    rw [hp.nodup_iff, (prune_maps g.nodes_sp g.edges).1]
    exact hg.distinct
  · intro n' hn'
    obtain ⟨k, n, hk, rfl⟩ := hmem n' hn'
    exact hg.fresh n (List.getElem?_mem hk)
  · intro e he
    exact hg.refs e (hsubset e he)
  · intro n' hn'
    obtain ⟨k, n, hk, rfl⟩ := hmem n' hn'
    have hb := hg.bounded n (List.getElem?_mem hk)
    have hd := hg.dead_le hk
    show dec_times _ n.out_degree < UINT_MOD ∧ dec_times _ n.in_degree < UINT_MOD
    rw [dec_times_of_le _ _ (by omega) hb.1, dec_times_of_le _ _ (by omega) hb.2]
    omega
  · intro n' hn'
    obtain ⟨k, n, hk, rfl⟩ := hmem n' hn'
    have hb := hg.bounded n (List.getElem?_mem hk)
    have hd := hg.dead_le hk
    have h1 := hcount (fun e => decide (e.src_ptr = n.addr))
    have h2 := hcount (fun e => decide (e.dst_ptr = n.addr))
    show ((unique (fun a b => triple_eq a.1 b.1)
        (sort (fun a b => triple_lt a.1 b.1) ks)).map Prod.snd).countP
          (fun e => decide (e.src_ptr = n.addr)) ≤ dec_times _ n.out_degree ∧
      ((unique (fun a b => triple_eq a.1 b.1)
        (sort (fun a b => triple_lt a.1 b.1) ks)).map Prod.snd).countP
          (fun e => decide (e.dst_ptr = n.addr)) ≤ dec_times _ n.in_degree
    rw [dec_times_of_le _ _ (by omega) hb.1, dec_times_of_le _ _ (by omega) hb.2]
    omega

end Graph

namespace Graph

variable {N E : Type}

theorem merge_edges_readable [DecidableEq N] (old_data : N) (new_it : Nat)
    (new_node : Node N) (es : List (Edge E)) :
    ∀ (nodes nodes1 : List (Node N)) (es1 : List (Edge E)),
      merge_edges old_data new_it new_node nodes es = .ok (nodes1, es1) →
      ∀ e ∈ es, ∃ s d, e.get_src_data nodes = .ok s ∧ e.get_dst_data nodes = .ok d := by
  induction es with
  | nil =>
    intro _ _ _ _ e he
    cases he
  | cons e0 es ih =>
    intro nodes nodes1 es1 h e he
    unfold merge_edges at h
    cases hm : merge_edge old_data new_it new_node nodes e0 with
    | error err => rw [hm] at h; cases h
    | ok r =>
      obtain ⟨n1, e1⟩ := r
      rw [hm] at h
      simp only [] at h
      cases hr : merge_edges old_data new_it new_node n1 es with
      | error err => rw [hr] at h; cases h
      | ok r2 =>
        obtain ⟨n2, es2⟩ := r2
        obtain ⟨ha1, hd1⟩ := merge_edge_maps _ _ _ _ _ _ _ hm
        rcases List.mem_cons.mp he with h0 | h0
        · rw [h0]
          rw [merge_edge_eq] at hm
          cases hs : e0.get_src_data nodes with
          | error err => rw [hs] at hm; cases hm
          | ok s =>
            cases hd : e0.get_dst_data nodes with
            | error err => rw [hs, hd] at hm; cases hm
            | ok d => exact ⟨s, d, rfl, rfl⟩
        · obtain ⟨s, d, hs, hd⟩ := ih n1 n2 es2 hr e h0
          exact ⟨s, d, by rw [← get_src_data_eq_of_map ha1 hd1, hs],
            by rw [← get_dst_data_eq_of_map ha1 hd1, hd]⟩

theorem redirect_src_ptr [DecidableEq N] (nodes : List (Node N)) (old_data : N) (a : Nat)
    (e : Edge E) : (e.redirect nodes old_data a).src_ptr =
      if e.get_src_data nodes = .ok old_data then a else e.src_ptr := rfl

theorem redirect_dst_ptr [DecidableEq N] (nodes : List (Node N)) (old_data : N) (a : Nat)
    (e : Edge E) : (e.redirect nodes old_data a).dst_ptr =
      if e.get_dst_data nodes = .ok old_data then a else e.dst_ptr := rfl

theorem CountersCover.of_mergeReplace [DecidableEq N] {g : Graph N E}
    (hg : g.CountersCover) (old_data new_data : N) (g' : Graph N E)
    (h : g.mergeReplace old_data new_data = (.ok (), g'))
    (hw : g.MergeNoWrap old_data new_data) : g'.CountersCover := by
  unfold Graph.mergeReplace at h
  simp only [] at h
  by_cases h1 : find_if (fun n => decide (n.get_data = old_data)) g.nodes_sp = g.nodes_sp.length
  · rw [if_pos h1] at h
    cases h
  · rw [if_neg h1] at h
    cases hn : g.nodes_sp[find_if (fun n => decide (n.get_data = new_data)) g.nodes_sp]? with
    | none => rw [hn] at h; cases h
    | some nn =>
      rw [hn] at h
      simp only [] at h
      cases hm : merge_edges old_data
          (find_if (fun n => decide (n.get_data = new_data)) g.nodes_sp) nn g.nodes_sp
          g.edges with
      | error err => rw [hm] at h; cases h
      | ok r =>
        obtain ⟨nodes1, edges1⟩ := r
        rw [hm] at h
        simp only [] at h
        have hg' := (Prod.mk.inj h).2
        rw [← hg']
        have hread := merge_edges_readable _ _ _ _ _ _ _ hm
        obtain ⟨nodes1', hm', -, -⟩ := merge_edges_ok old_data
          (find_if (fun n => decide (n.get_data = new_data)) g.nodes_sp) nn g.nodes_sp
          g.edges hread
        rw [hm] at hm'
        have hedges : edges1 = g.edges.map (Edge.redirect g.nodes_sp old_data nn.addr) :=
          (Prod.mk.inj (Except.ok.inj hm')).2
        have hnodes := merge_edges_nodes _ _ _ _ _ _ _ hm
        obtain ⟨hmaddr, -⟩ := merge_edges_maps _ _ _ _ _ _ _ hm
        have hwn := hw nn hn
        have hnn := hg.fresh nn (List.getElem?_mem hn)
        have hmem : ∀ n' ∈ erase_at
            (find_if (fun n => decide (n.get_data = old_data)) g.nodes_sp) nodes1,
            ∃ k n, g.nodes_sp[k]? = some n ∧
              n' = (if k = find_if (fun n => decide (n.get_data = new_data)) g.nodes_sp then
                Node.merged (src_count g.nodes_sp old_data g.edges)
                  (dst_count g.nodes_sp old_data g.edges) n
              else n) := by
          intro n' hn'
          obtain ⟨k, hk⟩ := List.getElem?_of_mem ((erase_at_sublist _ _).subset hn')
          rw [hnodes] at hk
          cases hnk : g.nodes_sp[k]? with
          | none => rw [hnk] at hk; cases hk
          | some n =>
            rw [hnk] at hk
            simp only [Option.map_some', Option.some.injEq] at hk
            exact ⟨k, n, hnk, hk.symm⟩
        have haddr : ∀ (k : Nat) (n : Node N),
            (if k = find_if (fun n => decide (n.get_data = new_data)) g.nodes_sp then
              Node.merged (src_count g.nodes_sp old_data g.edges)
                (dst_count g.nodes_sp old_data g.edges) n
            else n).addr = n.addr := by
          intro k n
          split_ifs <;> rfl
        refine ⟨?_, ?_, ?_, ?_, ?_⟩
        · show ((erase_at _ nodes1).map Node.addr).Nodup
          have : (nodes1.map Node.addr).Nodup := by
            rw [hmaddr]
            exact hg.distinct
          exact this.sublist ((erase_at_sublist _ _).map _)
        · intro n' hn'
          obtain ⟨k, n, hk, rfl⟩ := hmem n' hn'
          show _ < g.next_addr
          rw [haddr]
          exact hg.fresh n (List.getElem?_mem hk)
        · intro e' he'
          show e'.src_ptr < g.next_addr ∧ e'.dst_ptr < g.next_addr
          have he2 : e' ∈ edges1 := he'
          rw [hedges] at he2
          obtain ⟨e, he, rfl⟩ := List.mem_map.mp he2
          have := hg.refs e he
          rw [redirect_src_ptr, redirect_dst_ptr]
          constructor
          · split_ifs
            · exact hnn
            · exact this.1
          · split_ifs
            · exact hnn
            · exact this.2
        · intro n' hn'
          obtain ⟨k, n, hk, rfl⟩ := hmem n' hn'
          have hb := hg.bounded n (List.getElem?_mem hk)
          split_ifs
          · exact ⟨inc_times_lt _ _ hb.1, inc_times_lt _ _ hb.2⟩
          · exact hb
        · intro n' hn'
          obtain ⟨k, n, hk, rfl⟩ := hmem n' hn'
          have hdeg := hg.degrees n (List.getElem?_mem hk)
          unfold out_edges in_edges at hdeg
          show edges1.countP (fun e => decide (e.src_ptr = _)) ≤ _ ∧
            edges1.countP (fun e => decide (e.dst_ptr = _)) ≤ _
          rw [haddr, hedges]
          by_cases hkn : k = find_if (fun n => decide (n.get_data = new_data)) g.nodes_sp
          · have hnn' : n = nn := by
              rw [hkn, hn] at hk
              exact (Option.some.inj hk).symm
            rw [if_pos hkn, hnn']
            rw [hnn'] at hdeg
            have ho : (Node.merged (src_count g.nodes_sp old_data g.edges)
                (dst_count g.nodes_sp old_data g.edges) nn).out_degree =
                nn.out_degree + src_count g.nodes_sp old_data g.edges :=
              inc_times_of_lt _ _ hwn.1
            have hi : (Node.merged (src_count g.nodes_sp old_data g.edges)
                (dst_count g.nodes_sp old_data g.edges) nn).in_degree =
                nn.in_degree + dst_count g.nodes_sp old_data g.edges :=
              inc_times_of_lt _ _ hwn.2
            rw [ho, hi]
            constructor
            · have := countP_map_le_add (Edge.redirect g.nodes_sp old_data nn.addr)
                (fun e => decide (e.src_ptr = nn.addr))
                (fun e => decide (e.src_ptr = nn.addr))
                (fun e => decide (e.get_src_data g.nodes_sp = .ok old_data)) g.edges
                (by
                  intro e _ hp
                  beta_reduce at hp
                  rw [redirect_src_ptr] at hp
                  by_cases hc : e.get_src_data g.nodes_sp = .ok old_data
                  · exact Or.inr (decide_eq_true hc)
                  · rw [if_neg hc] at hp
                    exact Or.inl hp)
              unfold src_count
              omega
            · have := countP_map_le_add (Edge.redirect g.nodes_sp old_data nn.addr)
                (fun e => decide (e.dst_ptr = nn.addr))
                (fun e => decide (e.dst_ptr = nn.addr))
                (fun e => decide (e.get_dst_data g.nodes_sp = .ok old_data)) g.edges
                (by
                  intro e _ hp
                  beta_reduce at hp
                  rw [redirect_dst_ptr] at hp
                  by_cases hc : e.get_dst_data g.nodes_sp = .ok old_data
                  · exact Or.inr (decide_eq_true hc)
                  · rw [if_neg hc] at hp
                    exact Or.inl hp)
              unfold dst_count
              omega
          · rw [if_neg hkn]
            have hne : nn.addr ≠ n.addr := by
              intro hc
              exact hkn (addr_index_unique hg.distinct hk hn hc.symm)
            constructor
            · refine (countP_map_le (Edge.redirect g.nodes_sp old_data nn.addr)
                (fun e => decide (e.src_ptr = n.addr))
                (fun e => decide (e.src_ptr = n.addr)) g.edges ?_).trans hdeg.1
              intro e _ hp
              beta_reduce at hp
              rw [redirect_src_ptr] at hp
              by_cases hc : e.get_src_data g.nodes_sp = .ok old_data
              · rw [if_pos hc] at hp
                exact absurd (of_decide_eq_true hp) hne
              · rw [if_neg hc] at hp
                exact hp
            · refine (countP_map_le (Edge.redirect g.nodes_sp old_data nn.addr)
                (fun e => decide (e.dst_ptr = n.addr))
                (fun e => decide (e.dst_ptr = n.addr)) g.edges ?_).trans hdeg.2
              intro e _ hp
              beta_reduce at hp
              rw [redirect_dst_ptr] at hp
              by_cases hc : e.get_dst_data g.nodes_sp = .ok old_data
              · rw [if_pos hc] at hp
                exact absurd (of_decide_eq_true hp) hne
              · rw [if_neg hc] at hp
                exact hp

end Graph

namespace Graph

variable {N E : Type}

theorem ReachableNoWrap.reachable [LinearOrder N] [LinearOrder E] {g : Graph N E}
    (h : ReachableNoWrap g) : Reachable g := by
  induction h with
  | empty => exact Reachable.empty
  | addNode g v _ ih => exact Reachable.addNode g v ih
  | addEdge g src dst w r g' _ h _ ih => exact Reachable.addEdge g src dst w r g' ih h
  | replace g o n r g' _ h ih => exact Reachable.replace g o n r g' ih h
  | mergeReplace g o n g' _ h _ ih => exact Reachable.mergeReplace g o n g' ih h
  | deleteNode g v _ ih => exact Reachable.deleteNode g v ih
  | deleteEdge g src dst w g' _ h ih => exact Reachable.deleteEdge g src dst w g' ih h
  | clear g _ ih => exact Reachable.clear g ih
  | update g g' _ h ih => exact Reachable.update g g' ih h
  | begin g _ ih => exact Reachable.begin g ih
  | next g g' _ h ih => exact Reachable.next g g' ih h

theorem ReachableNoWrap.countersCover [LinearOrder N] [LinearOrder E] {g : Graph N E}
    (h : ReachableNoWrap g) : g.CountersCover := by
  induction h with
  | empty => exact CountersCover.of_empty
  | addNode g v _ ih => exact ih.of_addNode v
  | addEdge g src dst w r g' _ h hw ih => exact ih.of_addEdge src dst w r g' h hw
  | replace g o n r g' _ h ih => exact ih.of_replace o n r g' h
  | mergeReplace g o n g' _ h hw ih => exact ih.of_mergeReplace o n g' h hw
  | deleteNode g v _ ih => exact ih.of_deleteNode v
  | deleteEdge g src dst w g' _ h ih => exact ih.of_deleteEdge src dst w g' h
  | clear g _ _ => exact CountersCover.of_clear g
  | update g g' _ h ih => exact ih.of_update g' h
  | begin g _ ih => exact ih.of_cursor _
  | next g g' _ h ih => exact ih.of_next g' h

theorem reachableNoWrap_ex_one_edge : ReachableNoWrap ex_one_edge := by
  refine ReachableNoWrap.addEdge (ex_cycle 0) 1 2 5 true _
    (ReachableNoWrap.addNode _ 2 (ReachableNoWrap.addNode _ 1 ReachableNoWrap.empty))
    (by decide) (fun _ => ⟨?_, ?_⟩)
  · intro n hn
    have h1 : (ex_cycle 0).node_of 1 = some ⟨0, 1, 0, 0⟩ := by decide
    rw [h1] at hn
    cases hn
    decide
  · intro n hn
    have h1 : (ex_cycle 0).node_of 2 = some ⟨1, 2, 0, 0⟩ := by decide
    rw [h1] at hn
    cases hn
    decide

theorem reachableNoWrap_ex_dangling : ReachableNoWrap ex_dangling :=
  ReachableNoWrap.deleteNode ex_one_edge 1 reachableNoWrap_ex_one_edge

/-- C19, amended: in every state reachable from the empty graph by successful public
operations none of whose increments wraps an unsigned counter, each node of the node
collection has out-degree at least the number of edges whose source reference is that
node and in-degree at least the number of edges whose destination reference is that node;
consequently the pruning pass of `update` applies to each counter at most as many
decrements as the counter holds, and leaves the node with the true differences: no
decrement acts on a counter that is 0. -/
theorem counters_cover_edges [LinearOrder N] [LinearOrder E] (g : Graph N E)
    (h : ReachableNoWrap g) :
    (∀ n ∈ g.nodes_sp, g.out_edges n ≤ n.out_degree ∧ g.in_edges n ≤ n.in_degree) ∧
      ∀ i n, g.nodes_sp[i]? = some n →
        dead_out_count g.nodes_sp g.edges i ≤ n.out_degree ∧
        dead_in_count g.nodes_sp g.edges i ≤ n.in_degree ∧
        (prune g.nodes_sp g.edges).1[i]? = some
          { n with
            out_degree := n.out_degree - dead_out_count g.nodes_sp g.edges i,
            in_degree := n.in_degree - dead_in_count g.nodes_sp g.edges i } := by
  have hg := h.countersCover
  refine ⟨hg.degrees, ?_⟩
  intro i n hi
  have hb := hg.bounded n (List.getElem?_mem hi)
  have hd := hg.dead_le hi
  have h1 : dead_out_count g.nodes_sp g.edges i ≤ n.out_degree := by omega
  have h2 : dead_in_count g.nodes_sp g.edges i ≤ n.in_degree := by omega
  refine ⟨h1, h2, ?_⟩
  rw [prune_nodes, hi, Option.map_some']
  unfold Node.released
  rw [dec_times_of_le _ _ h1 hb.1, dec_times_of_le _ _ h2 hb.2]

/-- Witness of C19 on the state after `addNode(1)`, `addNode(2)`, `addEdge(1, 2, 5)`,
`deleteNode(1)`: the node carrying 2 has in-degree 1, one dangling edge ends at it, and
the pruning pass leaves it with in-degree 0. -/
theorem counters_cover_edges_witness :
    ReachableNoWrap ex_dangling ∧
      ((∀ n ∈ ex_dangling.nodes_sp,
          ex_dangling.out_edges n ≤ n.out_degree ∧ ex_dangling.in_edges n ≤ n.in_degree) ∧
        ∀ i n, ex_dangling.nodes_sp[i]? = some n →
          dead_out_count ex_dangling.nodes_sp ex_dangling.edges i ≤ n.out_degree ∧
          dead_in_count ex_dangling.nodes_sp ex_dangling.edges i ≤ n.in_degree ∧
          (prune ex_dangling.nodes_sp ex_dangling.edges).1[i]? = some
            { n with
              out_degree := n.out_degree - dead_out_count ex_dangling.nodes_sp
                ex_dangling.edges i,
              in_degree := n.in_degree - dead_in_count ex_dangling.nodes_sp
                ex_dangling.edges i }) ∧
      dead_in_count ex_dangling.nodes_sp ex_dangling.edges 0 = 1 ∧
      (prune ex_dangling.nodes_sp ex_dangling.edges).1 = [⟨1, 2, 0, 0⟩] :=
  ⟨reachableNoWrap_ex_dangling, counters_cover_edges ex_dangling reachableNoWrap_ex_dangling,
    by decide, by decide⟩

/-- Counterexample to C19 as stated: the state with the edge `(1, 2, 5)` in which both
counters have wrapped to 0 is reachable by successful public operations, and there the
node carrying 1 has out-degree 0 with one edge leaving it; after `deleteNode(2)` the
pruning pass applies one `dec_out_degree` to that counter 0 and leaves it at
4294967295. -/
theorem counters_cover_edges_counterexample :
    Reachable ex_wrapped ∧
      ¬ (∀ n ∈ ex_wrapped.nodes_sp,
        ex_wrapped.out_edges n ≤ n.out_degree ∧ ex_wrapped.in_edges n ≤ n.in_degree) ∧
      Reachable (ex_wrapped.deleteNode 2) ∧
      (ex_wrapped.deleteNode 2).nodes_sp = [⟨0, 1, 0, 0⟩] ∧
      dead_out_count (ex_wrapped.deleteNode 2).nodes_sp (ex_wrapped.deleteNode 2).edges 0 = 1 ∧
      (prune (ex_wrapped.deleteNode 2).nodes_sp (ex_wrapped.deleteNode 2).edges).1 =
        [⟨0, 1, 0, 4294967295⟩] := by
  refine ⟨reachable_ex_wrapped, ?_, Reachable.deleteNode _ 2 reachable_ex_wrapped, ?_, ?_, ?_⟩
  · unfold out_edges in_edges
    decide
  · decide
  · decide
  · decide

end Graph
